import Mathlib

/-!
# Depth-buffered cube rasterizer (`src/cube.c`)

A shallow embedding of the rendering core of `cube.c`.

Modelling conventions
* There are two embeddings of the arithmetic. In the first one C `float`/`double`
  values are idealised as exact numbers: rationals `ℚ` in the rasterizer, an
  arbitrary field `K` in the transform / projection / lighting stages (instantiated
  with `ℝ` when `cos`, `sin`, `sqrt` are involved); a depth cell is a `WithTop ℚ`
  with `⊤` for `INFINITY`, and C `int` is `ℤ` with the conversion float → int
  truncating toward zero (`toInt`).
* In the second one (section "Floating-point model", names ending in `_f`) every
  operation is rounded to IEEE-754 `binary32` / `binary64`, values may be infinite
  or NaN, and a float → int conversion outside the range of a 32-bit `int`, or an
  `int` overflow, makes the result undefined (`none`). The statements that depend
  on rounding, on overflow or on the range of `int` are made on this embedding.
* `wchar_t` is the code point as a natural number.
* The global arrays `zbuffer[HEIGHT][WIDTH]`, `buffer[HEIGHT][WIDTH]` are the two
  fields of `Buffers`; functions that mutate them take and return a `Buffers`.
* `for` loops are structural recursions on an iteration budget that is computed
  from the loop bounds; `yloop_budget_exact` / `xloop_budget_exact` show that the
  budget is never what stops a loop.
-/

namespace Cube

/-! ## Constants and data model (cube.c:9-41) -/

/-- The constant `WIDTH` (cube.c:9), 120 columns. -/
abbrev WIDTH : ℕ := 120

/-- The constant `HEIGHT` (cube.c:10), 40 rows. -/
abbrev HEIGHT : ℕ := 40

/-- The constant `CUBE_SIZE` (cube.c:11), 15.0. -/
def CUBE_SIZE {K : Type} [Field K] : K := 15

/-- The constant `DEPTH` (cube.c:12), 100.0. -/
def DEPTH {K : Type} [Field K] : K := 100

/-- The struct `Point3D` (cube.c:15-17): three floats `x, y, z`. -/
structure Point3D (K : Type) where
  x : K
  y : K
  z : K

/-- The struct `Point2D` (cube.c:20-22): two floats `x, y`. -/
structure Point2D (K : Type) where
  x : K
  y : K
deriving DecidableEq

/-- Wide characters are represented by their code point. -/
abbrev wchar_t : Type := ℕ

/-- The blank glyph `L' '` written by `clear_buffers`. -/
def BLANK : wchar_t := 32

/-- The palette `shades` (cube.c:137): the four block glyphs U+2591, U+2592, U+2593,
U+2588, darkest to lightest. -/
def shades : List wchar_t := [0x2591, 0x2592, 0x2593, 0x2588]

/-- The two global frame buffers `float zbuffer[HEIGHT][WIDTH]` and
`wchar_t buffer[HEIGHT][WIDTH]` (cube.c:40-41). -/
structure Buffers where
  zbuffer : Fin HEIGHT → Fin WIDTH → WithTop ℚ
  buffer : Fin HEIGHT → Fin WIDTH → wchar_t

/-- Array store `a[y][x] = v` on a two-dimensional array. -/
def store {α : Type} (a : Fin HEIGHT → Fin WIDTH → α) (y : Fin HEIGHT) (x : Fin WIDTH)
    (v : α) : Fin HEIGHT → Fin WIDTH → α :=
  fun r c => if r = y ∧ c = x then v else a r c

/-- C conversion of a floating value to `int`: truncation toward zero. -/
def toInt {K : Type} [LinearOrderedField K] [FloorRing K] (q : K) : ℤ :=
  if 0 ≤ q then ⌊q⌋ else ⌈q⌉

/-! ## clear_buffers (cube.c:44-51) -/

/-- Body of the inner loop of `clear_buffers`:
`zbuffer[y][x] = INFINITY; buffer[y][x] = L' ';` -/
def clear_cell (s : Buffers) (y : Fin HEIGHT) (x : Fin WIDTH) : Buffers :=
  { zbuffer := store s.zbuffer y x ⊤, buffer := store s.buffer y x BLANK }

/-- Inner loop `for (int x = 0; x < WIDTH; x++)` of `clear_buffers`. -/
def clear_row (s : Buffers) (y : Fin HEIGHT) : Buffers :=
  (List.finRange WIDTH).foldl (fun acc x => clear_cell acc y x) s

/-- The function `clear_buffers`: outer loop `for (int y = 0; y < HEIGHT; y++)`. -/
def clear_buffers (s : Buffers) : Buffers :=
  (List.finRange HEIGHT).foldl clear_row s

/-! ## draw_filled_triangle (cube.c:83-129) -/

/-- The six mutable locals `p1, p2, p3, z1, z2, z3` of `draw_filled_triangle`. -/
structure Tri where
  p1 : Point2D ℚ
  p2 : Point2D ℚ
  p3 : Point2D ℚ
  z1 : ℚ
  z2 : ℚ
  z3 : ℚ

/-- Line 85: if `p1.y > p2.y`, swap `p1, p2` and `z1, z2`. -/
def swap12 (t : Tri) : Tri :=
  if t.p1.y > t.p2.y then { t with p1 := t.p2, p2 := t.p1, z1 := t.z2, z2 := t.z1 } else t

/-- Line 86: if `p1.y > p3.y`, swap `p1, p3` and `z1, z3`. -/
def swap13 (t : Tri) : Tri :=
  if t.p1.y > t.p3.y then { t with p1 := t.p3, p3 := t.p1, z1 := t.z3, z3 := t.z1 } else t

/-- Line 87: if `p2.y > p3.y`, swap `p2, p3` and `z2, z3`. -/
def swap23 (t : Tri) : Tri :=
  if t.p2.y > t.p3.y then { t with p2 := t.p3, p3 := t.p2, z2 := t.z3, z3 := t.z2 } else t

/-- Lines 85-87: the three compare-and-swap steps, in source order. -/
def sort_by_y (t : Tri) : Tri := swap23 (swap13 (swap12 t))

/-- Line 89: `int total_height = p3.y - p1.y;` (on the sorted locals). -/
def total_height (t : Tri) : ℤ := toInt (t.p3.y - t.p1.y)

/-- Line 93: `bool second_half = y > p2.y || p2.y == p1.y;` -/
def second_half (t : Tri) (y : ℤ) : Bool :=
  decide ((y : ℚ) > t.p2.y) || decide (t.p2.y = t.p1.y)

/-- Line 94: `int segment_height = second_half ? p3.y - p2.y : p2.y - p1.y;` -/
def segment_height (t : Tri) (y : ℤ) : ℤ :=
  if second_half t y then toInt (t.p3.y - t.p2.y) else toInt (t.p2.y - t.p1.y)

/-- Line 97: `float alpha = (float)(y - p1.y) / total_height;` -/
def alpha (t : Tri) (y : ℤ) : ℚ := ((y : ℚ) - t.p1.y) / (total_height t : ℚ)

/-- Lines 98-100: `float beta = second_half ? (float)(y - p2.y) / segment_height
: (float)(y - p1.y) / segment_height;` -/
def beta (t : Tri) (y : ℤ) : ℚ :=
  if second_half t y then ((y : ℚ) - t.p2.y) / (segment_height t y : ℚ)
  else ((y : ℚ) - t.p1.y) / (segment_height t y : ℚ)

/-- The span locals `A, B, zA, zB` of one scanline. -/
structure Span where
  A : Point2D ℚ
  B : Point2D ℚ
  zA : ℚ
  zB : ℚ

/-- Lines 102-111: the end points `A` (long edge, at `alpha`) and `B` (short edge,
at `beta`) and their depths, before the left/right swap. -/
def edges_at (t : Tri) (y : ℤ) (al be : ℚ) : Span :=
  { A := ⟨t.p1.x + (t.p3.x - t.p1.x) * al, t.p1.y + (t.p3.y - t.p1.y) * al⟩
    B := if second_half t y then
          ⟨t.p2.x + (t.p3.x - t.p2.x) * be, t.p2.y + (t.p3.y - t.p2.y) * be⟩
        else
          ⟨t.p1.x + (t.p2.x - t.p1.x) * be, t.p1.y + (t.p2.y - t.p1.y) * be⟩
    zA := t.z1 + (t.z3 - t.z1) * al
    zB := if second_half t y then t.z2 + (t.z3 - t.z2) * be
          else t.z1 + (t.z2 - t.z1) * be }

/-- Lines 97-111 for scanline `y`: `alpha`, `beta` and the span they give. -/
def edges (t : Tri) (y : ℤ) : Span := edges_at t y (alpha t y) (beta t y)

/-- Lines 113-116: if `A.x > B.x`, swap `A, B` and `zA, zB`. -/
def orient (sp : Span) : Span :=
  if sp.A.x > sp.B.x then { A := sp.B, B := sp.A, zA := sp.zB, zB := sp.zA } else sp

/-- Line 119: `float phi = B.x == A.x ? 1.0 : (float)(x - A.x) / (B.x - A.x);` -/
def phi (sp : Span) (x : ℤ) : ℚ :=
  if sp.B.x = sp.A.x then 1 else ((x : ℚ) - sp.A.x) / (sp.B.x - sp.A.x)

/-- Line 120: `float z = zA + (zB - zA) * phi;` for a given value of `phi`. -/
def depth_at (sp : Span) (ph : ℚ) : ℚ := sp.zA + (sp.zB - sp.zA) * ph

/-- Lines 119-120: the depth of the fragment at column `x` of a span. -/
def pixel_depth (sp : Span) (x : ℤ) : ℚ := depth_at sp (phi sp x)

/-- Lines 121-126: the bounds check and the depth test guarding the two stores. -/
def plot (s : Buffers) (x y : ℤ) (z : ℚ) (shade : wchar_t) : Buffers :=
  if h : 0 ≤ x ∧ x < (WIDTH : ℤ) ∧ 0 ≤ y ∧ y < (HEIGHT : ℤ) then
    let yi : Fin HEIGHT := ⟨y.toNat, by have := h.2.2.1; have := h.2.2.2; omega⟩
    let xi : Fin WIDTH := ⟨x.toNat, by have := h.1; have := h.2.1; omega⟩
    if (z : WithTop ℚ) < s.zbuffer yi xi then
      { zbuffer := store s.zbuffer yi xi (z : WithTop ℚ), buffer := store s.buffer yi xi shade }
    else s
  else s

/-- Lines 118-127: the loop `for (int x = A.x; x <= B.x; x++)`; the first argument
is the iteration budget, the second the current value of `x`. -/
def xloop (sp : Span) (y : ℤ) (shade : wchar_t) : ℕ → ℤ → Buffers → Buffers
  | 0, _, s => s
  | n + 1, x, s =>
    if (x : ℚ) ≤ sp.B.x then xloop sp y shade n (x + 1) (plot s x y (pixel_depth sp x) shade)
    else s

/-- Iteration budget of the `x` loop of a span. -/
def xbudget (sp : Span) : ℕ := (⌊sp.B.x⌋ + 1 - toInt sp.A.x).toNat

/-- Lines 93-127: the body of the `y` loop for one scanline. -/
def scanline (t : Tri) (shade : wchar_t) (y : ℤ) (s : Buffers) : Buffers :=
  if segment_height t y = 0 then s
  else xloop (orient (edges t y)) y shade (xbudget (orient (edges t y)))
    (toInt (orient (edges t y)).A.x) s

/-- Lines 92-128: the loop `for (int y = p1.y; y <= p3.y; y++)`; the first
argument is the iteration budget, the second the current value of `y`. -/
def yloop (t : Tri) (shade : wchar_t) : ℕ → ℤ → Buffers → Buffers
  | 0, _, s => s
  | n + 1, y, s =>
    if (y : ℚ) ≤ t.p3.y then yloop t shade n (y + 1) (scanline t shade y s) else s

/-- Iteration budget of the `y` loop. -/
def ybudget (t : Tri) : ℕ := (⌊t.p3.y⌋ + 1 - toInt t.p1.y).toNat

/-- Lines 89-128 on the already sorted locals. -/
def fill_sorted (s : Buffers) (t : Tri) (shade : wchar_t) : Buffers :=
  if total_height t = 0 then s
  else yloop t shade (ybudget t) (toInt t.p1.y) s

/-- The function `draw_filled_triangle(p1, p2, p3, z1, z2, z3, shade)`, acting on
the global buffers `s`. -/
def draw_filled_triangle (s : Buffers) (p1 p2 p3 : Point2D ℚ) (z1 z2 z3 : ℚ)
    (shade : wchar_t) : Buffers :=
  fill_sorted s (sort_by_y ⟨p1, p2, p3, z1, z2, z3⟩) shade

/-! ## Fragments

The loops of `draw_filled_triangle` visit pixels `(x, y)` with a depth `z`; which
pixels and depths are visited does not depend on the buffers.  `fragments` runs
the same loops and collects the visited `(x, y, z)` instead of plotting them;
`draw_eq_plot_all` shows that drawing is plotting the fragments in order. -/

/-- One visit of the loop body at lines 119-126: the pixel and its depth. -/
structure Frag where
  x : ℤ
  y : ℤ
  z : ℚ

/-- The fragments visited by the `x` loop (same recursion as `xloop`). -/
def xfrags (sp : Span) (y : ℤ) : ℕ → ℤ → List Frag
  | 0, _ => []
  | n + 1, x =>
    if (x : ℚ) ≤ sp.B.x then ⟨x, y, pixel_depth sp x⟩ :: xfrags sp y n (x + 1) else []

/-- The fragments visited on scanline `y` (same case split as `scanline`). -/
def scanline_frags (t : Tri) (y : ℤ) : List Frag :=
  if segment_height t y = 0 then []
  else xfrags (orient (edges t y)) y (xbudget (orient (edges t y)))
    (toInt (orient (edges t y)).A.x)

/-- The fragments visited by the `y` loop (same recursion as `yloop`). -/
def yfrags (t : Tri) : ℕ → ℤ → List Frag
  | 0, _ => []
  | n + 1, y => if (y : ℚ) ≤ t.p3.y then scanline_frags t y ++ yfrags t n (y + 1) else []

/-- The fragments visited for already sorted locals (as `fill_sorted`). -/
def fragments_sorted (t : Tri) : List Frag :=
  if total_height t = 0 then [] else yfrags t (ybudget t) (toInt t.p1.y)

/-- The fragments one call `draw_filled_triangle(p1,p2,p3,z1,z2,z3,_)` visits. -/
def fragments (p1 p2 p3 : Point2D ℚ) (z1 z2 z3 : ℚ) : List Frag :=
  fragments_sorted (sort_by_y ⟨p1, p2, p3, z1, z2, z3⟩)

/-- Plot a list of fragments, in order, with one shade. -/
def plot_all (s : Buffers) (shade : wchar_t) (fs : List Frag) : Buffers :=
  fs.foldl (fun acc f => plot acc f.x f.y f.z shade) s

/-- The least depth among the fragments of `fs` that fall on grid cell
`(cx, cy)`; `⊤` when no fragment falls there. -/
def cell_min (fs : List Frag) (cy : Fin HEIGHT) (cx : Fin WIDTH) : WithTop ℚ :=
  fs.foldr (fun f m => if f.x = (cx : ℤ) ∧ f.y = (cy : ℤ) then min (f.z : WithTop ℚ) m else m) ⊤

/-! ## Division-checked rasterizer

The same code with every executed division routed through `checked_div`, which
fails on a zero divisor. -/

/-- A division that reports a zero divisor as `none`. -/
def checked_div (a b : ℚ) : Option ℚ := if b = 0 then none else some (a / b)

/-- Line 97 with the division checked. -/
def alpha_checked (t : Tri) (y : ℤ) : Option ℚ :=
  checked_div ((y : ℚ) - t.p1.y) (total_height t : ℚ)

/-- Lines 98-100 with the division checked. -/
def beta_checked (t : Tri) (y : ℤ) : Option ℚ :=
  if second_half t y then checked_div ((y : ℚ) - t.p2.y) (segment_height t y : ℚ)
  else checked_div ((y : ℚ) - t.p1.y) (segment_height t y : ℚ)

/-- Line 119 with the division checked: no division at all when `B.x == A.x`. -/
def phi_checked (sp : Span) (x : ℤ) : Option ℚ :=
  if sp.B.x = sp.A.x then some 1 else checked_div ((x : ℚ) - sp.A.x) (sp.B.x - sp.A.x)

/-- Lines 118-127 with the division checked. -/
def xloop_checked (sp : Span) (y : ℤ) (shade : wchar_t) : ℕ → ℤ → Buffers → Option Buffers
  | 0, _, s => some s
  | n + 1, x, s =>
    if (x : ℚ) ≤ sp.B.x then
      match phi_checked sp x with
      | none => none
      | some ph => xloop_checked sp y shade n (x + 1) (plot s x y (depth_at sp ph) shade)
    else some s

/-- Lines 93-127 with the divisions checked. -/
def scanline_checked (t : Tri) (shade : wchar_t) (y : ℤ) (s : Buffers) : Option Buffers :=
  if segment_height t y = 0 then some s
  else
    match alpha_checked t y, beta_checked t y with
    | some al, some be =>
      xloop_checked (orient (edges_at t y al be)) y shade
        (xbudget (orient (edges_at t y al be))) (toInt (orient (edges_at t y al be)).A.x) s
    | _, _ => none

/-- Lines 92-128 with the divisions checked. -/
def yloop_checked (t : Tri) (shade : wchar_t) : ℕ → ℤ → Buffers → Option Buffers
  | 0, _, s => some s
  | n + 1, y, s =>
    if (y : ℚ) ≤ t.p3.y then
      match scanline_checked t shade y s with
      | none => none
      | some s1 => yloop_checked t shade n (y + 1) s1
    else some s

/-- Lines 89-128 with the divisions checked. -/
def fill_sorted_checked (s : Buffers) (t : Tri) (shade : wchar_t) : Option Buffers :=
  if total_height t = 0 then some s
  else yloop_checked t shade (ybudget t) (toInt t.p1.y) s

/-- The function `draw_filled_triangle` with every executed division checked:
`none` means that some executed division had a zero divisor. -/
def draw_filled_triangle_checked (s : Buffers) (p1 p2 p3 : Point2D ℚ) (z1 z2 z3 : ℚ)
    (shade : wchar_t) : Option Buffers :=
  fill_sorted_checked s (sort_by_y ⟨p1, p2, p3, z1, z2, z3⟩) shade

/-! ## Degenerate triangles -/

/-- The three points lie on one line (zero signed area). -/
def collinear (p1 p2 p3 : Point2D ℚ) : Prop :=
  (p2.x - p1.x) * (p3.y - p1.y) - (p3.x - p1.x) * (p2.y - p1.y) = 0

/-- A degenerate triangle: the points are collinear, or two of them coincide. -/
def degenerate (p1 p2 p3 : Point2D ℚ) : Prop :=
  collinear p1 p2 p3 ∨ p1 = p2 ∨ p1 = p3 ∨ p2 = p3

/-! ## Geometry, transform, projection and lighting (cube.c:25-38, 54-81, 146-172)

The library functions `cos`, `sin` and `sqrt` are parameters. -/

/-- The table `Point3D vertices[8]` (cube.c:25-28). -/
def vertices {K : Type} [Field K] : Fin 8 → Point3D K
  | 0 => ⟨-1, -1, -1⟩
  | 1 => ⟨1, -1, -1⟩
  | 2 => ⟨1, 1, -1⟩
  | 3 => ⟨-1, 1, -1⟩
  | 4 => ⟨-1, -1, 1⟩
  | 5 => ⟨1, -1, 1⟩
  | 6 => ⟨1, 1, 1⟩
  | 7 => ⟨-1, 1, 1⟩

/-- The table `int faces[6][4]` (cube.c:31-38). -/
def faces : Fin 6 → Fin 4 → Fin 8
  | 0 => ![0, 1, 2, 3]
  | 1 => ![5, 4, 7, 6]
  | 2 => ![4, 0, 3, 7]
  | 3 => ![1, 5, 6, 2]
  | 4 => ![4, 5, 1, 0]
  | 5 => ![3, 2, 6, 7]

/-- The function `project` (cube.c:54-61); `WIDTH/2` and `HEIGHT/2` are integer
divisions. -/
def project {K : Type} [Field K] (p : Point3D K) : Point2D K :=
  let scale : K := DEPTH / (p.z + DEPTH)
  ⟨p.x * scale * CUBE_SIZE + ((WIDTH / 2 : ℕ) : K), p.y * scale * CUBE_SIZE + ((HEIGHT / 2 : ℕ) : K)⟩

/-- The function `rotate_y` (cube.c:64-71). -/
def rotate_y {K : Type} [Field K] (cos sin : K → K) (p : Point3D K) (angle : K) : Point3D K :=
  ⟨p.x * cos angle - p.z * sin angle, p.y, p.x * sin angle + p.z * cos angle⟩

/-- The function `rotate_x` (cube.c:74-81). -/
def rotate_x {K : Type} [Field K] (cos sin : K → K) (p : Point3D K) (angle : K) : Point3D K :=
  ⟨p.x, p.y * cos angle - p.z * sin angle, p.y * sin angle + p.z * cos angle⟩

/-- Lines 147-148 of `main`: `rotated[i]` for the current `angle`. -/
def rotated {K : Type} [Field K] (cos sin : K → K) (angle : K) (i : Fin 8) : Point3D K :=
  rotate_x cos sin (rotate_y cos sin (vertices i) angle) (angle * (1 / 2))

/-- Lines 164-166 of `main`: the cross product `(nx, ny, nz)` of `v2 - v1` and
`v3 - v1`. -/
def normal {K : Type} [Field K] (v1 v2 v3 : Point3D K) : Point3D K :=
  ⟨(v2.y - v1.y) * (v3.z - v1.z) - (v2.z - v1.z) * (v3.y - v1.y),
   (v2.z - v1.z) * (v3.x - v1.x) - (v2.x - v1.x) * (v3.z - v1.z),
   (v2.x - v1.x) * (v3.y - v1.y) - (v2.y - v1.y) * (v3.x - v1.x)⟩

/-- Lines 159-166 of `main`: the normal of face `f`, from `v1 = rotated[faces[f][1]]`,
`v2 = rotated[faces[f][2]]`, `v3 = rotated[faces[f][0]]`. -/
def face_normal {K : Type} [Field K] (cos sin : K → K) (angle : K) (f : Fin 6) : Point3D K :=
  normal (rotated cos sin angle (faces f 1)) (rotated cos sin angle (faces f 2))
    (rotated cos sin angle (faces f 0))

/-- Line 169 of `main`: the divisor `sqrt(nx*nx + ny*ny + nz*nz)`. -/
def normal_length {K : Type} [Field K] (sqrt : K → K) (n : Point3D K) : K :=
  sqrt (n.x * n.x + n.y * n.y + n.z * n.z)

/-- Line 169 of `main`: `light = (nx + ny - nz) / sqrt(nx*nx + ny*ny + nz*nz)`. -/
def light {K : Type} [Field K] (sqrt : K → K) (n : Point3D K) : K :=
  (n.x + n.y - n.z) / normal_length sqrt n

/-- The greatest value of a 32-bit `int`. -/
def INT_MAX : ℤ := 2147483647

/-- The least value of a 32-bit `int`. -/
def INT_MIN : ℤ := -2147483648

/-- Lines 170-172 of `main`: `int shade_idx = (light + 1.0) * 1.5;` followed by
the two clamping tests. The conversion to `int` truncates toward zero and is
undefined (`none`) when the truncated value is outside the range of `int`. -/
def shade_idx {K : Type} [LinearOrderedField K] [FloorRing K] (light : K) : Option ℤ :=
  if INT_MIN ≤ toInt ((light + 1) * (3 / 2)) ∧ toInt ((light + 1) * (3 / 2)) ≤ INT_MAX then
    let i0 : ℤ := toInt ((light + 1) * (3 / 2))
    let i1 : ℤ := if i0 < 0 then 0 else i0
    some (if i1 ≥ 4 then 3 else i1)
  else none

/-! ## Triangle interiors -/

/-- Twice the signed area of the triangle `a b c`. -/
def edge_fn (a b c : Point2D ℚ) : ℚ := (b.x - a.x) * (c.y - a.y) - (c.x - a.x) * (b.y - a.y)

/-- The point `(x, y)` lies strictly inside the triangle `p1 p2 p3`: it is strictly
on the same side of the three edges. -/
def strictly_inside (p1 p2 p3 : Point2D ℚ) (x y : ℚ) : Prop :=
  (0 < edge_fn p1 p2 ⟨x, y⟩ ∧ 0 < edge_fn p2 p3 ⟨x, y⟩ ∧ 0 < edge_fn p3 p1 ⟨x, y⟩) ∨
  (edge_fn p1 p2 ⟨x, y⟩ < 0 ∧ edge_fn p2 p3 ⟨x, y⟩ < 0 ∧ edge_fn p3 p1 ⟨x, y⟩ < 0)

/-! ## Arrangements of the arguments -/

/-- The locals `v` hold the three (point, depth) pairs of `u` in one of the six
possible orders. -/
def arrangement (u v : Tri) : Prop :=
  v = u ∨ v = ⟨u.p1, u.p3, u.p2, u.z1, u.z3, u.z2⟩ ∨
    v = ⟨u.p2, u.p1, u.p3, u.z2, u.z1, u.z3⟩ ∨
    v = ⟨u.p2, u.p3, u.p1, u.z2, u.z3, u.z1⟩ ∨
    v = ⟨u.p3, u.p1, u.p2, u.z3, u.z1, u.z2⟩ ∨
    v = ⟨u.p3, u.p2, u.p1, u.z3, u.z2, u.z1⟩

/-! ## Floating-point model

The claims whose truth depends on rounding, overflow or the range of `int` are
settled on a second embedding in which every `float` operation is rounded.

* A floating value `FVal` is a finite rational, `+inf`, `-inf` or NaN; the two signed
  zeros are not distinguished.
* A format `Fmt` is a rounding function on the rationals and the largest finite
  value; `binary32` and `binary64` are the IEEE-754 formats with rounding to nearest,
  ties to even, subnormal numbers included.
* Each arithmetic operation computes the exact result, rounds it and overflows to an
  infinity beyond `fmax`; operations on `float` operands round to `binary32` (no
  contraction, no excess precision), operations with a `double` operand to
  `binary64`.
* A conversion from a floating value to `int` truncates toward zero and is undefined
  (`none`) for NaN, the infinities and values outside the range of a 32-bit `int`; so
  is an `int` increment at `INT_MAX`. -/

/-- A floating value: a finite rational, an infinity or NaN. -/
inductive FVal
  | fin (q : ℚ)
  | pinf
  | ninf
  | nan
deriving DecidableEq

/-- A floating-point format: the rounding of an exact result and the largest finite
value. -/
structure Fmt where
  rnd : ℚ → ℚ
  fmax : ℚ

/-- The power `2 ^ k` for an integer exponent. -/
def pow2 (k : ℤ) : ℚ :=
  if 0 ≤ k then ((2 ^ k.toNat : ℕ) : ℚ) else 1 / ((2 ^ (-k).toNat : ℕ) : ℚ)

/-- The position of the leading bit of `n`, by halving; the first argument bounds the
number of halvings. -/
def nlog2_aux : ℕ → ℕ → ℕ
  | 0, _ => 0
  | f + 1, n => if 2 ≤ n then nlog2_aux f (n / 2) + 1 else 0

/-- The position of the leading bit of a natural number: `2 ^ nlog2 n <= n < 2 ^ (nlog2 n + 1)`
for `n >= 1`. -/
def nlog2 (n : ℕ) : ℕ := nlog2_aux n n

/-- The exponent of a non-zero rational: the integer `e` with `2 ^ e <= |q| < 2 ^ (e + 1)`. -/
def ilog2 (q : ℚ) : ℤ :=
  if pow2 ((nlog2 q.num.natAbs : ℤ) - (nlog2 q.den : ℤ)) ≤ |q| then
    (nlog2 q.num.natAbs : ℤ) - (nlog2 q.den : ℤ)
  else (nlog2 q.num.natAbs : ℤ) - (nlog2 q.den : ℤ) - 1

/-- Rounding to the nearest integer, ties to the even one. -/
def round_even (x : ℚ) : ℤ :=
  if x - (⌊x⌋ : ℚ) < 1 / 2 then ⌊x⌋
  else if 1 / 2 < x - (⌊x⌋ : ℚ) then ⌊x⌋ + 1
  else if ⌊x⌋ % 2 = 0 then ⌊x⌋ else ⌊x⌋ + 1

/-- The unit in the last place of `q` for precision `prec` and least exponent `emin`. -/
def ulp (prec : ℕ) (emin : ℤ) (q : ℚ) : ℚ := pow2 (max (ilog2 q) emin - ((prec : ℤ) - 1))

/-- Rounding to nearest, ties to even, with `prec` bits of precision and least normal
exponent `emin` (the exponent is not bounded above: overflow is decided by `pack`). -/
def rne (prec : ℕ) (emin : ℤ) (q : ℚ) : ℚ :=
  if q = 0 then 0 else (round_even (q / ulp prec emin q) : ℚ) * ulp prec emin q

/-- The IEEE-754 binary format with `prec` bits of precision and exponents
`emin .. emax`. -/
def ieee (prec : ℕ) (emin emax : ℤ) : Fmt :=
  ⟨rne prec emin, ((2 ^ prec - 1 : ℕ) : ℚ) * pow2 (emax - ((prec : ℤ) - 1))⟩

/-- The format of `float`. -/
def binary32 : Fmt := ieee 24 (-126) 127

/-- The format of `double`. -/
def binary64 : Fmt := ieee 53 (-1022) 1023

/-- The result of an operation whose exact value is `q`: rounded, and an infinity when
the rounded value exceeds `fmax`. -/
def pack (F : Fmt) (q : ℚ) : FVal :=
  if F.fmax < F.rnd q then FVal.pinf
  else if F.rnd q < -F.fmax then FVal.ninf
  else FVal.fin (F.rnd q)

/-- Negation. -/
def fneg : FVal → FVal
  | FVal.fin a => FVal.fin (-a)
  | FVal.pinf => FVal.ninf
  | FVal.ninf => FVal.pinf
  | FVal.nan => FVal.nan

/-- Floating addition. -/
def fadd (F : Fmt) : FVal → FVal → FVal
  | FVal.nan, _ => FVal.nan
  | _, FVal.nan => FVal.nan
  | FVal.fin a, FVal.fin b => pack F (a + b)
  | FVal.pinf, FVal.ninf => FVal.nan
  | FVal.ninf, FVal.pinf => FVal.nan
  | FVal.pinf, _ => FVal.pinf
  | _, FVal.pinf => FVal.pinf
  | FVal.ninf, _ => FVal.ninf
  | _, FVal.ninf => FVal.ninf

/-- Floating subtraction. -/
def fsub (F : Fmt) (a b : FVal) : FVal := fadd F a (fneg b)

/-- The infinity of the given sign. -/
def signed_inf (positive : Bool) : FVal := if positive then FVal.pinf else FVal.ninf

/-- Floating multiplication. -/
def fmul (F : Fmt) : FVal → FVal → FVal
  | FVal.nan, _ => FVal.nan
  | _, FVal.nan => FVal.nan
  | FVal.fin a, FVal.fin b => pack F (a * b)
  | FVal.fin a, FVal.pinf => if a = 0 then FVal.nan else signed_inf (decide (0 < a))
  | FVal.fin a, FVal.ninf => if a = 0 then FVal.nan else signed_inf (decide (a < 0))
  | FVal.pinf, FVal.fin b => if b = 0 then FVal.nan else signed_inf (decide (0 < b))
  | FVal.ninf, FVal.fin b => if b = 0 then FVal.nan else signed_inf (decide (b < 0))
  | FVal.pinf, FVal.pinf => FVal.pinf
  | FVal.pinf, FVal.ninf => FVal.ninf
  | FVal.ninf, FVal.pinf => FVal.ninf
  | FVal.ninf, FVal.ninf => FVal.pinf

/-- Floating division; a zero divisor is taken as `+0`. -/
def fdiv (F : Fmt) : FVal → FVal → FVal
  | FVal.nan, _ => FVal.nan
  | _, FVal.nan => FVal.nan
  | FVal.fin a, FVal.fin b =>
    if b = 0 then (if a = 0 then FVal.nan else signed_inf (decide (0 < a))) else pack F (a / b)
  | FVal.fin _, FVal.pinf => FVal.fin 0
  | FVal.fin _, FVal.ninf => FVal.fin 0
  | FVal.pinf, FVal.fin b => signed_inf (decide (0 ≤ b))
  | FVal.ninf, FVal.fin b => signed_inf (decide (b < 0))
  | FVal.pinf, FVal.pinf => FVal.nan
  | FVal.pinf, FVal.ninf => FVal.nan
  | FVal.ninf, FVal.pinf => FVal.nan
  | FVal.ninf, FVal.ninf => FVal.nan

/-- The comparison `a < b` of floating values (false when an operand is NaN). -/
def flt : FVal → FVal → Bool
  | FVal.nan, _ => false
  | _, FVal.nan => false
  | FVal.fin a, FVal.fin b => decide (a < b)
  | FVal.ninf, FVal.ninf => false
  | FVal.ninf, _ => true
  | FVal.pinf, _ => false
  | FVal.fin _, FVal.pinf => true
  | FVal.fin _, FVal.ninf => false

/-- The comparison `a == b` of floating values (false when an operand is NaN). -/
def feq : FVal → FVal → Bool
  | FVal.fin a, FVal.fin b => decide (a = b)
  | FVal.pinf, FVal.pinf => true
  | FVal.ninf, FVal.ninf => true
  | _, _ => false

/-- The comparison `a <= b` of floating values. -/
def fle (a b : FVal) : Bool := flt a b || feq a b

/-- Conversion of an `int` to the format `F`. -/
def of_int (F : Fmt) (n : ℤ) : FVal := pack F (n : ℚ)

/-- Conversion of a floating value to `int`: truncation toward zero, undefined
(`none`) for NaN, the infinities and values outside the range of `int`. -/
def to_int : FVal → Option ℤ
  | FVal.fin q => if INT_MIN ≤ toInt q ∧ toInt q ≤ INT_MAX then some (toInt q) else none
  | _ => none

/-- Conversion of a floating value to the format `F` (`double` to `float`). -/
def convert (F : Fmt) : FVal → FVal
  | FVal.fin q => pack F q
  | v => v

/-! ## The rasterizer with rounded arithmetic (cube.c:40-51, 83-129) -/

/-- The two global frame buffers with floating depths. -/
structure FBuffers where
  zbuffer : Fin HEIGHT → Fin WIDTH → FVal
  buffer : Fin HEIGHT → Fin WIDTH → wchar_t

/-- The six mutable locals of `draw_filled_triangle`, as floating values. -/
structure FTri where
  p1 : Point2D FVal
  p2 : Point2D FVal
  p3 : Point2D FVal
  z1 : FVal
  z2 : FVal
  z3 : FVal

/-- Line 85 with the floating comparison `p1.y > p2.y`. -/
def swap12_f (t : FTri) : FTri :=
  if flt t.p2.y t.p1.y = true then { t with p1 := t.p2, p2 := t.p1, z1 := t.z2, z2 := t.z1 }
  else t

/-- Line 86 with the floating comparison `p1.y > p3.y`. -/
def swap13_f (t : FTri) : FTri :=
  if flt t.p3.y t.p1.y = true then { t with p1 := t.p3, p3 := t.p1, z1 := t.z3, z3 := t.z1 }
  else t

/-- Line 87 with the floating comparison `p2.y > p3.y`. -/
def swap23_f (t : FTri) : FTri :=
  if flt t.p3.y t.p2.y = true then { t with p2 := t.p3, p3 := t.p2, z2 := t.z3, z3 := t.z2 }
  else t

/-- Lines 85-87 on floating values. -/
def sort_by_y_f (t : FTri) : FTri := swap23_f (swap13_f (swap12_f t))

/-- Line 89: `int total_height = p3.y - p1.y;`, a `float` subtraction converted to
`int`. -/
def total_height_f (F : Fmt) (t : FTri) : Option ℤ := to_int (fsub F t.p3.y t.p1.y)

/-- Line 93: `bool second_half = y > p2.y || p2.y == p1.y;`, `y` converted to `float`. -/
def second_half_f (F : Fmt) (t : FTri) (y : ℤ) : Bool :=
  flt t.p2.y (of_int F y) || feq t.p2.y t.p1.y

/-- Line 94: `int segment_height = second_half ? p3.y - p2.y : p2.y - p1.y;`. -/
def segment_height_f (F : Fmt) (t : FTri) (y : ℤ) : Option ℤ :=
  if second_half_f F t y = true then to_int (fsub F t.p3.y t.p2.y)
  else to_int (fsub F t.p2.y t.p1.y)

/-- Line 97: `float alpha = (float)(y - p1.y) / total_height;`. -/
def alpha_f (F : Fmt) (t : FTri) (th y : ℤ) : FVal :=
  fdiv F (fsub F (of_int F y) t.p1.y) (of_int F th)

/-- Lines 98-100: `beta`, with the `int` value `seg` of `segment_height`. -/
def beta_f (F : Fmt) (t : FTri) (seg y : ℤ) : FVal :=
  if second_half_f F t y = true then fdiv F (fsub F (of_int F y) t.p2.y) (of_int F seg)
  else fdiv F (fsub F (of_int F y) t.p1.y) (of_int F seg)

/-- The expression `a + (b - a) * t` of lines 103-111: three rounded operations. -/
def lerp_f (F : Fmt) (a b t : FVal) : FVal := fadd F a (fmul F (fsub F b a) t)

/-- The span locals `A, B, zA, zB` of one scanline, as floating values. -/
structure FSpan where
  A : Point2D FVal
  B : Point2D FVal
  zA : FVal
  zB : FVal

/-- Lines 102-111 for given values of `alpha` and `beta`. -/
def edges_f (F : Fmt) (t : FTri) (y : ℤ) (al be : FVal) : FSpan :=
  { A := ⟨lerp_f F t.p1.x t.p3.x al, lerp_f F t.p1.y t.p3.y al⟩
    B := if second_half_f F t y = true then
          ⟨lerp_f F t.p2.x t.p3.x be, lerp_f F t.p2.y t.p3.y be⟩
        else
          ⟨lerp_f F t.p1.x t.p2.x be, lerp_f F t.p1.y t.p2.y be⟩
    zA := lerp_f F t.z1 t.z3 al
    zB := if second_half_f F t y = true then lerp_f F t.z2 t.z3 be
          else lerp_f F t.z1 t.z2 be }

/-- Lines 113-116 with the floating comparison `A.x > B.x`. -/
def orient_f (sp : FSpan) : FSpan :=
  if flt sp.B.x sp.A.x = true then { A := sp.B, B := sp.A, zA := sp.zB, zB := sp.zA } else sp

/-- Line 119: `float phi = B.x == A.x ? 1.0 : (float)(x - A.x) / (B.x - A.x);`. -/
def phi_f (F : Fmt) (sp : FSpan) (x : ℤ) : FVal :=
  if feq sp.B.x sp.A.x = true then FVal.fin 1
  else fdiv F (fsub F (of_int F x) sp.A.x) (fsub F sp.B.x sp.A.x)

/-- Lines 119-120: `float z = zA + (zB - zA) * phi;`. -/
def pixel_depth_f (F : Fmt) (sp : FSpan) (x : ℤ) : FVal := lerp_f F sp.zA sp.zB (phi_f F sp x)

/-- Lines 121-126 with the floating comparison `z < zbuffer[y][x]`. -/
def plot_f (s : FBuffers) (x y : ℤ) (z : FVal) (shade : wchar_t) : FBuffers :=
  if h : 0 ≤ x ∧ x < (WIDTH : ℤ) ∧ 0 ≤ y ∧ y < (HEIGHT : ℤ) then
    let yi : Fin HEIGHT := ⟨y.toNat, by have := h.2.2.1; have := h.2.2.2; omega⟩
    let xi : Fin WIDTH := ⟨x.toNat, by have := h.1; have := h.2.1; omega⟩
    if flt z (s.zbuffer yi xi) = true then
      { zbuffer := store s.zbuffer yi xi z, buffer := store s.buffer yi xi shade }
    else s
  else s

/-- Lines 118-127: the loop `for (int x = A.x; x <= B.x; x++)` with `x` converted to
`float` in the comparison. The result is `none` when `x++` overflows (or when the
iteration budget, first argument, is used up, which `int_budget` excludes). -/
def xloop_f (F : Fmt) (sp : FSpan) (y : ℤ) (shade : wchar_t) : ℕ → ℤ → FBuffers → Option FBuffers
  | 0, _, _ => none
  | n + 1, x, s =>
    if fle (of_int F x) sp.B.x = true then
      if x = INT_MAX then none
      else xloop_f F sp y shade n (x + 1) (plot_f s x y (pixel_depth_f F sp x) shade)
    else some s

/-- An iteration budget no `int` loop starting at `n` can use up: one more than the
number of values from `n` to `INT_MAX`. -/
def int_budget (n : ℤ) : ℕ := (INT_MAX + 2 - n).toNat

/-- Lines 93-127: the body of the `y` loop for one scanline. -/
def scanline_f (F : Fmt) (t : FTri) (th : ℤ) (shade : wchar_t) (y : ℤ) (s : FBuffers) :
    Option FBuffers :=
  match segment_height_f F t y with
  | none => none
  | some seg =>
    if seg = 0 then some s
    else
      match to_int (orient_f (edges_f F t y (alpha_f F t th y) (beta_f F t seg y))).A.x with
      | none => none
      | some x0 =>
        xloop_f F (orient_f (edges_f F t y (alpha_f F t th y) (beta_f F t seg y))) y shade
          (int_budget x0) x0 s

/-- Lines 92-128: the loop `for (int y = p1.y; y <= p3.y; y++)`. -/
def yloop_f (F : Fmt) (t : FTri) (th : ℤ) (shade : wchar_t) : ℕ → ℤ → FBuffers → Option FBuffers
  | 0, _, _ => none
  | n + 1, y, s =>
    if fle (of_int F y) t.p3.y = true then
      match scanline_f F t th shade y s with
      | none => none
      | some s1 => if y = INT_MAX then none else yloop_f F t th shade n (y + 1) s1
    else some s

/-- Lines 89-128 on the sorted locals. -/
def fill_sorted_f (F : Fmt) (s : FBuffers) (t : FTri) (shade : wchar_t) : Option FBuffers :=
  match total_height_f F t with
  | none => none
  | some th =>
    if th = 0 then some s
    else
      match to_int t.p1.y with
      | none => none
      | some y0 => yloop_f F t th shade (int_budget y0) y0 s

/-- The function `draw_filled_triangle` with rounded arithmetic in the format `F`;
`none` stands for undefined behaviour (a conversion to `int` out of range, or an
`int` overflow). -/
def draw_filled_triangle_f (F : Fmt) (s : FBuffers) (p1 p2 p3 : Point2D FVal) (z1 z2 z3 : FVal)
    (shade : wchar_t) : Option FBuffers :=
  fill_sorted_f F s (sort_by_y_f ⟨p1, p2, p3, z1, z2, z3⟩) shade

/-- The depth and the glyph of one cell after a run, when the run is defined. -/
def cell_of (o : Option FBuffers) (cy : Fin HEIGHT) (cx : Fin WIDTH) : Option (FVal × wchar_t) :=
  o.map (fun s => (s.zbuffer cy cx, s.buffer cy cx))

/-- The function `project` with rounded arithmetic: `DEPTH`, `CUBE_SIZE` are `double`
constants, so the sum and the quotient of `scale` are `double` operations converted to
`float`; `p.x * scale` is a `float` product, the product with `CUBE_SIZE` and the sum
with `WIDTH/2` are `double` operations, converted to `float` in the result. -/
def project_f (F32 F64 : Fmt) (p : Point3D FVal) : Point2D FVal :=
  let scale : FVal := convert F32 (fdiv F64 (FVal.fin 100) (fadd F64 p.z (FVal.fin 100)))
  ⟨convert F32 (fadd F64 (fmul F64 (fmul F32 p.x scale) (FVal.fin 15)) (of_int F64 ((WIDTH / 2 : ℕ) : ℤ))),
   convert F32 (fadd F64 (fmul F64 (fmul F32 p.y scale) (FVal.fin 15)) (of_int F64 ((HEIGHT / 2 : ℕ) : ℤ)))⟩

/-! ## The buffer invariant with floating depths -/

/-- The properties of a format that the statements about rounded arithmetic rely on:
rounding is monotone, it leaves the numbers `m * 2 ^ k` with `|m| <= 2 ^ 24` and
`k >= -149` unchanged (the numbers of `float`), and numbers up to `2 ^ 100` do not
overflow. The formats `binary32` and `binary64` have them (`binary32_lawful`,
`binary64_lawful`). -/
def lawful (F : Fmt) : Prop :=
  (∀ a b : ℚ, a ≤ b → F.rnd a ≤ F.rnd b) ∧
    (∀ m k : ℤ, |m| ≤ 2 ^ 24 → -149 ≤ k → F.rnd ((m : ℚ) * pow2 k) = (m : ℚ) * pow2 k) ∧
    (2 : ℚ) ^ 100 ≤ F.fmax

/-! ## Distance of a floating value from a number -/

/-- The distance `|v - c|` of a floating value from the rational `c`; the distance of
an infinity is `⊤`, larger than every finite distance (NaN is given `⊤` as well). -/
def offset_from (v : FVal) (c : ℚ) : WithTop ℚ :=
  match v with
  | FVal.fin q => ((|q - c| : ℚ) : WithTop ℚ)
  | _ => ⊤

/-! ## Basic facts about the buffers -/

theorem store_apply {α : Type} (a : Fin HEIGHT → Fin WIDTH → α) (y : Fin HEIGHT)
    (x : Fin WIDTH) (v : α) (r : Fin HEIGHT) (c : Fin WIDTH) :
    store a y x v r c = if r = y ∧ c = x then v else a r c := rfl

/-- The cell `(cx, cy)` is the pixel `(x, y)`. -/
theorem fin_cell_iff (x y : ℤ) (hx0 : 0 ≤ x) (hx1 : x < (WIDTH : ℤ)) (hy0 : 0 ≤ y)
    (hy1 : y < (HEIGHT : ℤ)) (cy : Fin HEIGHT) (cx : Fin WIDTH) :
    (cy = (⟨y.toNat, by omega⟩ : Fin HEIGHT) ∧ cx = (⟨x.toNat, by omega⟩ : Fin WIDTH)) ↔
      (x = (cx : ℤ) ∧ y = (cy : ℤ)) := by
  constructor
  · rintro ⟨h1, h2⟩
    subst h1 h2
    simp only [Int.toNat_of_nonneg hx0, Int.toNat_of_nonneg hy0, and_self]
  · rintro ⟨h1, h2⟩
    subst h1 h2
    constructor <;> apply Fin.ext <;> simp

/-- Effect of `plot` on the depth of one cell. -/
theorem plot_zbuffer (s : Buffers) (x y : ℤ) (z : ℚ) (shade : wchar_t) (cy : Fin HEIGHT)
    (cx : Fin WIDTH) :
    (plot s x y z shade).zbuffer cy cx =
      if (x = (cx : ℤ) ∧ y = (cy : ℤ)) ∧ (z : WithTop ℚ) < s.zbuffer cy cx then (z : WithTop ℚ)
      else s.zbuffer cy cx := by
  unfold plot
  by_cases h : 0 ≤ x ∧ x < (WIDTH : ℤ) ∧ 0 ≤ y ∧ y < (HEIGHT : ℤ)
  · rw [dif_pos h]
    obtain ⟨hx0, hx1, hy0, hy1⟩ := h
    by_cases hc : x = (cx : ℤ) ∧ y = (cy : ℤ)
    · have hc2 := (fin_cell_iff x y hx0 hx1 hy0 hy1 cy cx).2 hc
      obtain ⟨e1, e2⟩ := hc2
      simp only [← e1, ← e2, hc, true_and]
      by_cases hz : (z : WithTop ℚ) < s.zbuffer cy cx
      · simp [hz, store_apply]
      · simp [hz]
    · have hc2 := mt (fin_cell_iff x y hx0 hx1 hy0 hy1 cy cx).1 hc
      simp only [hc, false_and, if_false]
      split_ifs with hz
      · simp only [store_apply, if_neg hc2]
      · rfl
  · rw [dif_neg h]
    have hc : ¬ (x = (cx : ℤ) ∧ y = (cy : ℤ)) := by
      rintro ⟨h1, h2⟩
      apply h
      have := cx.isLt
      have := cy.isLt
      subst h1 h2
      refine ⟨by omega, by exact_mod_cast cx.isLt, by omega, by exact_mod_cast cy.isLt⟩
    simp [hc]

/-- Effect of `plot` on the glyph of one cell. -/
theorem plot_buffer (s : Buffers) (x y : ℤ) (z : ℚ) (shade : wchar_t) (cy : Fin HEIGHT)
    (cx : Fin WIDTH) :
    (plot s x y z shade).buffer cy cx =
      if (x = (cx : ℤ) ∧ y = (cy : ℤ)) ∧ (z : WithTop ℚ) < s.zbuffer cy cx then shade
      else s.buffer cy cx := by
  unfold plot
  by_cases h : 0 ≤ x ∧ x < (WIDTH : ℤ) ∧ 0 ≤ y ∧ y < (HEIGHT : ℤ)
  · rw [dif_pos h]
    obtain ⟨hx0, hx1, hy0, hy1⟩ := h
    by_cases hc : x = (cx : ℤ) ∧ y = (cy : ℤ)
    · have hc2 := (fin_cell_iff x y hx0 hx1 hy0 hy1 cy cx).2 hc
      obtain ⟨e1, e2⟩ := hc2
      simp only [← e1, ← e2, hc, true_and]
      by_cases hz : (z : WithTop ℚ) < s.zbuffer cy cx
      · simp [hz, store_apply]
      · simp [hz]
    · have hc2 := mt (fin_cell_iff x y hx0 hx1 hy0 hy1 cy cx).1 hc
      simp only [hc, false_and, if_false]
      split_ifs with hz
      · simp only [store_apply, if_neg hc2]
      · rfl
  · rw [dif_neg h]
    have hc : ¬ (x = (cx : ℤ) ∧ y = (cy : ℤ)) := by
      rintro ⟨h1, h2⟩
      apply h
      have := cx.isLt
      have := cy.isLt
      subst h1 h2
      refine ⟨by omega, by exact_mod_cast cx.isLt, by omega, by exact_mod_cast cy.isLt⟩
    simp [hc]

theorem plot_all_nil (s : Buffers) (shade : wchar_t) : plot_all s shade [] = s := rfl

theorem plot_all_cons (s : Buffers) (shade : wchar_t) (f : Frag) (fs : List Frag) :
    plot_all s shade (f :: fs) = plot_all (plot s f.x f.y f.z shade) shade fs := rfl

theorem plot_all_append (s : Buffers) (shade : wchar_t) (fs gs : List Frag) :
    plot_all s shade (fs ++ gs) = plot_all (plot_all s shade fs) shade gs := by
  simp [plot_all, List.foldl_append]

theorem cell_min_nil (cy : Fin HEIGHT) (cx : Fin WIDTH) : cell_min [] cy cx = ⊤ := rfl

theorem cell_min_cons (f : Frag) (fs : List Frag) (cy : Fin HEIGHT) (cx : Fin WIDTH) :
    cell_min (f :: fs) cy cx =
      if f.x = (cx : ℤ) ∧ f.y = (cy : ℤ) then min (f.z : WithTop ℚ) (cell_min fs cy cx)
      else cell_min fs cy cx := rfl

/-- Depth of a cell after plotting a list of fragments. -/
theorem plot_all_zbuffer (fs : List Frag) (s : Buffers) (shade : wchar_t) (cy : Fin HEIGHT)
    (cx : Fin WIDTH) :
    (plot_all s shade fs).zbuffer cy cx = min (s.zbuffer cy cx) (cell_min fs cy cx) := by
  induction fs generalizing s with
  | nil => simp [plot_all_nil, cell_min_nil]
  | cons f fs ih =>
    rw [plot_all_cons, ih, plot_zbuffer, cell_min_cons]
    by_cases hc : f.x = (cx : ℤ) ∧ f.y = (cy : ℤ)
    · simp only [hc, and_self, true_and, if_true]
      by_cases hz : (f.z : WithTop ℚ) < s.zbuffer cy cx
      · rw [if_pos hz, ← min_assoc, min_eq_right hz.le]
      · rw [if_neg hz, ← min_assoc, min_eq_left (not_lt.1 hz)]
    · simp only [hc, false_and, if_false]

/-- Glyph of a cell after plotting a list of fragments with one shade. -/
theorem plot_all_buffer (fs : List Frag) (s : Buffers) (shade : wchar_t) (cy : Fin HEIGHT)
    (cx : Fin WIDTH) :
    (plot_all s shade fs).buffer cy cx =
      if cell_min fs cy cx < s.zbuffer cy cx then shade else s.buffer cy cx := by
  induction fs generalizing s with
  | nil => simp [plot_all_nil, cell_min_nil]
  | cons f fs ih =>
    rw [plot_all_cons, ih, plot_zbuffer, plot_buffer, cell_min_cons]
    by_cases hc : f.x = (cx : ℤ) ∧ f.y = (cy : ℤ)
    · simp only [hc, and_self, true_and, if_true]
      by_cases hz : (f.z : WithTop ℚ) < s.zbuffer cy cx
      · simp only [if_pos hz]
        have h2 : min (f.z : WithTop ℚ) (cell_min fs cy cx) < s.zbuffer cy cx :=
          lt_of_le_of_lt (min_le_left _ _) hz
        rw [if_pos h2]
        split_ifs <;> rfl
      · simp only [if_neg hz]
        have h3 : s.zbuffer cy cx ≤ (f.z : WithTop ℚ) := not_lt.1 hz
        by_cases h4 : cell_min fs cy cx < s.zbuffer cy cx
        · rw [if_pos h4, if_pos (lt_of_le_of_lt (min_le_right _ _) h4)]
        · rw [if_neg h4, if_neg]
          rw [not_lt] at h4 ⊢
          exact le_min h3 h4
    · simp only [hc, false_and, if_false]

/-! ## Drawing is plotting the fragments -/

theorem xloop_eq_plot_all (sp : Span) (y : ℤ) (shade : wchar_t) (n : ℕ) (x : ℤ) (s : Buffers) :
    xloop sp y shade n x s = plot_all s shade (xfrags sp y n x) := by
  induction n generalizing x s with
  | zero => rfl
  | succ n ih =>
    simp only [xloop, xfrags]
    split_ifs with h
    · rw [plot_all_cons, ih]
    · rfl

theorem scanline_eq_plot_all (t : Tri) (shade : wchar_t) (y : ℤ) (s : Buffers) :
    scanline t shade y s = plot_all s shade (scanline_frags t y) := by
  unfold scanline scanline_frags
  split_ifs with h
  · rfl
  · exact xloop_eq_plot_all _ _ _ _ _ _

theorem yloop_eq_plot_all (t : Tri) (shade : wchar_t) (n : ℕ) (y : ℤ) (s : Buffers) :
    yloop t shade n y s = plot_all s shade (yfrags t n y) := by
  induction n generalizing y s with
  | zero => rfl
  | succ n ih =>
    simp only [yloop, yfrags]
    split_ifs with h
    · rw [plot_all_append, ih, scanline_eq_plot_all]
    · rfl

theorem fill_sorted_eq_plot_all (s : Buffers) (t : Tri) (shade : wchar_t) :
    fill_sorted s t shade = plot_all s shade (fragments_sorted t) := by
  unfold fill_sorted fragments_sorted
  split_ifs with h
  · rfl
  · exact yloop_eq_plot_all _ _ _ _ _

/-- A call of `draw_filled_triangle` plots exactly its fragments, in order. -/
theorem draw_eq_plot_all (s : Buffers) (p1 p2 p3 : Point2D ℚ) (z1 z2 z3 : ℚ)
    (shade : wchar_t) :
    draw_filled_triangle s p1 p2 p3 z1 z2 z3 shade =
      plot_all s shade (fragments p1 p2 p3 z1 z2 z3) :=
  fill_sorted_eq_plot_all _ _ _

/-- Depth of a cell after one call. -/
theorem draw_zbuffer (s : Buffers) (p1 p2 p3 : Point2D ℚ) (z1 z2 z3 : ℚ) (shade : wchar_t)
    (cy : Fin HEIGHT) (cx : Fin WIDTH) :
    (draw_filled_triangle s p1 p2 p3 z1 z2 z3 shade).zbuffer cy cx =
      min (s.zbuffer cy cx) (cell_min (fragments p1 p2 p3 z1 z2 z3) cy cx) := by
  rw [draw_eq_plot_all, plot_all_zbuffer]

/-- Glyph of a cell after one call. -/
theorem draw_buffer (s : Buffers) (p1 p2 p3 : Point2D ℚ) (z1 z2 z3 : ℚ) (shade : wchar_t)
    (cy : Fin HEIGHT) (cx : Fin WIDTH) :
    (draw_filled_triangle s p1 p2 p3 z1 z2 z3 shade).buffer cy cx =
      if cell_min (fragments p1 p2 p3 z1 z2 z3) cy cx < s.zbuffer cy cx then shade
      else s.buffer cy cx := by
  rw [draw_eq_plot_all, plot_all_buffer]

/-- The least depth at a cell is `⊤` or the depth of a fragment on that cell. -/
theorem cell_min_mem (fs : List Frag) (cy : Fin HEIGHT) (cx : Fin WIDTH) :
    cell_min fs cy cx = ⊤ ∨
      ∃ f ∈ fs, f.x = (cx : ℤ) ∧ f.y = (cy : ℤ) ∧ cell_min fs cy cx = (f.z : WithTop ℚ) := by
  induction fs with
  | nil => exact Or.inl rfl
  | cons f fs ih =>
    rw [cell_min_cons]
    by_cases hc : f.x = (cx : ℤ) ∧ f.y = (cy : ℤ)
    · rw [if_pos hc]
      right
      rcases le_total (f.z : WithTop ℚ) (cell_min fs cy cx) with h | h
      · exact ⟨f, List.mem_cons_self _ _, hc.1, hc.2, min_eq_left h⟩
      · rcases ih with h0 | ⟨g, hg, hx, hy, hz⟩
        · rw [h0] at h ⊢
          exact ⟨f, List.mem_cons_self _ _, hc.1, hc.2, min_eq_left le_top⟩
        · exact ⟨g, List.mem_cons_of_mem _ hg, hx, hy, by rw [min_eq_right h, hz]⟩
    · rw [if_neg hc]
      rcases ih with h0 | ⟨g, hg, hx, hy, hz⟩
      · exact Or.inl h0
      · exact Or.inr ⟨g, List.mem_cons_of_mem _ hg, hx, hy, hz⟩

/-- The least depth at a cell is below the depth of every fragment on that cell. -/
theorem cell_min_le (fs : List Frag) (cy : Fin HEIGHT) (cx : Fin WIDTH) (f : Frag)
    (hf : f ∈ fs) (hx : f.x = (cx : ℤ)) (hy : f.y = (cy : ℤ)) :
    cell_min fs cy cx ≤ (f.z : WithTop ℚ) := by
  induction fs with
  | nil => cases hf
  | cons g fs ih =>
    rw [cell_min_cons]
    rcases List.mem_cons.1 hf with h | h
    · subst h
      rw [if_pos ⟨hx, hy⟩]
      exact min_le_left _ _
    · split_ifs
      · exact le_trans (min_le_right _ _) (ih h)
      · exact ih h

/-- No fragment on a cell: the least depth there is `⊤`. -/
theorem cell_min_eq_top (fs : List Frag) (cy : Fin HEIGHT) (cx : Fin WIDTH)
    (h : ∀ f ∈ fs, ¬ (f.x = (cx : ℤ) ∧ f.y = (cy : ℤ))) : cell_min fs cy cx = ⊤ := by
  rcases cell_min_mem fs cy cx with h0 | ⟨f, hf, hx, hy, _⟩
  · exact h0
  · exact absurd ⟨hx, hy⟩ (h f hf)

/-! ## The iteration budgets are exact -/

theorem floor_add_one_gt (q : ℚ) (x : ℤ) (h : ⌊q⌋ + 1 ≤ x) : ¬ ((x : ℚ) ≤ q) := by
  intro hx
  have := Int.le_floor.2 hx
  omega

/-- Once the loop condition `x <= B.x` has failed within the budget, a larger
budget gives the same result. -/
theorem xloop_budget_mono (sp : Span) (y : ℤ) (shade : wchar_t) (n k : ℕ) (x : ℤ)
    (s : Buffers) (h : ⌊sp.B.x⌋ + 1 ≤ x + n) :
    xloop sp y shade (n + k) x s = xloop sp y shade n x s := by
  induction n generalizing x s with
  | zero =>
    have hx : ¬ ((x : ℚ) ≤ sp.B.x) := floor_add_one_gt _ _ (by simpa using h)
    cases k with
    | zero => rfl
    | succ k => simp [xloop, hx]
  | succ n ih =>
    have e : n + 1 + k = (n + k) + 1 := by omega
    rw [e]
    simp only [xloop]
    split_ifs with hx
    · exact ih _ _ (by push_cast at h; omega)
    · rfl

/-- The `x` loop is never stopped by its budget: any larger budget gives the same
buffers. -/
theorem xloop_budget_exact (sp : Span) (y : ℤ) (shade : wchar_t) (k : ℕ) (s : Buffers) :
    xloop sp y shade (xbudget sp + k) (toInt sp.A.x) s =
      xloop sp y shade (xbudget sp) (toInt sp.A.x) s := by
  apply xloop_budget_mono
  unfold xbudget
  have := Int.self_le_toNat (⌊sp.B.x⌋ + 1 - toInt sp.A.x)
  omega

theorem yloop_budget_mono (t : Tri) (shade : wchar_t) (n k : ℕ) (y : ℤ)
    (s : Buffers) (h : ⌊t.p3.y⌋ + 1 ≤ y + n) :
    yloop t shade (n + k) y s = yloop t shade n y s := by
  induction n generalizing y s with
  | zero =>
    have hy : ¬ ((y : ℚ) ≤ t.p3.y) := floor_add_one_gt _ _ (by simpa using h)
    cases k with
    | zero => rfl
    | succ k => simp [yloop, hy]
  | succ n ih =>
    have e : n + 1 + k = (n + k) + 1 := by omega
    rw [e]
    simp only [yloop]
    split_ifs with hy
    · exact ih _ _ (by push_cast at h; omega)
    · rfl

/-- The `y` loop is never stopped by its budget: any larger budget gives the same
buffers. -/
theorem yloop_budget_exact (t : Tri) (shade : wchar_t) (k : ℕ) (s : Buffers) :
    yloop t shade (ybudget t + k) (toInt t.p1.y) s =
      yloop t shade (ybudget t) (toInt t.p1.y) s := by
  apply yloop_budget_mono
  unfold ybudget
  have := Int.self_le_toNat (⌊t.p3.y⌋ + 1 - toInt t.p1.y)
  omega

/-! ## clear_buffers -/

theorem clear_cells_zbuffer (l : List (Fin WIDTH)) (s : Buffers) (y r : Fin HEIGHT)
    (c : Fin WIDTH) :
    (l.foldl (fun acc x => clear_cell acc y x) s).zbuffer r c =
      if r = y ∧ c ∈ l then ⊤ else s.zbuffer r c := by
  induction l generalizing s with
  | nil => simp
  | cons a l ih =>
    rw [List.foldl_cons, ih]
    simp only [clear_cell, store_apply, List.mem_cons]
    by_cases h1 : r = y <;> by_cases h2 : c = a <;> by_cases h3 : c ∈ l <;> simp [h1, h2, h3]

theorem clear_cells_buffer (l : List (Fin WIDTH)) (s : Buffers) (y r : Fin HEIGHT)
    (c : Fin WIDTH) :
    (l.foldl (fun acc x => clear_cell acc y x) s).buffer r c =
      if r = y ∧ c ∈ l then BLANK else s.buffer r c := by
  induction l generalizing s with
  | nil => simp
  | cons a l ih =>
    rw [List.foldl_cons, ih]
    simp only [clear_cell, store_apply, List.mem_cons]
    by_cases h1 : r = y <;> by_cases h2 : c = a <;> by_cases h3 : c ∈ l <;> simp [h1, h2, h3]

theorem clear_rows_zbuffer (l : List (Fin HEIGHT)) (s : Buffers) (r : Fin HEIGHT)
    (c : Fin WIDTH) :
    (l.foldl clear_row s).zbuffer r c = if r ∈ l then ⊤ else s.zbuffer r c := by
  induction l generalizing s with
  | nil => simp
  | cons a l ih =>
    rw [List.foldl_cons, ih]
    simp only [clear_row, clear_cells_zbuffer, List.mem_finRange, and_true, List.mem_cons]
    by_cases h1 : r = a <;> by_cases h3 : r ∈ l <;> simp [h1, h3]

theorem clear_rows_buffer (l : List (Fin HEIGHT)) (s : Buffers) (r : Fin HEIGHT)
    (c : Fin WIDTH) :
    (l.foldl clear_row s).buffer r c = if r ∈ l then BLANK else s.buffer r c := by
  induction l generalizing s with
  | nil => simp
  | cons a l ih =>
    rw [List.foldl_cons, ih]
    simp only [clear_row, clear_cells_buffer, List.mem_finRange, and_true, List.mem_cons]
    by_cases h1 : r = a <;> by_cases h3 : r ∈ l <;> simp [h1, h3]

/-- After `clear_buffers` every depth is `INFINITY`. -/
theorem clear_buffers_zbuffer (s : Buffers) (r : Fin HEIGHT) (c : Fin WIDTH) :
    (clear_buffers s).zbuffer r c = ⊤ := by
  simp [clear_buffers, clear_rows_zbuffer, List.mem_finRange]

/-- After `clear_buffers` every glyph is blank. -/
theorem clear_buffers_buffer (s : Buffers) (r : Fin HEIGHT) (c : Fin WIDTH) :
    (clear_buffers s).buffer r c = BLANK := by
  simp [clear_buffers, clear_rows_buffer, List.mem_finRange]

/-- The buffers left by `clear_buffers`, whatever they held before. -/
theorem clear_buffers_eq (s : Buffers) :
    clear_buffers s = ⟨fun _ _ => ⊤, fun _ _ => BLANK⟩ := by
  have hz : (clear_buffers s).zbuffer = fun _ _ => ⊤ := by
    funext r c
    exact clear_buffers_zbuffer s r c
  have hb : (clear_buffers s).buffer = fun _ _ => BLANK := by
    funext r c
    exact clear_buffers_buffer s r c
  cases hs : clear_buffers s with
  | mk zb b =>
    rw [hs] at hz hb
    simp only at hz hb
    rw [hz, hb]

/-! ## C1: a cell is left alone or gets a strictly nearer depth and the shade -/

/-- C1. For every buffer state, every call
`draw_filled_triangle(p1,p2,p3,z1,z2,z3,shade)` and every grid cell `(cx, cy)`:
either the depth and the glyph of the cell are both unchanged, or the new depth is
strictly smaller than the old one and the new glyph is `shade`.  Moreover a
fragment on the cell whose depth equals the stored depth changes nothing (the
depth test at line 122 is strict), so on a depth tie the earlier glyph stays. -/
theorem draw_cell_unchanged_or_nearer (s : Buffers) (p1 p2 p3 : Point2D ℚ) (z1 z2 z3 : ℚ)
    (shade : wchar_t) (cy : Fin HEIGHT) (cx : Fin WIDTH) :
    (((draw_filled_triangle s p1 p2 p3 z1 z2 z3 shade).zbuffer cy cx = s.zbuffer cy cx ∧
        (draw_filled_triangle s p1 p2 p3 z1 z2 z3 shade).buffer cy cx = s.buffer cy cx) ∨
      ((draw_filled_triangle s p1 p2 p3 z1 z2 z3 shade).zbuffer cy cx < s.zbuffer cy cx ∧
        (draw_filled_triangle s p1 p2 p3 z1 z2 z3 shade).buffer cy cx = shade)) ∧
    (∀ z : ℚ, s.zbuffer cy cx = (z : WithTop ℚ) → plot s cx cy z shade = s) := by
  constructor
  · rw [draw_zbuffer, draw_buffer]
    by_cases h : cell_min (fragments p1 p2 p3 z1 z2 z3) cy cx < s.zbuffer cy cx
    · right
      rw [if_pos h, min_eq_right h.le]
      exact ⟨h, rfl⟩
    · left
      rw [if_neg h, min_eq_left (not_lt.1 h)]
      exact ⟨rfl, rfl⟩
  · intro z hz
    have hzb : (plot s cx cy z shade).zbuffer = s.zbuffer := by
      funext r c
      rw [plot_zbuffer]
      split_ifs with h
      · obtain ⟨⟨h1, h2⟩, h3⟩ := h
        have e1 : c = cx := Fin.ext (by exact_mod_cast h1.symm)
        have e2 : r = cy := Fin.ext (by exact_mod_cast h2.symm)
        subst e1 e2
        rw [hz] at h3
        exact absurd h3 (lt_irrefl _)
      · rfl
    have hbb : (plot s cx cy z shade).buffer = s.buffer := by
      funext r c
      rw [plot_buffer]
      split_ifs with h
      · obtain ⟨⟨h1, h2⟩, h3⟩ := h
        have e1 : c = cx := Fin.ext (by exact_mod_cast h1.symm)
        have e2 : r = cy := Fin.ext (by exact_mod_cast h2.symm)
        subst e1 e2
        rw [hz] at h3
        exact absurd h3 (lt_irrefl _)
      · rfl
    cases hp : plot s cx cy z shade with
    | mk zb b =>
      rw [hp] at hzb hbb
      simp only at hzb hbb
      cases s
      simp only at hzb hbb
      rw [hzb, hbb]

/-- C1, at a concrete input: a cell storing depth `5`, hit by a fragment of depth `5`. -/
theorem draw_cell_unchanged_or_nearer_witness :
    (⟨fun _ _ => ((5 : ℚ) : WithTop ℚ), fun _ _ => 7⟩ : Buffers).zbuffer 3 4 = ((5 : ℚ) : WithTop ℚ) ∧
      plot ⟨fun _ _ => ((5 : ℚ) : WithTop ℚ), fun _ _ => 7⟩ ((4 : Fin WIDTH) : ℤ)
        ((3 : Fin HEIGHT) : ℤ) 5 9 = ⟨fun _ _ => ((5 : ℚ) : WithTop ℚ), fun _ _ => 7⟩ :=
  ⟨rfl, (draw_cell_unchanged_or_nearer ⟨fun _ _ => ((5 : ℚ) : WithTop ℚ), fun _ _ => 7⟩
    ⟨0, 0⟩ ⟨8, 0⟩ ⟨0, 8⟩ 5 5 5 9 3 4).2 5 rfl⟩

/-- A depth tie, run on the code: the same triangle drawn twice at the same depth
with two different shades leaves the glyph of the first call. -/
theorem depth_tie_keeps_first_glyph :
    (draw_filled_triangle (draw_filled_triangle ⟨fun _ _ => ⊤, fun _ _ => BLANK⟩
        ⟨0, 0⟩ ⟨8, 0⟩ ⟨0, 8⟩ 1 1 1 9617) ⟨0, 0⟩ ⟨8, 0⟩ ⟨0, 8⟩ 1 1 1 9608).buffer 2 3 = 9617 := by
  decide!

/-! ## C2: draw-order independence -/

/-- C2. For every starting buffer state and every two triangles `T1 = (p1,p2,p3,z1,z2,z3,sh)`
and `T2 = (q1,q2,q3,w1,w2,w3,sh2)`, at every grid cell `(cx, cy)`:
drawing `T1` then `T2` gives the same depth as `T2` then `T1`; it gives the same glyph
unless both triangles have a fragment of exactly the same depth on that cell; and the
final depth is the minimum of the starting depth and of the depths of the fragments
of the two triangles on that cell. -/
theorem draw_order_independent (s : Buffers) (p1 p2 p3 : Point2D ℚ) (z1 z2 z3 : ℚ)
    (sh : wchar_t) (q1 q2 q3 : Point2D ℚ) (w1 w2 w3 : ℚ) (sh2 : wchar_t)
    (cy : Fin HEIGHT) (cx : Fin WIDTH) :
    (draw_filled_triangle (draw_filled_triangle s p1 p2 p3 z1 z2 z3 sh)
        q1 q2 q3 w1 w2 w3 sh2).zbuffer cy cx =
      (draw_filled_triangle (draw_filled_triangle s q1 q2 q3 w1 w2 w3 sh2)
        p1 p2 p3 z1 z2 z3 sh).zbuffer cy cx ∧
    ((¬ ∃ f ∈ fragments p1 p2 p3 z1 z2 z3, ∃ g ∈ fragments q1 q2 q3 w1 w2 w3,
          (f.x = (cx : ℤ) ∧ f.y = (cy : ℤ)) ∧ (g.x = (cx : ℤ) ∧ g.y = (cy : ℤ)) ∧ f.z = g.z) →
      (draw_filled_triangle (draw_filled_triangle s p1 p2 p3 z1 z2 z3 sh)
          q1 q2 q3 w1 w2 w3 sh2).buffer cy cx =
        (draw_filled_triangle (draw_filled_triangle s q1 q2 q3 w1 w2 w3 sh2)
          p1 p2 p3 z1 z2 z3 sh).buffer cy cx) ∧
    (draw_filled_triangle (draw_filled_triangle s p1 p2 p3 z1 z2 z3 sh)
        q1 q2 q3 w1 w2 w3 sh2).zbuffer cy cx =
      min (s.zbuffer cy cx) (min (cell_min (fragments p1 p2 p3 z1 z2 z3) cy cx)
        (cell_min (fragments q1 q2 q3 w1 w2 w3) cy cx)) := by
  simp only [draw_zbuffer, draw_buffer]
  refine ⟨?_, ?_, ?_⟩
  · rw [min_assoc, min_assoc, min_comm (cell_min (fragments p1 p2 p3 z1 z2 z3) cy cx)]
  · intro hne
    generalize hm1 : cell_min (fragments p1 p2 p3 z1 z2 z3) cy cx = m1
    generalize hm2 : cell_min (fragments q1 q2 q3 w1 w2 w3) cy cx = m2
    generalize s.zbuffer cy cx = d
    generalize s.buffer cy cx = g0
    have hdiff : m1 ≠ m2 ∨ (m1 = ⊤ ∧ m2 = ⊤) := by
      rcases cell_min_mem (fragments p1 p2 p3 z1 z2 z3) cy cx with h1 | ⟨f, hf, hfx, hfy, hfz⟩
      · rcases cell_min_mem (fragments q1 q2 q3 w1 w2 w3) cy cx with h2 | ⟨g, _, _, _, hgz⟩
        · exact Or.inr ⟨hm1 ▸ h1, hm2 ▸ h2⟩
        · left
          rw [← hm1, ← hm2, h1, hgz]
          exact (WithTop.coe_ne_top).symm
      · rcases cell_min_mem (fragments q1 q2 q3 w1 w2 w3) cy cx with h2 | ⟨g, hg, hgx, hgy, hgz⟩
        · left
          rw [← hm1, ← hm2, h2, hfz]
          exact WithTop.coe_ne_top
        · left
          rw [← hm1, ← hm2, hfz, hgz]
          intro he
          exact hne ⟨f, hf, g, hg, ⟨hfx, hfy⟩, ⟨hgx, hgy⟩, WithTop.coe_injective he⟩
    rcases hdiff with hd | ⟨h1, h2⟩
    · rcases lt_or_gt_of_ne hd with hlt | hgt
      · -- the first triangle is strictly nearer on this cell
        have a1 : ¬ (m2 < min d m1) := fun h => absurd (lt_of_lt_of_le h (min_le_right _ _))
          (not_lt.2 hlt.le)
        rw [if_neg a1]
        by_cases hd1 : m1 < d
        · rw [if_pos hd1, if_pos (lt_min hd1 hlt)]
        · have a2 : ¬ (m1 < min d m2) := fun h => hd1 (lt_of_lt_of_le h (min_le_left _ _))
          have a3 : ¬ (m2 < d) := fun h => hd1 (lt_trans hlt h)
          rw [if_neg hd1, if_neg a2, if_neg a3]
      · -- the second triangle is strictly nearer on this cell
        have a1 : ¬ (m1 < min d m2) := fun h => absurd (lt_of_lt_of_le h (min_le_right _ _))
          (not_lt.2 (le_of_lt hgt))
        rw [if_neg a1]
        by_cases hd2 : m2 < d
        · rw [if_pos hd2, if_pos (lt_min hd2 hgt)]
        · have a2 : ¬ (m2 < min d m1) := fun h => hd2 (lt_of_lt_of_le h (min_le_left _ _))
          have a3 : ¬ (m1 < d) := fun h => hd2 (lt_trans hgt h)
          rw [if_neg hd2, if_neg a2, if_neg a3]
    · subst h1 h2
      simp
  · rw [min_assoc]

/-- C2, at a concrete input: two overlapping triangles of depths `1` and `2`; on
cell `(1, 1)` their fragments have different depths, and both orders leave the
same glyph. -/
theorem draw_order_independent_witness :
    (¬ ∃ f ∈ fragments ⟨0, 0⟩ ⟨8, 0⟩ ⟨0, 8⟩ 1 1 1, ∃ g ∈ fragments ⟨0, 0⟩ ⟨6, 0⟩ ⟨0, 6⟩ 2 2 2,
        (f.x = ((1 : Fin WIDTH) : ℤ) ∧ f.y = ((1 : Fin HEIGHT) : ℤ)) ∧
        (g.x = ((1 : Fin WIDTH) : ℤ) ∧ g.y = ((1 : Fin HEIGHT) : ℤ)) ∧ f.z = g.z) ∧
      (draw_filled_triangle (draw_filled_triangle ⟨fun _ _ => ⊤, fun _ _ => BLANK⟩
          ⟨0, 0⟩ ⟨8, 0⟩ ⟨0, 8⟩ 1 1 1 9617) ⟨0, 0⟩ ⟨6, 0⟩ ⟨0, 6⟩ 2 2 2 9619).buffer 1 1 =
        (draw_filled_triangle (draw_filled_triangle ⟨fun _ _ => ⊤, fun _ _ => BLANK⟩
          ⟨0, 0⟩ ⟨6, 0⟩ ⟨0, 6⟩ 2 2 2 9619) ⟨0, 0⟩ ⟨8, 0⟩ ⟨0, 8⟩ 1 1 1 9617).buffer 1 1 :=
  ⟨by decide!, (draw_order_independent ⟨fun _ _ => ⊤, fun _ _ => BLANK⟩
    ⟨0, 0⟩ ⟨8, 0⟩ ⟨0, 8⟩ 1 1 1 9617 ⟨0, 0⟩ ⟨6, 0⟩ ⟨0, 6⟩ 2 2 2 9619 1 1).2.1 (by decide!)⟩

/-! ## The three compare-and-swap steps -/

/-- After lines 85-87 the locals are one of the six arrangements of the arguments,
each depth with its point, and in ascending order of `y`. -/
theorem sort_by_y_spec (t : Tri) :
    ((sort_by_y t).p1.y ≤ (sort_by_y t).p2.y ∧ (sort_by_y t).p2.y ≤ (sort_by_y t).p3.y) ∧
    (sort_by_y t = t ∨ sort_by_y t = ⟨t.p1, t.p3, t.p2, t.z1, t.z3, t.z2⟩ ∨
      sort_by_y t = ⟨t.p2, t.p1, t.p3, t.z2, t.z1, t.z3⟩ ∨
      sort_by_y t = ⟨t.p2, t.p3, t.p1, t.z2, t.z3, t.z1⟩ ∨
      sort_by_y t = ⟨t.p3, t.p1, t.p2, t.z3, t.z1, t.z2⟩ ∨
      sort_by_y t = ⟨t.p3, t.p2, t.p1, t.z3, t.z2, t.z1⟩) := by
  obtain ⟨p1, p2, p3, z1, z2, z3⟩ := t
  unfold sort_by_y
  by_cases h12 : p1.y > p2.y
  · by_cases h23 : p2.y > p3.y
    · by_cases h13 : p1.y > p3.y
      · simp only [swap12, swap13, swap23, h12, h23, h13, if_true]
        exact ⟨⟨by linarith, by linarith⟩, by simp⟩
      · exact absurd (lt_trans h23 h12) h13
    · by_cases h13 : p1.y > p3.y
      · simp only [swap12, swap13, swap23, h12, h23, h13, if_true, if_false]
        exact ⟨⟨by linarith, by linarith⟩, by simp⟩
      · simp only [swap12, swap13, swap23, h12, h23, h13, if_true, if_false]
        exact ⟨⟨by linarith, by linarith⟩, by simp⟩
  · by_cases h13 : p1.y > p3.y
    · have h23 : p2.y > p3.y := by linarith
      simp only [swap12, swap13, swap23, h12, h23, h13, if_true, if_false]
      have h21 : p2.y > p1.y ∨ ¬ (p2.y > p1.y) := em _
      rcases h21 with h21 | h21
      · simp only [h21, if_true]
        exact ⟨⟨by linarith, by linarith⟩, by simp⟩
      · simp only [h21, if_false]
        exact ⟨⟨by linarith, by linarith⟩, by simp⟩
    · by_cases h23 : p2.y > p3.y
      · simp only [swap12, swap13, swap23, h12, h23, h13, if_true, if_false]
        exact ⟨⟨by linarith, by linarith⟩, by simp⟩
      · simp only [swap12, swap13, swap23, h12, h23, h13, if_true, if_false]
        exact ⟨⟨by linarith, by linarith⟩, by simp⟩

/-! ## Triangles of zero (truncated) height: C8 -/

theorem toInt_eq_zero {q : ℚ} (h1 : -1 < q) (h2 : q < 1) : toInt q = 0 := by
  unfold toInt
  split_ifs with h
  · exact Int.floor_eq_iff.2 ⟨by simpa using h, by simpa using h2⟩
  · exact Int.ceil_eq_iff.2 ⟨by simpa using h1, by push_neg at h; simpa using h.le⟩

/-- Line 90: when `total_height == 0` the function returns at once. -/
theorem draw_of_total_height_zero (s : Buffers) (p1 p2 p3 : Point2D ℚ) (z1 z2 z3 : ℚ)
    (shade : wchar_t) (h : total_height (sort_by_y ⟨p1, p2, p3, z1, z2, z3⟩) = 0) :
    draw_filled_triangle s p1 p2 p3 z1 z2 z3 shade = s := by
  unfold draw_filled_triangle fill_sorted
  rw [if_pos h]

/-- When the three `y` coordinates are pairwise less than `1` apart, `total_height`
is `0` after sorting. -/
theorem total_height_zero_of_close (p1 p2 p3 : Point2D ℚ) (z1 z2 z3 : ℚ)
    (h12 : |p1.y - p2.y| < 1) (h13 : |p1.y - p3.y| < 1) (h23 : |p2.y - p3.y| < 1) :
    total_height (sort_by_y ⟨p1, p2, p3, z1, z2, z3⟩) = 0 := by
  rw [abs_lt] at h12 h13 h23
  unfold total_height
  rcases (sort_by_y_spec ⟨p1, p2, p3, z1, z2, z3⟩).2 with h | h | h | h | h | h <;>
    rw [h] <;> apply toInt_eq_zero <;> simp only <;> linarith

/-- C8. For every buffer state and every triangle whose three points have the same
`y` (bounding height `p3.y - p1.y = 0` after sorting), `draw_filled_triangle`
returns the buffers unchanged. -/
theorem draw_zero_height_unchanged (s : Buffers) (p1 p2 p3 : Point2D ℚ) (z1 z2 z3 : ℚ)
    (shade : wchar_t) (h12 : p1.y = p2.y) (h23 : p2.y = p3.y) :
    draw_filled_triangle s p1 p2 p3 z1 z2 z3 shade = s := by
  apply draw_of_total_height_zero
  apply total_height_zero_of_close
  · rw [h12, sub_self, abs_zero]
    exact zero_lt_one
  · rw [h12, h23, sub_self, abs_zero]
    exact zero_lt_one
  · rw [h23, sub_self, abs_zero]
    exact zero_lt_one

/-- C8, at a concrete input: three points on the scanline `y = 3`. -/
theorem draw_zero_height_unchanged_witness :
    ((⟨2, 3⟩ : Point2D ℚ).y = (⟨9, 3⟩ : Point2D ℚ).y ∧
      (⟨9, 3⟩ : Point2D ℚ).y = (⟨5, 3⟩ : Point2D ℚ).y) ∧
    draw_filled_triangle ⟨fun _ _ => ⊤, fun _ _ => BLANK⟩ ⟨2, 3⟩ ⟨9, 3⟩ ⟨5, 3⟩ 1 2 3 9608 =
      ⟨fun _ _ => ⊤, fun _ _ => BLANK⟩ :=
  ⟨⟨rfl, rfl⟩, draw_zero_height_unchanged ⟨fun _ _ => ⊤, fun _ _ => BLANK⟩
    ⟨2, 3⟩ ⟨9, 3⟩ ⟨5, 3⟩ 1 2 3 9608 rfl rfl⟩

/-! ## C3: coverage is lost when vertex coordinates are fractional -/

/-- C3, the code at a failing input. The triangle `(10, 0.75), (30, 1.25), (20, 5)`
lies inside the grid and the cell `(15, 1)` is strictly inside it, yet after
`clear_buffers` and `draw_filled_triangle` that cell is still blank with depth
`INFINITY`: on scanline `y = 1`, `segment_height = (int)(1.25 - 0.75) = 0` and the
scanline is skipped (line 95). -/
theorem coverage_fails_fractional_vertices :
    strictly_inside ⟨10, 3 / 4⟩ ⟨30, 5 / 4⟩ ⟨20, 5⟩ 15 1 ∧
      segment_height (sort_by_y ⟨⟨10, 3 / 4⟩, ⟨30, 5 / 4⟩, ⟨20, 5⟩, 1, 1, 1⟩) 1 = 0 ∧
      (draw_filled_triangle (clear_buffers ⟨fun _ _ => 0, fun _ _ => 0⟩)
        ⟨10, 3 / 4⟩ ⟨30, 5 / 4⟩ ⟨20, 5⟩ 1 1 1 9608).buffer 1 15 = BLANK ∧
      (draw_filled_triangle (clear_buffers ⟨fun _ _ => 0, fun _ _ => 0⟩)
        ⟨10, 3 / 4⟩ ⟨30, 5 / 4⟩ ⟨20, 5⟩ 1 1 1 9608).zbuffer 1 15 = ⊤ := by
  refine ⟨?_, by decide!, ?_, ?_⟩
  · unfold strictly_inside edge_fn
    norm_num
  · rw [clear_buffers_eq]
    decide!
  · rw [clear_buffers_eq]
    decide!

/-! ## C7: no executed division has a zero divisor -/

theorem checked_div_of_ne (a b : ℚ) (h : b ≠ 0) : checked_div a b = some (a / b) := by
  unfold checked_div
  rw [if_neg h]

/-- Line 119: the quotient is only computed when `B.x != A.x`. -/
theorem phi_checked_eq (sp : Span) (x : ℤ) : phi_checked sp x = some (phi sp x) := by
  unfold phi_checked phi
  split_ifs with h
  · rfl
  · exact checked_div_of_ne _ _ (sub_ne_zero.2 h)

theorem xloop_checked_eq (sp : Span) (y : ℤ) (shade : wchar_t) (n : ℕ) (x : ℤ) (s : Buffers) :
    xloop_checked sp y shade n x s = some (xloop sp y shade n x s) := by
  induction n generalizing x s with
  | zero => rfl
  | succ n ih =>
    simp only [xloop_checked, xloop, phi_checked_eq, pixel_depth]
    split_ifs with h
    · exact ih _ _
    · rfl

/-- Line 97: `alpha` is only computed after the return at line 90. -/
theorem alpha_checked_eq (t : Tri) (y : ℤ) (h : total_height t ≠ 0) :
    alpha_checked t y = some (alpha t y) := by
  unfold alpha_checked alpha
  exact checked_div_of_ne _ _ (by exact_mod_cast h)

/-- Lines 98-100: `beta` is only computed after the `continue` at line 95. -/
theorem beta_checked_eq (t : Tri) (y : ℤ) (h : segment_height t y ≠ 0) :
    beta_checked t y = some (beta t y) := by
  unfold beta_checked beta
  have h2 : (segment_height t y : ℚ) ≠ 0 := by exact_mod_cast h
  split_ifs <;> exact checked_div_of_ne _ _ h2

theorem scanline_checked_eq (t : Tri) (shade : wchar_t) (y : ℤ) (s : Buffers)
    (h : total_height t ≠ 0) :
    scanline_checked t shade y s = some (scanline t shade y s) := by
  unfold scanline_checked scanline
  split_ifs with hseg
  · rfl
  · rw [alpha_checked_eq t y h, beta_checked_eq t y hseg]
    exact xloop_checked_eq _ _ _ _ _ _

theorem yloop_checked_eq (t : Tri) (shade : wchar_t) (n : ℕ) (y : ℤ) (s : Buffers)
    (h : total_height t ≠ 0) :
    yloop_checked t shade n y s = some (yloop t shade n y s) := by
  induction n generalizing y s with
  | zero => rfl
  | succ n ih =>
    simp only [yloop_checked, yloop, scanline_checked_eq t shade y s h]
    split_ifs with hy
    · exact ih _ _
    · rfl

/-- C7. For every input to `draw_filled_triangle`, every division that is executed
has a non-zero divisor: the run in which each executed division (for `alpha`, for
`beta`, and the quotient for `phi`, which is skipped and replaced by `1.0` when
`B.x == A.x`) is checked never fails, and it computes the same buffers as
`draw_filled_triangle`. -/
theorem draw_divisors_nonzero (s : Buffers) (p1 p2 p3 : Point2D ℚ) (z1 z2 z3 : ℚ)
    (shade : wchar_t) :
    draw_filled_triangle_checked s p1 p2 p3 z1 z2 z3 shade =
      some (draw_filled_triangle s p1 p2 p3 z1 z2 z3 shade) := by
  unfold draw_filled_triangle_checked draw_filled_triangle fill_sorted_checked fill_sorted
  split_ifs with h
  · rfl
  · exact yloop_checked_eq _ _ _ _ _ h

/-! ## C9 and C10: rotations keep lengths -/

/-- The rotation `rotate_y` keeps the squared length of a vector. -/
theorem rotate_y_norm_sq {K : Type} [Field K] (p : Point3D K) (co si : K)
    (h : co ^ 2 + si ^ 2 = 1) :
    (p.x * co - p.z * si) ^ 2 + p.y ^ 2 + (p.x * si + p.z * co) ^ 2 =
      p.x ^ 2 + p.y ^ 2 + p.z ^ 2 := by
  linear_combination (p.x ^ 2 + p.z ^ 2) * h

/-- The rotation `rotate_x` keeps the squared length of a vector. -/
theorem rotate_x_norm_sq {K : Type} [Field K] (p : Point3D K) (co si : K)
    (h : co ^ 2 + si ^ 2 = 1) :
    p.x ^ 2 + (p.y * co - p.z * si) ^ 2 + (p.y * si + p.z * co) ^ 2 =
      p.x ^ 2 + p.y ^ 2 + p.z ^ 2 := by
  linear_combination (p.y ^ 2 + p.z ^ 2) * h

/-- The rotation `rotate_y`, applied to three points, keeps the squared length of
their normal. -/
theorem normal_sq_rotate_y {K : Type} [Field K] (cos sin : K → K) (t : K)
    (h : cos t ^ 2 + sin t ^ 2 = 1) (a b c : Point3D K) :
    (normal (rotate_y cos sin a t) (rotate_y cos sin b t) (rotate_y cos sin c t)).x ^ 2 +
      (normal (rotate_y cos sin a t) (rotate_y cos sin b t) (rotate_y cos sin c t)).y ^ 2 +
      (normal (rotate_y cos sin a t) (rotate_y cos sin b t) (rotate_y cos sin c t)).z ^ 2 =
    (normal a b c).x ^ 2 + (normal a b c).y ^ 2 + (normal a b c).z ^ 2 := by
  simp only [normal, rotate_y]
  generalize cos t = co at h ⊢
  generalize sin t = si at h ⊢
  linear_combination
    ((((c.x - a.x) * co - (c.z - a.z) * si)^2 + (c.y - a.y)^2 + ((c.x - a.x) * si + (c.z -
    a.z) * co)^2) * ((b.x - a.x)^2 + (b.z - a.z)^2) + ((b.x - a.x)^2 + (b.y - a.y)^2 + (b.z -
    a.z)^2) * ((c.x - a.x)^2 + (c.z - a.z)^2) - ((((b.x - a.x) * co - (b.z - a.z) * si)*((c.x
    - a.x) * co - (c.z - a.z) * si) + (b.y - a.y)*(c.y - a.y) + ((b.x - a.x) * si + (b.z -
    a.z) * co)*((c.x - a.x) * si + (c.z - a.z) * co)) + ((b.x - a.x)*(c.x - a.x) + (b.y -
    a.y)*(c.y - a.y) + (b.z - a.z)*(c.z - a.z))) * ((b.x - a.x)*(c.x - a.x) + (b.z - a.z)*(c.z
    - a.z))) * h

/-- The rotation `rotate_x`, applied to three points, keeps the squared length of
their normal. -/
theorem normal_sq_rotate_x {K : Type} [Field K] (cos sin : K → K) (t : K)
    (h : cos t ^ 2 + sin t ^ 2 = 1) (a b c : Point3D K) :
    (normal (rotate_x cos sin a t) (rotate_x cos sin b t) (rotate_x cos sin c t)).x ^ 2 +
      (normal (rotate_x cos sin a t) (rotate_x cos sin b t) (rotate_x cos sin c t)).y ^ 2 +
      (normal (rotate_x cos sin a t) (rotate_x cos sin b t) (rotate_x cos sin c t)).z ^ 2 =
    (normal a b c).x ^ 2 + (normal a b c).y ^ 2 + (normal a b c).z ^ 2 := by
  simp only [normal, rotate_x]
  generalize cos t = co at h ⊢
  generalize sin t = si at h ⊢
  linear_combination
    (((c.x - a.x)^2 + ((c.y - a.y) * co - (c.z - a.z) * si)^2 + ((c.y - a.y) * si + (c.z -
    a.z) * co)^2) * ((b.y - a.y)^2 + (b.z - a.z)^2) + ((b.x - a.x)^2 + (b.y - a.y)^2 + (b.z -
    a.z)^2) * ((c.y - a.y)^2 + (c.z - a.z)^2) - (((b.x - a.x)*(c.x - a.x) + ((b.y - a.y) * co
    - (b.z - a.z) * si)*((c.y - a.y) * co - (c.z - a.z) * si) + ((b.y - a.y) * si + (b.z -
    a.z) * co)*((c.y - a.y) * si + (c.z - a.z) * co)) + ((b.x - a.x)*(c.x - a.x) + (b.y -
    a.y)*(c.y - a.y) + (b.z - a.z)*(c.z - a.z))) * ((b.y - a.y)*(c.y - a.y) + (b.z - a.z)*(c.z
    - a.z))) * h

/-- The rotated vertices stay on the sphere of squared radius `3`. -/
theorem rotated_norm_sq (t : ℝ) (i : Fin 8) :
    (rotated Real.cos Real.sin t i).x ^ 2 + (rotated Real.cos Real.sin t i).y ^ 2 +
      (rotated Real.cos Real.sin t i).z ^ 2 = 3 := by
  unfold rotated
  have h1 := rotate_x_norm_sq (rotate_y Real.cos Real.sin (vertices i) t)
    (Real.cos (t * (1 / 2))) (Real.sin (t * (1 / 2))) (Real.cos_sq_add_sin_sq _)
  have h2 := rotate_y_norm_sq (vertices i : Point3D ℝ) (Real.cos t) (Real.sin t)
    (Real.cos_sq_add_sin_sq _)
  have h3 : (vertices i : Point3D ℝ).x ^ 2 + (vertices i : Point3D ℝ).y ^ 2 +
      (vertices i : Point3D ℝ).z ^ 2 = 3 := by
    fin_cases i <;> simp [vertices] <;> norm_num
  simp only [rotate_x, rotate_y] at h1 h2 ⊢
  rw [h1, h2, h3]

/-- C9. For every angle `t` and each of the 8 cube vertices `v`, the rotated point
`p = rotate_x(rotate_y(v, t), t * 0.5)` has `|p.z| <= sqrt 3` and `p.z + 100 > 0`: the
divisor `z + DEPTH` in `project` is never zero or negative. -/
theorem rotated_depth_positive (t : ℝ) (i : Fin 8) :
    |(rotated Real.cos Real.sin t i).z| ≤ Real.sqrt 3 ∧
      0 < (rotated Real.cos Real.sin t i).z + DEPTH ∧
      (rotated Real.cos Real.sin t i).z + DEPTH ≠ 0 := by
  have h := rotated_norm_sq t i
  have hz : (rotated Real.cos Real.sin t i).z ^ 2 ≤ 3 := by
    nlinarith [sq_nonneg (rotated Real.cos Real.sin t i).x,
      sq_nonneg (rotated Real.cos Real.sin t i).y]
  have habs : |(rotated Real.cos Real.sin t i).z| ≤ Real.sqrt 3 := Real.abs_le_sqrt hz
  have hpos : 0 < (rotated Real.cos Real.sin t i).z + DEPTH := by
    unfold DEPTH
    nlinarith
  exact ⟨habs, hpos, ne_of_gt hpos⟩

/-- C10. For every angle `t` and each of the 6 faces, the normal `(nx, ny, nz)`
computed in `main` from the rotated vertices `faces[f][1]`, `faces[f][2]`,
`faces[f][0]` has `nx*nx + ny*ny + nz*nz = 16`; the divisor
`sqrt(nx*nx + ny*ny + nz*nz)` of the lighting division is `4`, not zero. -/
theorem face_normal_length (t : ℝ) (f : Fin 6) :
    (face_normal Real.cos Real.sin t f).x * (face_normal Real.cos Real.sin t f).x +
      (face_normal Real.cos Real.sin t f).y * (face_normal Real.cos Real.sin t f).y +
      (face_normal Real.cos Real.sin t f).z * (face_normal Real.cos Real.sin t f).z = 16 ∧
    normal_length Real.sqrt (face_normal Real.cos Real.sin t f) = 4 ∧
    normal_length Real.sqrt (face_normal Real.cos Real.sin t f) ≠ 0 := by
  have h1 := normal_sq_rotate_x Real.cos Real.sin (t * (1 / 2)) (Real.cos_sq_add_sin_sq _)
    (rotate_y Real.cos Real.sin (vertices (faces f 1)) t)
    (rotate_y Real.cos Real.sin (vertices (faces f 2)) t)
    (rotate_y Real.cos Real.sin (vertices (faces f 0)) t)
  have h2 := normal_sq_rotate_y Real.cos Real.sin t (Real.cos_sq_add_sin_sq _)
    (vertices (faces f 1)) (vertices (faces f 2)) (vertices (faces f 0))
  have h3 : (normal (vertices (faces f 1) : Point3D ℝ) (vertices (faces f 2))
        (vertices (faces f 0))).x ^ 2 +
      (normal (vertices (faces f 1) : Point3D ℝ) (vertices (faces f 2))
        (vertices (faces f 0))).y ^ 2 +
      (normal (vertices (faces f 1) : Point3D ℝ) (vertices (faces f 2))
        (vertices (faces f 0))).z ^ 2 = 16 := by
    fin_cases f <;> simp [faces, vertices, normal] <;> norm_num
  have h16 : (face_normal Real.cos Real.sin t f).x * (face_normal Real.cos Real.sin t f).x +
      (face_normal Real.cos Real.sin t f).y * (face_normal Real.cos Real.sin t f).y +
      (face_normal Real.cos Real.sin t f).z * (face_normal Real.cos Real.sin t f).z = 16 := by
    unfold face_normal rotated
    rw [← h3, ← h2, ← h1]
    ring
  have h4 : normal_length Real.sqrt (face_normal Real.cos Real.sin t f) = 4 := by
    unfold normal_length
    rw [h16]
    rw [show (16 : ℝ) = 4 ^ 2 by norm_num]
    exact Real.sqrt_sq (by norm_num)
  refine ⟨h16, h4, ?_⟩
  rw [h4]
  norm_num

/-! ## C11: the range of the light value -/

/-- C11 fails as stated: for the non-zero normal `(2, 2, -1)`, of length `3`, the light
value is `5 / 3 > 1`, and `(nx + ny - nz)^2 = 25 > 9 = nx^2 + ny^2 + nz^2`. -/
theorem light_exceeds_one :
    light Real.sqrt (⟨2, 2, -1⟩ : Point3D ℝ) = 5 / 3 ∧
      ¬ (light Real.sqrt (⟨2, 2, -1⟩ : Point3D ℝ) ≤ 1) ∧
      ¬ (((2 : ℝ) + 2 - (-1)) ^ 2 ≤ (2 : ℝ) ^ 2 + 2 ^ 2 + (-1) ^ 2) := by
  have h3 : Real.sqrt ((2 : ℝ) * 2 + 2 * 2 + (-1) * (-1)) = 3 := by
    rw [show (2 : ℝ) * 2 + 2 * 2 + (-1) * (-1) = 3 ^ 2 by norm_num]
    exact Real.sqrt_sq (by norm_num)
  have hl : light Real.sqrt (⟨2, 2, -1⟩ : Point3D ℝ) = 5 / 3 := by
    simp only [light, normal_length]
    rw [h3]
    norm_num
  refine ⟨hl, ?_, ?_⟩
  · rw [hl]
    norm_num
  · norm_num

/-- C11, amended. For every non-zero normal `(nx, ny, nz)`, the light value
`light = (nx + ny - nz) / sqrt(nx^2 + ny^2 + nz^2)` lies in `[-sqrt 3, sqrt 3]`, and
`(nx + ny - nz)^2 <= 3 * (nx^2 + ny^2 + nz^2)`. -/
theorem light_abs_le_sqrt_three (n : Point3D ℝ) (hn : n.x ≠ 0 ∨ n.y ≠ 0 ∨ n.z ≠ 0) :
    |light Real.sqrt n| ≤ Real.sqrt 3 ∧
      (n.x + n.y - n.z) ^ 2 ≤ 3 * (n.x ^ 2 + n.y ^ 2 + n.z ^ 2) := by
  have hsq : (n.x + n.y - n.z) ^ 2 ≤ 3 * (n.x ^ 2 + n.y ^ 2 + n.z ^ 2) := by
    nlinarith [sq_nonneg (n.x - n.y), sq_nonneg (n.x + n.z), sq_nonneg (n.y + n.z)]
  have hpos : 0 < n.x * n.x + n.y * n.y + n.z * n.z := by
    rcases hn with h | h | h
    · nlinarith [mul_self_pos.2 h, mul_self_nonneg n.y, mul_self_nonneg n.z]
    · nlinarith [mul_self_pos.2 h, mul_self_nonneg n.x, mul_self_nonneg n.z]
    · nlinarith [mul_self_pos.2 h, mul_self_nonneg n.x, mul_self_nonneg n.y]
  have hlen : 0 < Real.sqrt (n.x * n.x + n.y * n.y + n.z * n.z) := Real.sqrt_pos.2 hpos
  have hlen2 : Real.sqrt (n.x * n.x + n.y * n.y + n.z * n.z) ^ 2 =
      n.x * n.x + n.y * n.y + n.z * n.z := Real.sq_sqrt hpos.le
  refine ⟨?_, hsq⟩
  apply Real.abs_le_sqrt
  simp only [light, normal_length]
  rw [div_pow, hlen2, div_le_iff₀ hpos]
  nlinarith

/-- C11 amended, at a concrete input: the normal `(2, 2, -1)`. -/
theorem light_abs_le_sqrt_three_witness :
    ((⟨2, 2, -1⟩ : Point3D ℝ).x ≠ 0 ∨ (⟨2, 2, -1⟩ : Point3D ℝ).y ≠ 0 ∨
        (⟨2, 2, -1⟩ : Point3D ℝ).z ≠ 0) ∧
      |light Real.sqrt (⟨2, 2, -1⟩ : Point3D ℝ)| ≤ Real.sqrt 3 :=
  ⟨Or.inl (by norm_num),
    (light_abs_le_sqrt_three ⟨2, 2, -1⟩ (Or.inl (by norm_num))).1⟩

/-! ## C12: rotation by the angle 0 -/

/-- C12. For every point `p`, `rotate_y(p, 0) = p` and `rotate_x(p, 0) = p`, taking
`cos 0 = 1` and `sin 0 = 0`. -/
theorem rotate_zero {K : Type} [Field K] (cos sin : K → K) (hc : cos 0 = 1) (hs : sin 0 = 0)
    (p : Point3D K) : rotate_y cos sin p 0 = p ∧ rotate_x cos sin p 0 = p := by
  obtain ⟨x, y, z⟩ := p
  simp [rotate_y, rotate_x, hc, hs]

/-- C12, at a concrete input: the real `cos` and `sin` and the point `(1, 2, 3)`. -/
theorem rotate_zero_witness :
    (Real.cos 0 = 1 ∧ Real.sin 0 = 0) ∧
      rotate_y Real.cos Real.sin (⟨1, 2, 3⟩ : Point3D ℝ) 0 = ⟨1, 2, 3⟩ ∧
      rotate_x Real.cos Real.sin (⟨1, 2, 3⟩ : Point3D ℝ) 0 = ⟨1, 2, 3⟩ :=
  ⟨⟨Real.cos_zero, Real.sin_zero⟩,
    rotate_zero Real.cos Real.sin Real.cos_zero Real.sin_zero ⟨1, 2, 3⟩⟩

/-! ## C14: the front face at angle 0 -/

/-- C14. With `angle = 0`, the four front-face vertices (indices 0, 1, 2, 3, all at
`z = -1`) are left unchanged by `rotate_y(., 0)` and `rotate_x(., 0 * 0.5)`, the scale
of `project` is `100 / 99`, and they project to the four points
`(60 -+ 1500/99, 20 -+ 1500/99)`: each corner is offset by `1500 / 99` from the screen
centre `(60, 20)` in both `x` and `y`. -/
theorem front_face_at_angle_zero :
    (rotated Real.cos Real.sin 0 0 = vertices 0 ∧ rotated Real.cos Real.sin 0 1 = vertices 1 ∧
      rotated Real.cos Real.sin 0 2 = vertices 2 ∧ rotated Real.cos Real.sin 0 3 = vertices 3) ∧
    ((vertices 0 : Point3D ℝ).z = -1 ∧ (vertices 1 : Point3D ℝ).z = -1 ∧
      (vertices 2 : Point3D ℝ).z = -1 ∧ (vertices 3 : Point3D ℝ).z = -1) ∧
    (DEPTH : ℝ) / ((rotated Real.cos Real.sin 0 0).z + DEPTH) = 100 / 99 ∧
    project (rotated Real.cos Real.sin 0 0) = ⟨60 - 1500 / 99, 20 - 1500 / 99⟩ ∧
    project (rotated Real.cos Real.sin 0 1) = ⟨60 + 1500 / 99, 20 - 1500 / 99⟩ ∧
    project (rotated Real.cos Real.sin 0 2) = ⟨60 + 1500 / 99, 20 + 1500 / 99⟩ ∧
    project (rotated Real.cos Real.sin 0 3) = ⟨60 - 1500 / 99, 20 + 1500 / 99⟩ := by
  have hr : ∀ i : Fin 8, rotated Real.cos Real.sin 0 i = vertices i := by
    intro i
    simp [rotated, rotate_x, rotate_y]
  refine ⟨⟨hr 0, hr 1, hr 2, hr 3⟩, ⟨rfl, rfl, rfl, rfl⟩, ?_, ?_, ?_, ?_, ?_⟩ <;> rw [hr]
  · norm_num [vertices, DEPTH]
  · simp only [project, vertices, DEPTH, CUBE_SIZE, Point2D.mk.injEq]
    constructor <;> norm_num
  · simp only [project, vertices, DEPTH, CUBE_SIZE, Point2D.mk.injEq]
    constructor <;> norm_num
  · simp only [project, vertices, DEPTH, CUBE_SIZE, Point2D.mk.injEq]
    constructor <;> norm_num
  · simp only [project, vertices, DEPTH, CUBE_SIZE, Point2D.mk.injEq]
    constructor <;> norm_num

/-! ## C15: the three compare-and-swap steps sort the pairs -/

/-- C15. For every input, after the three compare-and-swap steps at lines 85-87 the
points satisfy `p1.y <= p2.y <= p3.y`, and the three (point, depth) pairs are a
permutation of the three input pairs: each depth is still paired with the point it
was passed with. -/
theorem sort_by_y_sorted_perm (p1 p2 p3 : Point2D ℚ) (z1 z2 z3 : ℚ) :
    (sort_by_y ⟨p1, p2, p3, z1, z2, z3⟩).p1.y ≤ (sort_by_y ⟨p1, p2, p3, z1, z2, z3⟩).p2.y ∧
    (sort_by_y ⟨p1, p2, p3, z1, z2, z3⟩).p2.y ≤ (sort_by_y ⟨p1, p2, p3, z1, z2, z3⟩).p3.y ∧
    List.Perm
      [((sort_by_y ⟨p1, p2, p3, z1, z2, z3⟩).p1, (sort_by_y ⟨p1, p2, p3, z1, z2, z3⟩).z1),
        ((sort_by_y ⟨p1, p2, p3, z1, z2, z3⟩).p2, (sort_by_y ⟨p1, p2, p3, z1, z2, z3⟩).z2),
        ((sort_by_y ⟨p1, p2, p3, z1, z2, z3⟩).p3, (sort_by_y ⟨p1, p2, p3, z1, z2, z3⟩).z3)]
      [(p1, z1), (p2, z2), (p3, z3)] := by
  obtain ⟨⟨h12, h23⟩, hperm⟩ := sort_by_y_spec ⟨p1, p2, p3, z1, z2, z3⟩
  refine ⟨h12, h23, ?_⟩
  rcases hperm with h | h | h | h | h | h <;> rw [h] <;> simp only
  · exact (List.Perm.swap (p2, z2) (p3, z3) []).cons (p1, z1)
  · exact List.Perm.swap (p1, z1) (p2, z2) [(p3, z3)]
  · exact (((List.Perm.swap (p1, z1) (p3, z3) []).cons (p2, z2))).trans
      (List.Perm.swap (p1, z1) (p2, z2) [(p3, z3)])
  · exact (List.Perm.swap (p1, z1) (p3, z3) [(p2, z2)]).trans
      ((List.Perm.swap (p2, z2) (p3, z3) []).cons (p1, z1))
  · exact ((List.Perm.swap (p2, z2) (p3, z3) [(p1, z1)]).trans
      ((List.Perm.swap (p1, z1) (p3, z3) []).cons (p2, z2))).trans
      (List.Perm.swap (p1, z1) (p2, z2) [(p3, z3)])

/-! ## C16: alpha leaves [0, 1] when vertex coordinates are fractional -/

/-- C16, the code at a failing input. For the triangle `(10, 0.5), (18, 1.5), (14, 2.5)`
the loop starts at scanline `y = (int)0.5 = 0`, which is visited (`0 <= p3.y`) and not
skipped (`total_height = 2`, `segment_height = 1`); there `alpha = (0 - 0.5) / 2 = -1/4`
and the interpolated point `A = (9, 0)` is not on the segment from `p1` to `p3`. The
scanline is drawn: cell `(9, 0)`, above the triangle, receives the shade. -/
theorem alpha_negative_fractional_vertices :
    sort_by_y ⟨⟨10, 1 / 2⟩, ⟨18, 3 / 2⟩, ⟨14, 5 / 2⟩, 1, 1, 1⟩ =
        ⟨⟨10, 1 / 2⟩, ⟨18, 3 / 2⟩, ⟨14, 5 / 2⟩, 1, 1, 1⟩ ∧
      total_height ⟨⟨10, 1 / 2⟩, ⟨18, 3 / 2⟩, ⟨14, 5 / 2⟩, 1, 1, 1⟩ = 2 ∧
      toInt (1 / 2 : ℚ) = 0 ∧
      segment_height ⟨⟨10, 1 / 2⟩, ⟨18, 3 / 2⟩, ⟨14, 5 / 2⟩, 1, 1, 1⟩ 0 = 1 ∧
      alpha ⟨⟨10, 1 / 2⟩, ⟨18, 3 / 2⟩, ⟨14, 5 / 2⟩, 1, 1, 1⟩ 0 = -1 / 4 ∧
      (edges ⟨⟨10, 1 / 2⟩, ⟨18, 3 / 2⟩, ⟨14, 5 / 2⟩, 1, 1, 1⟩ 0).A = ⟨9, 0⟩ ∧
      (draw_filled_triangle ⟨fun _ _ => ⊤, fun _ _ => BLANK⟩
        ⟨10, 1 / 2⟩ ⟨18, 3 / 2⟩ ⟨14, 5 / 2⟩ 1 1 1 9608).buffer 0 9 = 9608 := by
  refine ⟨?_, by decide!, by decide!, by decide!, by decide!, by decide!, by decide!⟩
  norm_num [sort_by_y, swap12, swap13, swap23]

/-- The same truncation on the program's own input: the first call of the first
frame (`angle = 0`, where `rotated[i] = vertices[i]`) draws the front-face triangle
`projected[0], projected[1], projected[2]` with `p1.y = 20 - 1500/99`. The loop starts
at `y = (int)p1.y = 4`, the scanline is not skipped (`total_height = 30`,
`segment_height = 30`) and `alpha = -14/495 < 0`. -/
theorem alpha_negative_first_frame :
    toInt (project (vertices 0 : Point3D ℚ)).y = 4 ∧
      total_height (sort_by_y ⟨project (vertices 0), project (vertices 1), project (vertices 2),
        (vertices 0 : Point3D ℚ).z, (vertices 1 : Point3D ℚ).z, (vertices 2 : Point3D ℚ).z⟩) = 30 ∧
      segment_height (sort_by_y ⟨project (vertices 0), project (vertices 1), project (vertices 2),
        (vertices 0 : Point3D ℚ).z, (vertices 1 : Point3D ℚ).z, (vertices 2 : Point3D ℚ).z⟩) 4 = 30 ∧
      alpha (sort_by_y ⟨project (vertices 0), project (vertices 1), project (vertices 2),
        (vertices 0 : Point3D ℚ).z, (vertices 1 : Point3D ℚ).z, (vertices 2 : Point3D ℚ).z⟩) 4 =
          -14 / 495 := by
  refine ⟨?_, ?_, ?_, ?_⟩ <;> decide!

/-! ## Truncation at and above integers -/

theorem toInt_intCast (n : ℤ) : toInt ((n : ℤ) : ℚ) = n := by
  unfold toInt
  split_ifs <;> simp

theorem le_toInt (L : ℤ) (q : ℚ) (h : (L : ℚ) ≤ q) : L ≤ toInt q := by
  unfold toInt
  split_ifs with h0
  · exact Int.le_floor.2 h
  · exact Int.cast_le.1 (le_trans h (Int.le_ceil q))

/-! ## Basic facts about the floating buffers -/

/-- Effect of `plot_f` on the depth of one cell. -/
theorem plot_f_zbuffer (s : FBuffers) (x y : ℤ) (z : FVal) (shade : wchar_t) (cy : Fin HEIGHT)
    (cx : Fin WIDTH) :
    (plot_f s x y z shade).zbuffer cy cx =
      if (x = (cx : ℤ) ∧ y = (cy : ℤ)) ∧ flt z (s.zbuffer cy cx) = true then z
      else s.zbuffer cy cx := by
  unfold plot_f
  by_cases h : 0 ≤ x ∧ x < (WIDTH : ℤ) ∧ 0 ≤ y ∧ y < (HEIGHT : ℤ)
  · rw [dif_pos h]
    obtain ⟨hx0, hx1, hy0, hy1⟩ := h
    by_cases hc : x = (cx : ℤ) ∧ y = (cy : ℤ)
    · have hc2 := (fin_cell_iff x y hx0 hx1 hy0 hy1 cy cx).2 hc
      obtain ⟨e1, e2⟩ := hc2
      simp only [← e1, ← e2, hc, true_and]
      by_cases hz : flt z (s.zbuffer cy cx) = true
      · simp [hz, store_apply]
      · simp [hz]
    · have hc2 := mt (fin_cell_iff x y hx0 hx1 hy0 hy1 cy cx).1 hc
      simp only [hc, false_and, if_false]
      split_ifs with hz
      · simp only [store_apply, if_neg hc2]
      · rfl
  · rw [dif_neg h]
    have hc : ¬ (x = (cx : ℤ) ∧ y = (cy : ℤ)) := by
      rintro ⟨h1, h2⟩
      apply h
      have := cx.isLt
      have := cy.isLt
      subst h1 h2
      refine ⟨by omega, by exact_mod_cast cx.isLt, by omega, by exact_mod_cast cy.isLt⟩
    simp [hc]

/-- Effect of `plot_f` on the glyph of one cell. -/
theorem plot_f_buffer (s : FBuffers) (x y : ℤ) (z : FVal) (shade : wchar_t) (cy : Fin HEIGHT)
    (cx : Fin WIDTH) :
    (plot_f s x y z shade).buffer cy cx =
      if (x = (cx : ℤ) ∧ y = (cy : ℤ)) ∧ flt z (s.zbuffer cy cx) = true then shade
      else s.buffer cy cx := by
  unfold plot_f
  by_cases h : 0 ≤ x ∧ x < (WIDTH : ℤ) ∧ 0 ≤ y ∧ y < (HEIGHT : ℤ)
  · rw [dif_pos h]
    obtain ⟨hx0, hx1, hy0, hy1⟩ := h
    by_cases hc : x = (cx : ℤ) ∧ y = (cy : ℤ)
    · have hc2 := (fin_cell_iff x y hx0 hx1 hy0 hy1 cy cx).2 hc
      obtain ⟨e1, e2⟩ := hc2
      simp only [← e1, ← e2, hc, true_and]
      by_cases hz : flt z (s.zbuffer cy cx) = true
      · simp [hz, store_apply]
      · simp [hz]
    · have hc2 := mt (fin_cell_iff x y hx0 hx1 hy0 hy1 cy cx).1 hc
      simp only [hc, false_and, if_false]
      split_ifs with hz
      · simp only [store_apply, if_neg hc2]
      · rfl
  · rw [dif_neg h]
    have hc : ¬ (x = (cx : ℤ) ∧ y = (cy : ℤ)) := by
      rintro ⟨h1, h2⟩
      apply h
      have := cx.isLt
      have := cy.isLt
      subst h1 h2
      refine ⟨by omega, by exact_mod_cast cx.isLt, by omega, by exact_mod_cast cy.isLt⟩
    simp [hc]

/-- More iterations than `int_budget` allows change nothing in the `x` loop: the loop
is left by its condition or by the overflow of `x++`, never by the budget. -/
theorem xloop_f_budget (F : Fmt) (sp : FSpan) (y : ℤ) (shade : wchar_t) (k n : ℕ) (x : ℤ)
    (s : FBuffers) (hx : x ≤ INT_MAX) (hn : INT_MAX + 2 - x ≤ (n : ℤ)) :
    xloop_f F sp y shade (n + k) x s = xloop_f F sp y shade n x s := by
  induction n generalizing x s with
  | zero =>
    exfalso
    have : (((0 : ℕ) : ℤ)) = 0 := rfl
    omega
  | succ n ih =>
    have e : n + 1 + k = (n + k) + 1 := by omega
    rw [e]
    simp only [xloop_f]
    by_cases h1 : fle (of_int F x) sp.B.x = true
    · rw [if_pos h1, if_pos h1]
      by_cases h2 : x = INT_MAX
      · rw [if_pos h2, if_pos h2]
      · rw [if_neg h2, if_neg h2]
        apply ih
        · omega
        · push_cast at hn
          omega
    · rw [if_neg h1, if_neg h1]

/-- More iterations than `int_budget` allows change nothing in the `y` loop. -/
theorem yloop_f_budget (F : Fmt) (t : FTri) (th : ℤ) (shade : wchar_t) (k n : ℕ) (y : ℤ)
    (s : FBuffers) (hy : y ≤ INT_MAX) (hn : INT_MAX + 2 - y ≤ (n : ℤ)) :
    yloop_f F t th shade (n + k) y s = yloop_f F t th shade n y s := by
  induction n generalizing y s with
  | zero =>
    exfalso
    have : (((0 : ℕ) : ℤ)) = 0 := rfl
    omega
  | succ n ih =>
    have e : n + 1 + k = (n + k) + 1 := by omega
    rw [e]
    simp only [yloop_f]
    by_cases h1 : fle (of_int F y) t.p3.y = true
    · rw [if_pos h1, if_pos h1]
      cases scanline_f F t th shade y s with
      | none => rfl
      | some s2 =>
        simp only []
        by_cases h2 : y = INT_MAX
        · rw [if_pos h2, if_pos h2]
        · rw [if_neg h2, if_neg h2]
          apply ih
          · omega
          · push_cast at hn
            omega
    · rw [if_neg h1, if_neg h1]

theorem int_budget_spec (n : ℤ) (h : n ≤ INT_MAX) : INT_MAX + 2 - n ≤ ((int_budget n : ℕ) : ℤ) := by
  unfold int_budget
  omega

/-- C6 fails as stated: for `light = 3000000000` the value `(light + 1.0) * 1.5` is
`4500000001.5`, outside the range of `int`, so the conversion at line 170 is undefined
and no shade index is computed, while `clamp(floor((light + 1) * 1.5), 0, 3) = 3`. -/
theorem shade_idx_out_of_range :
    shade_idx (3000000000 : ℚ) = none ∧
      (INT_MAX : ℚ) < (3000000000 + 1) * (3 / 2) ∧
      max 0 (min 3 ⌊((3000000000 : ℚ) + 1) * (3 / 2)⌋) = 3 := by
  refine ⟨by decide!, by decide!, by decide!⟩

/-- C6, amended. For every light value (also outside `[-1, 1]`) for which
`(light + 1.0) * 1.5` lies strictly between `-2^31 - 1` and `2^31`, so that its
conversion to `int` is defined, the shade index computed in `main` by truncating toward
zero and applying the two clamping tests equals `clamp(floor((light + 1) * 1.5), 0, 3)`,
lies in `0 .. 3` and is a valid index into the 4-glyph palette `shades`. -/
theorem shade_idx_eq_clamp {K : Type} [LinearOrderedField K] [FloorRing K] (light : K)
    (hlo : (INT_MIN : K) - 1 < (light + 1) * (3 / 2))
    (hhi : (light + 1) * (3 / 2) < (INT_MAX : K) + 1) :
    shade_idx light = some (max 0 (min 3 ⌊(light + 1) * (3 / 2)⌋)) ∧
      (0 ≤ max 0 (min 3 ⌊(light + 1) * (3 / 2)⌋) ∧ max 0 (min 3 ⌊(light + 1) * (3 / 2)⌋) ≤ 3) ∧
      (max 0 (min 3 ⌊(light + 1) * (3 / 2)⌋)).toNat < shades.length := by
  have hlen : shades.length = 4 := rfl
  rw [hlen]
  unfold shade_idx toInt
  generalize (light + 1) * (3 / 2) = v at hlo hhi
  have hmax : (INT_MAX : K) + 1 = ((INT_MAX + 1 : ℤ) : K) := by push_cast; ring
  have hmin : (INT_MIN : K) - 1 = ((INT_MIN - 1 : ℤ) : K) := by push_cast; ring
  rw [hmax] at hhi
  rw [hmin] at hlo
  have hfl : ⌊v⌋ < INT_MAX + 1 := Int.floor_lt.2 hhi
  have hcl : INT_MIN - 1 < ⌈v⌉ := Int.lt_ceil.2 hlo
  have hfc : ⌊v⌋ ≤ ⌈v⌉ := Int.floor_le_ceil v
  have hM : INT_MAX = 2147483647 := rfl
  have hm : INT_MIN = -2147483648 := rfl
  by_cases hv : 0 ≤ v
  · have hf : 0 ≤ ⌊v⌋ := Int.floor_nonneg.2 hv
    simp only [if_pos hv]
    rw [if_pos ⟨by omega, by omega⟩]
    refine ⟨?_, ?_, ?_⟩
    · congr 1
      split_ifs <;> omega
    · omega
    · omega
  · have hv2 : v < 0 := not_le.1 hv
    have hc : ⌈v⌉ ≤ 0 := Int.ceil_le.2 (by simpa using hv2.le)
    have hf : ⌊v⌋ < 0 := Int.floor_lt.2 (by simpa using hv2)
    simp only [if_neg hv]
    rw [if_pos ⟨by omega, by omega⟩]
    refine ⟨?_, ?_, ?_⟩
    · congr 1
      split_ifs <;> omega
    · omega
    · omega

/-- C6 amended, at a concrete input: `light = 2`, outside `[-1, 1]`, gives index `3`. -/
theorem shade_idx_eq_clamp_witness :
    ((INT_MIN : ℚ) - 1 < ((2 : ℚ) + 1) * (3 / 2) ∧ ((2 : ℚ) + 1) * (3 / 2) < (INT_MAX : ℚ) + 1) ∧
      shade_idx (2 : ℚ) = some (max 0 (min 3 ⌊((2 : ℚ) + 1) * (3 / 2)⌋)) :=
  ⟨⟨by decide!, by decide!⟩, (shade_idx_eq_clamp (2 : ℚ) (by decide!) (by decide!)).1⟩

/-! ## The compare-and-swap steps on floating values -/

/-- With pairwise distinct finite `y` coordinates, the locals after lines 85-87 do not
depend on the order of the three pairs: five arrangements give the locals of the
sixth. -/
theorem sort_by_y_f_distinct (x1 x2 x3 : FVal) (y1 y2 y3 : ℚ) (z1 z2 z3 : FVal)
    (h12 : y1 ≠ y2) (h13 : y1 ≠ y3) (h23 : y2 ≠ y3) :
    sort_by_y_f ⟨⟨x1, FVal.fin y1⟩, ⟨x3, FVal.fin y3⟩, ⟨x2, FVal.fin y2⟩, z1, z3, z2⟩ =
        sort_by_y_f ⟨⟨x1, FVal.fin y1⟩, ⟨x2, FVal.fin y2⟩, ⟨x3, FVal.fin y3⟩, z1, z2, z3⟩ ∧
      sort_by_y_f ⟨⟨x2, FVal.fin y2⟩, ⟨x1, FVal.fin y1⟩, ⟨x3, FVal.fin y3⟩, z2, z1, z3⟩ =
        sort_by_y_f ⟨⟨x1, FVal.fin y1⟩, ⟨x2, FVal.fin y2⟩, ⟨x3, FVal.fin y3⟩, z1, z2, z3⟩ ∧
      sort_by_y_f ⟨⟨x2, FVal.fin y2⟩, ⟨x3, FVal.fin y3⟩, ⟨x1, FVal.fin y1⟩, z2, z3, z1⟩ =
        sort_by_y_f ⟨⟨x1, FVal.fin y1⟩, ⟨x2, FVal.fin y2⟩, ⟨x3, FVal.fin y3⟩, z1, z2, z3⟩ ∧
      sort_by_y_f ⟨⟨x3, FVal.fin y3⟩, ⟨x1, FVal.fin y1⟩, ⟨x2, FVal.fin y2⟩, z3, z1, z2⟩ =
        sort_by_y_f ⟨⟨x1, FVal.fin y1⟩, ⟨x2, FVal.fin y2⟩, ⟨x3, FVal.fin y3⟩, z1, z2, z3⟩ ∧
      sort_by_y_f ⟨⟨x3, FVal.fin y3⟩, ⟨x2, FVal.fin y2⟩, ⟨x1, FVal.fin y1⟩, z3, z2, z1⟩ =
        sort_by_y_f ⟨⟨x1, FVal.fin y1⟩, ⟨x2, FVal.fin y2⟩, ⟨x3, FVal.fin y3⟩, z1, z2, z3⟩ := by
  rcases lt_or_gt_of_ne h12 with a | a <;> rcases lt_or_gt_of_ne h13 with b | b <;>
    rcases lt_or_gt_of_ne h23 with c | c <;>
    first
    | (exfalso; linarith)
    | simp [sort_by_y_f, swap12_f, swap13_f, swap23_f, flt, a, b, c, not_lt.2 a.le,
        not_lt.2 b.le, not_lt.2 c.le]

/-! ## C17: argument orders with pairwise distinct y coordinates -/

/-- C17, amended. Argument-order independence for pairwise distinct `y` coordinates: for
every buffer state, every shade and every three (point, depth) pairs whose three `y`
coordinates are finite and pairwise distinct, calling `draw_filled_triangle` with the
pairs in any of the 6 possible argument orders produces the same result (the same
resulting zbuffer and buffer, or undefined behaviour in all six orders). Arithmetic is
rounded in any format `F`; the `x` coordinates and the depths are arbitrary floating
values. -/
theorem draw_argument_order (F : Fmt) (s : FBuffers) (shade : wchar_t) (x1 x2 x3 : FVal)
    (y1 y2 y3 : ℚ) (z1 z2 z3 : FVal) (h12 : y1 ≠ y2) (h13 : y1 ≠ y3) (h23 : y2 ≠ y3) :
    draw_filled_triangle_f F s ⟨x1, FVal.fin y1⟩ ⟨x3, FVal.fin y3⟩ ⟨x2, FVal.fin y2⟩ z1 z3 z2 shade =
        draw_filled_triangle_f F s ⟨x1, FVal.fin y1⟩ ⟨x2, FVal.fin y2⟩ ⟨x3, FVal.fin y3⟩
          z1 z2 z3 shade ∧
      draw_filled_triangle_f F s ⟨x2, FVal.fin y2⟩ ⟨x1, FVal.fin y1⟩ ⟨x3, FVal.fin y3⟩ z2 z1 z3 shade =
        draw_filled_triangle_f F s ⟨x1, FVal.fin y1⟩ ⟨x2, FVal.fin y2⟩ ⟨x3, FVal.fin y3⟩
          z1 z2 z3 shade ∧
      draw_filled_triangle_f F s ⟨x2, FVal.fin y2⟩ ⟨x3, FVal.fin y3⟩ ⟨x1, FVal.fin y1⟩ z2 z3 z1 shade =
        draw_filled_triangle_f F s ⟨x1, FVal.fin y1⟩ ⟨x2, FVal.fin y2⟩ ⟨x3, FVal.fin y3⟩
          z1 z2 z3 shade ∧
      draw_filled_triangle_f F s ⟨x3, FVal.fin y3⟩ ⟨x1, FVal.fin y1⟩ ⟨x2, FVal.fin y2⟩ z3 z1 z2 shade =
        draw_filled_triangle_f F s ⟨x1, FVal.fin y1⟩ ⟨x2, FVal.fin y2⟩ ⟨x3, FVal.fin y3⟩
          z1 z2 z3 shade ∧
      draw_filled_triangle_f F s ⟨x3, FVal.fin y3⟩ ⟨x2, FVal.fin y2⟩ ⟨x1, FVal.fin y1⟩ z3 z2 z1 shade =
        draw_filled_triangle_f F s ⟨x1, FVal.fin y1⟩ ⟨x2, FVal.fin y2⟩ ⟨x3, FVal.fin y3⟩
          z1 z2 z3 shade := by
  obtain ⟨e1, e2, e3, e4, e5⟩ := sort_by_y_f_distinct x1 x2 x3 y1 y2 y3 z1 z2 z3 h12 h13 h23
  unfold draw_filled_triangle_f
  rw [e1, e2, e3, e4, e5]
  exact ⟨rfl, rfl, rfl, rfl, rfl⟩

/-- C17 amended, at a concrete input: `float` arithmetic, the pairs `((0,0), 1.1f)`,
`((4,1), 2.3f)`, `((2,2), 0.7f)` with the `y` coordinates `0, 1, 2`; the orders
`(b, a, c)` and `(a, b, c)` give the same result. -/
theorem draw_argument_order_witness :
    ((0 : ℚ) ≠ 1 ∧ (0 : ℚ) ≠ 2 ∧ (1 : ℚ) ≠ 2) ∧
      draw_filled_triangle_f binary32 ⟨fun _ _ => FVal.pinf, fun _ _ => BLANK⟩
          ⟨FVal.fin 4, FVal.fin 1⟩ ⟨FVal.fin 0, FVal.fin 0⟩ ⟨FVal.fin 2, FVal.fin 2⟩
          (FVal.fin (9646899 / 4194304)) (FVal.fin (9227469 / 8388608))
          (FVal.fin (11744051 / 16777216)) 9608 =
        draw_filled_triangle_f binary32 ⟨fun _ _ => FVal.pinf, fun _ _ => BLANK⟩
          ⟨FVal.fin 0, FVal.fin 0⟩ ⟨FVal.fin 4, FVal.fin 1⟩ ⟨FVal.fin 2, FVal.fin 2⟩
          (FVal.fin (9227469 / 8388608)) (FVal.fin (9646899 / 4194304))
          (FVal.fin (11744051 / 16777216)) 9608 :=
  ⟨⟨by norm_num, by norm_num, by norm_num⟩,
    (draw_argument_order binary32 ⟨fun _ _ => FVal.pinf, fun _ _ => BLANK⟩ 9608
      (FVal.fin 0) (FVal.fin 4) (FVal.fin 2) 0 1 2
      (FVal.fin (9227469 / 8388608)) (FVal.fin (9646899 / 4194304))
      (FVal.fin (11744051 / 16777216)) (by norm_num) (by norm_num) (by norm_num)).2.1⟩

/-! ## Rounded operations in a lawful format -/

/-- The function `pow2` is the power of `2` with an integer exponent. -/
theorem pow2_eq (k : ℤ) : pow2 k = (2 : ℚ) ^ k := by
  unfold pow2
  split_ifs with h
  · lift k to ℕ using h
    simp
  · obtain ⟨n, rfl⟩ : ∃ n : ℕ, k = -(n : ℤ) := ⟨(-k).toNat, by omega⟩
    simp [zpow_neg]

theorem pow2_zero : pow2 0 = 1 := by
  simp [pow2]

theorem lawful_mono {F : Fmt} (hF : lawful F) {a b : ℚ} (h : a ≤ b) : F.rnd a ≤ F.rnd b :=
  hF.1 a b h

/-- Integers up to `2 ^ 24` in absolute value are not changed by rounding. -/
theorem lawful_int {F : Fmt} (hF : lawful F) (n : ℤ) (h : |n| ≤ 2 ^ 24) :
    F.rnd (n : ℚ) = (n : ℚ) := by
  have := hF.2.1 n 0 h (by norm_num)
  rwa [pow2_zero, mul_one] at this

theorem lawful_zero {F : Fmt} (hF : lawful F) : F.rnd 0 = 0 := by
  have := lawful_int hF 0 (by norm_num)
  simpa using this

theorem lawful_one {F : Fmt} (hF : lawful F) : F.rnd 1 = 1 := by
  have := lawful_int hF 1 (by norm_num)
  simpa using this

/-- A result whose rounded value is within `2 ^ 100` is finite. -/
theorem pack_fin {F : Fmt} (hF : lawful F) (q : ℚ) (h1 : -(2 : ℚ) ^ 100 ≤ F.rnd q)
    (h2 : F.rnd q ≤ (2 : ℚ) ^ 100) : pack F q = FVal.fin (F.rnd q) := by
  have hmax := hF.2.2
  unfold pack
  rw [if_neg (by linarith), if_neg (by linarith)]

/-- A result between two unchanged numbers within `2 ^ 100` is finite and between
them. -/
theorem pack_between {F : Fmt} (hF : lawful F) (lo hi q : ℚ) (hlo : F.rnd lo = lo)
    (hhi : F.rnd hi = hi) (h1 : lo ≤ q) (h2 : q ≤ hi) (hb1 : -(2 : ℚ) ^ 100 ≤ lo)
    (hb2 : hi ≤ (2 : ℚ) ^ 100) :
    pack F q = FVal.fin (F.rnd q) ∧ lo ≤ F.rnd q ∧ F.rnd q ≤ hi := by
  have a1 : lo ≤ F.rnd q := by
    rw [← hlo]
    exact lawful_mono hF h1
  have a2 : F.rnd q ≤ hi := by
    rw [← hhi]
    exact lawful_mono hF h2
  exact ⟨pack_fin hF q (by linarith) (by linarith), a1, a2⟩

theorem of_int_exact {F : Fmt} (hF : lawful F) (n : ℤ) (h : |n| ≤ 2 ^ 24) :
    of_int F n = FVal.fin (n : ℚ) := by
  have hr := lawful_int hF n h
  have hq : |(n : ℚ)| ≤ 2 ^ 24 := by exact_mod_cast h
  rw [abs_le] at hq
  unfold of_int
  rw [pack_fin hF _ (by rw [hr]; norm_num at hq ⊢; linarith) (by rw [hr]; norm_num at hq ⊢; linarith), hr]

/-- Each of the three points after lines 85-87 is one of the three arguments. -/
theorem sort_by_y_f_points (t : FTri) (P : Point2D FVal → Prop) (h1 : P t.p1) (h2 : P t.p2)
    (h3 : P t.p3) :
    P (sort_by_y_f t).p1 ∧ P (sort_by_y_f t).p2 ∧ P (sort_by_y_f t).p3 := by
  unfold sort_by_y_f swap23_f swap13_f swap12_f
  split_ifs <;> exact ⟨by assumption, by assumption, by assumption⟩

/-- With finite `y` coordinates, the three points are in ascending order of `y` after
lines 85-87. -/
theorem sort_by_y_f_sorted (t : FTri) (y1 y2 y3 : ℚ) (h1 : t.p1.y = FVal.fin y1)
    (h2 : t.p2.y = FVal.fin y2) (h3 : t.p3.y = FVal.fin y3) :
    ∃ a b c : ℚ, (sort_by_y_f t).p1.y = FVal.fin a ∧ (sort_by_y_f t).p2.y = FVal.fin b ∧
      (sort_by_y_f t).p3.y = FVal.fin c ∧ a ≤ b ∧ b ≤ c := by
  obtain ⟨⟨x1, y1'⟩, ⟨x2, y2'⟩, ⟨x3, y3'⟩, z1, z2, z3⟩ := t
  simp only at h1 h2 h3
  subst h1 h2 h3
  unfold sort_by_y_f swap23_f swap13_f swap12_f
  simp only [flt, decide_eq_true_eq]
  split_ifs <;> simp only [flt, decide_eq_true_eq] at * <;>
    refine ⟨_, _, _, rfl, rfl, rfl, ?_, ?_⟩ <;> linarith

/-! ## C4: triangles whose y coordinates are close -/

/-- C4, amended. For every buffer state and every triangle (degenerate or not) with
finite `y` coordinates that are pairwise at most `1 - 2^-24` apart (in particular three
points on one horizontal line, or three identical points), `draw_filled_triangle`
leaves both zbuffer and buffer unchanged at every cell: the rounded difference
`p3.y - p1.y` of line 89 is below `1` and `total_height` is `0`. Arithmetic is rounded
in any lawful format `F`; the `x` coordinates and the depths are arbitrary. -/
theorem draw_flat_unchanged (F : Fmt) (hF : lawful F) (s : FBuffers) (shade : wchar_t)
    (x1 x2 x3 : FVal) (y1 y2 y3 : ℚ) (z1 z2 z3 : FVal)
    (h12 : |y1 - y2| ≤ 1 - 1 / 2 ^ 24) (h13 : |y1 - y3| ≤ 1 - 1 / 2 ^ 24)
    (h23 : |y2 - y3| ≤ 1 - 1 / 2 ^ 24) :
    draw_filled_triangle_f F s ⟨x1, FVal.fin y1⟩ ⟨x2, FVal.fin y2⟩ ⟨x3, FVal.fin y3⟩
      z1 z2 z3 shade = some s := by
  obtain ⟨a, b, c, ha, hb, hc, hab, hbc⟩ :=
    sort_by_y_f_sorted ⟨⟨x1, FVal.fin y1⟩, ⟨x2, FVal.fin y2⟩, ⟨x3, FVal.fin y3⟩, z1, z2, z3⟩
      y1 y2 y3 rfl rfl rfl
  obtain ⟨m1, -, m3⟩ :=
    sort_by_y_f_points ⟨⟨x1, FVal.fin y1⟩, ⟨x2, FVal.fin y2⟩, ⟨x3, FVal.fin y3⟩, z1, z2, z3⟩
      (fun p => p.y = FVal.fin y1 ∨ p.y = FVal.fin y2 ∨ p.y = FVal.fin y3)
      (Or.inl rfl) (Or.inr (Or.inl rfl)) (Or.inr (Or.inr rfl))
  rw [ha] at m1
  rw [hc] at m3
  simp only [FVal.fin.injEq] at m1 m3
  rw [abs_le] at h12 h13 h23
  have hca : c - a ≤ 1 - 1 / 2 ^ 24 := by
    rcases m1 with e | e | e <;> rcases m3 with e3 | e3 | e3 <;> subst e <;> subst e3 <;>
      norm_num at * <;> linarith
  have hca0 : 0 ≤ c + -a := by linarith
  have hexact : F.rnd (1 - 1 / 2 ^ 24) = 1 - 1 / 2 ^ 24 := by
    have := hF.2.1 (2 ^ 24 - 1) (-24) (by norm_num) (by norm_num)
    have e : (((2 ^ 24 - 1 : ℤ)) : ℚ) * pow2 (-24) = 1 - 1 / 2 ^ 24 := by
      rw [pow2_eq]
      norm_num
    rwa [e] at this
  obtain ⟨hp, hr0, hr1⟩ := pack_between hF 0 (1 - 1 / 2 ^ 24) (c + -a) (lawful_zero hF) hexact
    hca0 (by linarith) (by norm_num) (by norm_num)
  unfold draw_filled_triangle_f fill_sorted_f total_height_f
  rw [ha, hc]
  simp only [fsub, fneg, fadd, hp, to_int]
  have ht : toInt (F.rnd (c + -a)) = 0 := toInt_eq_zero (by linarith) (by norm_num at hr1 ⊢; linarith)
  rw [ht]
  simp [INT_MIN, INT_MAX]

/-! ## The IEEE formats are lawful -/

theorem pow2_pos (k : ℤ) : 0 < pow2 k := by
  rw [pow2_eq]
  exact zpow_pos (by norm_num) k

theorem pow2_add (a b : ℤ) : pow2 (a + b) = pow2 a * pow2 b := by
  rw [pow2_eq, pow2_eq, pow2_eq, zpow_add₀ (by norm_num)]

theorem pow2_le {a b : ℤ} (h : a ≤ b) : pow2 a ≤ pow2 b := by
  rw [pow2_eq, pow2_eq]
  exact zpow_le_zpow_right₀ (by norm_num) h

theorem pow2_lt_iff {a b : ℤ} : pow2 a < pow2 b ↔ a < b := by
  rw [pow2_eq, pow2_eq]
  exact zpow_lt_zpow_iff_right₀ (by norm_num)

theorem pow2_natCast (n : ℕ) : pow2 (n : ℤ) = ((2 ^ n : ℕ) : ℚ) := by
  rw [pow2_eq]
  simp

theorem nlog2_aux_spec (f n : ℕ) (hf : n ≤ f) (hn : 1 ≤ n) :
    2 ^ nlog2_aux f n ≤ n ∧ n < 2 ^ (nlog2_aux f n + 1) := by
  induction f generalizing n with
  | zero => omega
  | succ f ih =>
    unfold nlog2_aux
    split_ifs with h2
    · obtain ⟨i1, i2⟩ := ih (n / 2) (by omega) (by omega)
      rw [pow_succ] at i2
      rw [pow_succ, pow_succ, pow_succ]
      constructor <;> omega
    · have : n = 1 := by omega
      subst this
      simp

/-- The leading bit of a positive natural number. -/
theorem nlog2_spec (n : ℕ) (hn : 1 ≤ n) : 2 ^ nlog2 n ≤ n ∧ n < 2 ^ (nlog2 n + 1) :=
  nlog2_aux_spec n n le_rfl hn

/-- The exponent of a non-zero rational. -/
theorem ilog2_spec (q : ℚ) (hq : q ≠ 0) : pow2 (ilog2 q) ≤ |q| ∧ |q| < pow2 (ilog2 q + 1) := by
  have hN : 1 ≤ q.num.natAbs := by
    have : q.num ≠ 0 := Rat.num_ne_zero.2 hq
    omega
  have hD : 1 ≤ q.den := q.den_pos
  obtain ⟨a1, a2⟩ := nlog2_spec _ hN
  obtain ⟨b1, b2⟩ := nlog2_spec _ hD
  have habs : |q| = (q.num.natAbs : ℚ) / (q.den : ℚ) := by
    conv_lhs => rw [← Rat.num_div_den q]
    rw [abs_div, Nat.abs_cast, Nat.cast_natAbs, Int.cast_abs]
  have hDpos : (0 : ℚ) < (q.den : ℚ) := by exact_mod_cast hD
  have a1q : ((2 : ℚ) ^ nlog2 q.num.natAbs) ≤ (q.num.natAbs : ℚ) := by exact_mod_cast a1
  have a2q : (q.num.natAbs : ℚ) < ((2 : ℚ) ^ (nlog2 q.num.natAbs + 1)) := by exact_mod_cast a2
  have b1q : ((2 : ℚ) ^ nlog2 q.den) ≤ (q.den : ℚ) := by exact_mod_cast b1
  have b2q : (q.den : ℚ) < ((2 : ℚ) ^ (nlog2 q.den + 1)) := by exact_mod_cast b2
  have hA : (0 : ℚ) < (2 : ℚ) ^ nlog2 q.num.natAbs := by positivity
  have hB : (0 : ℚ) < (2 : ℚ) ^ nlog2 q.den := by positivity
  have e1 : pow2 ((nlog2 q.num.natAbs : ℤ) - (nlog2 q.den : ℤ) + 1) =
      (2 : ℚ) ^ (nlog2 q.num.natAbs + 1) / (2 : ℚ) ^ nlog2 q.den := by
    rw [pow2_eq, zpow_add₀ (by norm_num), zpow_sub₀ (by norm_num), zpow_natCast, zpow_natCast,
      pow_succ]
    simp
    ring
  have e2 : pow2 ((nlog2 q.num.natAbs : ℤ) - (nlog2 q.den : ℤ) - 1) =
      (2 : ℚ) ^ nlog2 q.num.natAbs / (2 : ℚ) ^ (nlog2 q.den + 1) := by
    rw [pow2_eq, zpow_sub₀ (by norm_num), zpow_sub₀ (by norm_num), zpow_natCast, zpow_natCast,
      pow_succ]
    simp
    field_simp
  unfold ilog2
  split_ifs with h
  · refine ⟨h, ?_⟩
    rw [e1, habs, div_lt_div_iff₀ hDpos hB]
    calc (q.num.natAbs : ℚ) * 2 ^ nlog2 q.den
        ≤ (q.num.natAbs : ℚ) * (q.den : ℚ) := by
          apply mul_le_mul_of_nonneg_left b1q (by positivity)
      _ < 2 ^ (nlog2 q.num.natAbs + 1) * (q.den : ℚ) := by
          apply mul_lt_mul_of_pos_right a2q hDpos
  · push_neg at h
    refine ⟨?_, ?_⟩
    · rw [e2, habs, div_le_div_iff₀ (by positivity) hDpos]
      calc (2 : ℚ) ^ nlog2 q.num.natAbs * (q.den : ℚ)
          ≤ (q.num.natAbs : ℚ) * (q.den : ℚ) := by
            apply mul_le_mul_of_nonneg_right a1q hDpos.le
        _ ≤ (q.num.natAbs : ℚ) * 2 ^ (nlog2 q.den + 1) := by
            apply mul_le_mul_of_nonneg_left b2q.le (by positivity)
    · have : (nlog2 q.num.natAbs : ℤ) - (nlog2 q.den : ℤ) - 1 + 1 =
          (nlog2 q.num.natAbs : ℤ) - (nlog2 q.den : ℤ) := by ring
      rw [this]
      exact h

/-- The exponent is determined by the binade. -/
theorem ilog2_unique (q : ℚ) (e : ℤ) (h1 : pow2 e ≤ |q|) (h2 : |q| < pow2 (e + 1)) :
    ilog2 q = e := by
  have hq : q ≠ 0 := by
    intro h0
    rw [h0, abs_zero] at h1
    exact absurd h1 (not_le.2 (pow2_pos e))
  obtain ⟨s1, s2⟩ := ilog2_spec q hq
  have c1 : ilog2 q < e + 1 := pow2_lt_iff.1 (lt_of_le_of_lt s1 h2)
  have c2 : e < ilog2 q + 1 := pow2_lt_iff.1 (lt_of_le_of_lt h1 s2)
  omega

theorem ilog2_mono (a b : ℚ) (ha : a ≠ 0) (hab : |a| ≤ |b|) : ilog2 a ≤ ilog2 b := by
  have hb : b ≠ 0 := by
    intro h0
    rw [h0, abs_zero] at hab
    exact ha (abs_nonpos_iff.1 hab)
  obtain ⟨s1, -⟩ := ilog2_spec a ha
  obtain ⟨-, t2⟩ := ilog2_spec b hb
  have c1 : ilog2 a < ilog2 b + 1 := pow2_lt_iff.1 (lt_of_le_of_lt (le_trans s1 hab) t2)
  omega

theorem round_even_bounds (x : ℚ) : ⌊x⌋ ≤ round_even x ∧ round_even x ≤ ⌊x⌋ + 1 := by
  unfold round_even
  split_ifs <;> constructor <;> omega

/-- Integers are left unchanged by `round_even`. -/
theorem round_even_int (n : ℤ) : round_even (n : ℚ) = n := by
  unfold round_even
  simp

/-- The function `round_even` is monotone. -/
theorem round_even_mono {x y : ℚ} (h : x ≤ y) : round_even x ≤ round_even y := by
  have hfl : ⌊x⌋ ≤ ⌊y⌋ := Int.floor_le_floor h
  rcases lt_or_eq_of_le hfl with hlt | heq
  · have := (round_even_bounds x).2
    have := (round_even_bounds y).1
    omega
  · unfold round_even
    rw [← heq]
    have hxy : x - (⌊x⌋ : ℚ) ≤ y - (⌊x⌋ : ℚ) := by linarith
    split_ifs <;> first | omega | (exfalso; linarith)

theorem ulp_pos (prec : ℕ) (emin : ℤ) (q : ℚ) : 0 < ulp prec emin q := pow2_pos _

/-- A multiple of the unit in the last place below `q` is below the rounded value. -/
theorem rne_ge_of_ge (prec : ℕ) (emin : ℤ) (q : ℚ) (hq : q ≠ 0) (n : ℤ)
    (h : (n : ℚ) * ulp prec emin q ≤ q) : (n : ℚ) * ulp prec emin q ≤ rne prec emin q := by
  have hu := ulp_pos prec emin q
  unfold rne
  rw [if_neg hq]
  apply mul_le_mul_of_nonneg_right _ hu.le
  have h1 : (n : ℚ) ≤ q / ulp prec emin q := (le_div_iff₀ hu).2 h
  have := round_even_mono h1
  rw [round_even_int] at this
  exact_mod_cast this

/-- A multiple of the unit in the last place above `q` is above the rounded value. -/
theorem rne_le_of_le (prec : ℕ) (emin : ℤ) (q : ℚ) (hq : q ≠ 0) (n : ℤ)
    (h : q ≤ (n : ℚ) * ulp prec emin q) : rne prec emin q ≤ (n : ℚ) * ulp prec emin q := by
  have hu := ulp_pos prec emin q
  unfold rne
  rw [if_neg hq]
  apply mul_le_mul_of_nonneg_right _ hu.le
  have h1 : q / ulp prec emin q ≤ (n : ℚ) := (div_le_iff₀ hu).2 h
  have := round_even_mono h1
  rw [round_even_int] at this
  exact_mod_cast this

theorem ulp_top (prec : ℕ) (emin : ℤ) (q : ℚ) :
    (((2 : ℤ) ^ prec : ℤ) : ℚ) * ulp prec emin q = pow2 (max (ilog2 q) emin + 1) := by
  unfold ulp
  have e : max (ilog2 q) emin + 1 = (prec : ℤ) + (max (ilog2 q) emin - ((prec : ℤ) - 1)) := by ring
  rw [e, pow2_add, pow2_natCast]
  push_cast
  ring

theorem ulp_bottom (prec : ℕ) (hp : 1 ≤ prec) (emin : ℤ) (q : ℚ) :
    (((2 : ℤ) ^ (prec - 1) : ℤ) : ℚ) * ulp prec emin q = pow2 (max (ilog2 q) emin) := by
  unfold ulp
  have e : max (ilog2 q) emin =
      ((prec - 1 : ℕ) : ℤ) + (max (ilog2 q) emin - ((prec : ℤ) - 1)) := by
    have : ((prec - 1 : ℕ) : ℤ) = (prec : ℤ) - 1 := by omega
    rw [this]
    ring
  nth_rewrite 2 [e]
  rw [pow2_add, pow2_natCast]
  push_cast
  ring

theorem abs_lt_top (emin : ℤ) (q : ℚ) (hq : q ≠ 0) : |q| < pow2 (max (ilog2 q) emin + 1) :=
  lt_of_lt_of_le (ilog2_spec q hq).2 (pow2_le (by have := le_max_left (ilog2 q) emin; omega))

theorem rne_zero (prec : ℕ) (emin : ℤ) : rne prec emin 0 = 0 := by
  simp [rne]

theorem rne_nonneg (prec : ℕ) (emin : ℤ) (q : ℚ) (h : 0 ≤ q) : 0 ≤ rne prec emin q := by
  by_cases hq : q = 0
  · rw [hq, rne_zero]
  · have := rne_ge_of_ge prec emin q hq 0 (by simpa using h)
    simpa using this

theorem rne_nonpos (prec : ℕ) (emin : ℤ) (q : ℚ) (h : q ≤ 0) : rne prec emin q ≤ 0 := by
  by_cases hq : q = 0
  · rw [hq, rne_zero]
  · have := rne_le_of_le prec emin q hq 0 (by simpa using h)
    simpa using this

/-- Rounding to nearest is monotone. -/
theorem rne_mono (prec : ℕ) (hp : 1 ≤ prec) (emin : ℤ) (a b : ℚ) (h : a ≤ b) :
    rne prec emin a ≤ rne prec emin b := by
  rcases le_or_lt a 0 with ha | ha
  · rcases le_or_lt 0 b with hb | hb
    · exact le_trans (rne_nonpos prec emin a ha) (rne_nonneg prec emin b hb)
    · -- both negative
      have ha0 : a ≠ 0 := by intro h0; rw [h0] at h; linarith
      have hb0 : b ≠ 0 := hb.ne
      have habs : |b| ≤ |a| := by
        rw [abs_of_neg hb, abs_of_neg (lt_of_le_of_lt h hb)]
        linarith
      have hlog := ilog2_mono b a hb0 habs
      have hE : max (ilog2 b) emin ≤ max (ilog2 a) emin := max_le_max hlog le_rfl
      rcases lt_or_eq_of_le hE with hlt | heq
      · have hae : max (ilog2 a) emin = ilog2 a := by
          rcases le_total (ilog2 a) emin with c | c
          · rw [max_eq_right c] at hlt
            have := le_max_right (ilog2 b) emin
            omega
          · exact max_eq_left c
        have h1 : rne prec emin a ≤ -pow2 (max (ilog2 a) emin) := by
          have := rne_le_of_le prec emin a ha0 (-(2 : ℤ) ^ (prec - 1)) (by
            push_cast
            rw [neg_mul]
            have e := ulp_bottom prec hp emin a
            push_cast at e
            rw [e, hae]
            have := (ilog2_spec a ha0).1
            rw [abs_of_neg (lt_of_le_of_lt h hb)] at this
            linarith)
          push_cast at this
          rw [neg_mul] at this
          have e := ulp_bottom prec hp emin a
          push_cast at e
          rwa [e] at this
        have h2 : -pow2 (max (ilog2 b) emin + 1) ≤ rne prec emin b := by
          have := rne_ge_of_ge prec emin b hb0 (-(2 : ℤ) ^ prec) (by
            push_cast
            rw [neg_mul]
            have e := ulp_top prec emin b
            push_cast at e
            rw [e]
            have := abs_lt_top emin b hb0
            rw [abs_of_neg hb] at this
            linarith)
          push_cast at this
          rw [neg_mul] at this
          have e := ulp_top prec emin b
          push_cast at e
          rwa [e] at this
        have h3 : pow2 (max (ilog2 b) emin + 1) ≤ pow2 (max (ilog2 a) emin) := pow2_le (by omega)
        linarith
      · have hu : ulp prec emin a = ulp prec emin b := by
          unfold ulp
          rw [heq]
        unfold rne
        rw [if_neg ha0, if_neg hb0, hu]
        apply mul_le_mul_of_nonneg_right _ (ulp_pos prec emin b).le
        have : round_even (a / ulp prec emin b) ≤ round_even (b / ulp prec emin b) :=
          round_even_mono (div_le_div_of_nonneg_right h (ulp_pos prec emin b).le)
        exact_mod_cast this
  · -- both positive
    have hb : 0 < b := lt_of_lt_of_le ha h
    have ha0 : a ≠ 0 := ha.ne'
    have hb0 : b ≠ 0 := hb.ne'
    have habs : |a| ≤ |b| := by
      rw [abs_of_pos ha, abs_of_pos hb]
      exact h
    have hlog := ilog2_mono a b ha0 habs
    have hE : max (ilog2 a) emin ≤ max (ilog2 b) emin := max_le_max hlog le_rfl
    rcases lt_or_eq_of_le hE with hlt | heq
    · have hbe : max (ilog2 b) emin = ilog2 b := by
        rcases le_total (ilog2 b) emin with c | c
        · rw [max_eq_right c] at hlt
          have := le_max_right (ilog2 a) emin
          omega
        · exact max_eq_left c
      have h1 : pow2 (max (ilog2 b) emin) ≤ rne prec emin b := by
        have := rne_ge_of_ge prec emin b hb0 ((2 : ℤ) ^ (prec - 1)) (by
          have e := ulp_bottom prec hp emin b
          rw [e, hbe]
          have := (ilog2_spec b hb0).1
          rw [abs_of_pos hb] at this
          exact this)
        have e := ulp_bottom prec hp emin b
        rwa [e] at this
      have h2 : rne prec emin a ≤ pow2 (max (ilog2 a) emin + 1) := by
        have := rne_le_of_le prec emin a ha0 ((2 : ℤ) ^ prec) (by
          have e := ulp_top prec emin a
          rw [e]
          have := abs_lt_top emin a ha0
          rw [abs_of_pos ha] at this
          exact this.le)
        have e := ulp_top prec emin a
        rwa [e] at this
      have h3 : pow2 (max (ilog2 a) emin + 1) ≤ pow2 (max (ilog2 b) emin) := pow2_le (by omega)
      linarith
    · have hu : ulp prec emin a = ulp prec emin b := by
        unfold ulp
        rw [heq]
      unfold rne
      rw [if_neg ha0, if_neg hb0, hu]
      apply mul_le_mul_of_nonneg_right _ (ulp_pos prec emin b).le
      have : round_even (a / ulp prec emin b) ≤ round_even (b / ulp prec emin b) :=
        round_even_mono (div_le_div_of_nonneg_right h (ulp_pos prec emin b).le)
      exact_mod_cast this

/-- Numbers `m * 2 ^ k` with fewer than `prec` bits above the least exponent are not
changed by rounding. -/
theorem rne_exact (prec : ℕ) (emin : ℤ) (m k : ℤ) (hm : |m| < 2 ^ prec)
    (hk : emin - ((prec : ℤ) - 1) ≤ k) :
    rne prec emin ((m : ℚ) * pow2 k) = (m : ℚ) * pow2 k := by
  by_cases hq : (m : ℚ) * pow2 k = 0
  · rw [hq, rne_zero]
  · have hlog : ilog2 ((m : ℚ) * pow2 k) < (prec : ℤ) + k := by
      have s1 := (ilog2_spec _ hq).1
      have : |(m : ℚ) * pow2 k| < pow2 ((prec : ℤ) + k) := by
        rw [abs_mul, abs_of_pos (pow2_pos k), pow2_add, pow2_natCast]
        apply mul_lt_mul_of_pos_right _ (pow2_pos k)
        have : ((|m| : ℤ) : ℚ) < (((2 : ℤ) ^ prec : ℤ) : ℚ) := by exact_mod_cast hm
        push_cast at this
        push_cast
        exact this
      exact pow2_lt_iff.1 (lt_of_le_of_lt s1 this)
    have hE : max (ilog2 ((m : ℚ) * pow2 k)) emin - ((prec : ℤ) - 1) ≤ k := by
      rcases le_total (ilog2 ((m : ℚ) * pow2 k)) emin with c | c
      · rw [max_eq_right c]
        exact hk
      · rw [max_eq_left c]
        omega
    obtain ⟨j, hj⟩ : ∃ j : ℕ,
        k = (j : ℤ) + (max (ilog2 ((m : ℚ) * pow2 k)) emin - ((prec : ℤ) - 1)) :=
      ⟨(k - (max (ilog2 ((m : ℚ) * pow2 k)) emin - ((prec : ℤ) - 1))).toNat, by omega⟩
    have hu : (m : ℚ) * pow2 k =
        (((m * 2 ^ j : ℤ)) : ℚ) * ulp prec emin ((m : ℚ) * pow2 k) := by
      unfold ulp
      nth_rewrite 1 [hj]
      rw [pow2_add, pow2_natCast]
      push_cast
      ring
    have hdiv : (m : ℚ) * pow2 k / ulp prec emin ((m : ℚ) * pow2 k) = (((m * 2 ^ j : ℤ)) : ℚ) := by
      rw [div_eq_iff (ulp_pos _ _ _).ne']
      exact hu
    unfold rne
    rw [if_neg hq, hdiv, round_even_int]
    exact hu.symm

/-- The format of `float` is lawful. -/
theorem binary32_lawful : lawful binary32 := by
  refine ⟨fun a b h => rne_mono 24 (by norm_num) (-126) a b h, ?_, ?_⟩
  · intro m k hm hk
    show rne 24 (-126) ((m : ℚ) * pow2 k) = (m : ℚ) * pow2 k
    rcases lt_or_eq_of_le hm with hlt | heq
    · exact rne_exact 24 (-126) m k hlt (by push_cast; omega)
    · obtain ⟨m2, hm2, hm2b⟩ : ∃ m2 : ℤ, m = m2 * 2 ∧ |m2| < 2 ^ 24 := by
        rcases abs_choice m with e | e
        · exact ⟨2 ^ 23, by rw [← e, heq]; norm_num, by norm_num⟩
        · refine ⟨-2 ^ 23, ?_, by norm_num⟩
          have : m = -|m| := by rw [e]; ring
          rw [this, heq]
          norm_num
      have e : (m : ℚ) * pow2 k = (m2 : ℚ) * pow2 (k + 1) := by
        rw [hm2, add_comm k 1, pow2_add]
        have : pow2 1 = 2 := by rw [pow2_eq]; norm_num
        rw [this]
        push_cast
        ring
      rw [e]
      exact rne_exact 24 (-126) m2 (k + 1) hm2b (by push_cast; omega)
  · show (2 : ℚ) ^ 100 ≤ ((2 ^ 24 - 1 : ℕ) : ℚ) * pow2 (127 - ((24 : ℕ) - 1))
    rw [pow2_eq]
    norm_num

/-- The format of `double` is lawful. -/
theorem binary64_lawful : lawful binary64 := by
  refine ⟨fun a b h => rne_mono 53 (by norm_num) (-1022) a b h, ?_, ?_⟩
  · intro m k hm hk
    show rne 53 (-1022) ((m : ℚ) * pow2 k) = (m : ℚ) * pow2 k
    exact rne_exact 53 (-1022) m k (lt_of_le_of_lt hm (by norm_num)) (by push_cast; omega)
  · show (2 : ℚ) ^ 100 ≤ ((2 ^ 53 - 1 : ℕ) : ℚ) * pow2 (1023 - ((53 : ℕ) - 1))
    rw [pow2_eq]
    norm_num

/-! ## C4 in `float` arithmetic -/

/-- C4 amended, at a concrete input: `float` arithmetic, the triangle `(3, 2)`,
`(7, 2.5)`, `(5, 2.25)`, which is not degenerate, on cleared buffers. -/
theorem draw_flat_unchanged_witness :
    (|(2 : ℚ) - 5 / 2| ≤ 1 - 1 / 2 ^ 24 ∧ |(2 : ℚ) - 9 / 4| ≤ 1 - 1 / 2 ^ 24 ∧
        |(5 / 2 : ℚ) - 9 / 4| ≤ 1 - 1 / 2 ^ 24) ∧
      draw_filled_triangle_f binary32 ⟨fun _ _ => FVal.pinf, fun _ _ => BLANK⟩
          ⟨FVal.fin 3, FVal.fin 2⟩ ⟨FVal.fin 7, FVal.fin (5 / 2)⟩ ⟨FVal.fin 5, FVal.fin (9 / 4)⟩
          (FVal.fin 1) (FVal.fin 2) (FVal.fin 3) 9608 =
        some ⟨fun _ _ => FVal.pinf, fun _ _ => BLANK⟩ :=
  ⟨⟨by norm_num [abs_le], by norm_num [abs_le], by norm_num [abs_le]⟩,
    draw_flat_unchanged binary32 binary32_lawful ⟨fun _ _ => FVal.pinf, fun _ _ => BLANK⟩ 9608
      (FVal.fin 3) (FVal.fin 7) (FVal.fin 5) 2 (5 / 2) (9 / 4) (FVal.fin 1) (FVal.fin 2)
      (FVal.fin 3) (by norm_num [abs_le]) (by norm_num [abs_le]) (by norm_num [abs_le])⟩

/-! ## Integer coordinates in rounded arithmetic -/

theorem fsub_fin (F : Fmt) (a b : ℚ) : fsub F (FVal.fin a) (FVal.fin b) = pack F (a - b) := by
  simp [fsub, fneg, fadd, sub_eq_add_neg]

/-- The difference of two integers is exact when it is at most `2 ^ 24`. -/
theorem fsub_int {F : Fmt} (hF : lawful F) (a b : ℤ) (h : |a - b| ≤ 2 ^ 24) :
    fsub F (FVal.fin (a : ℚ)) (FVal.fin (b : ℚ)) = FVal.fin (((a - b : ℤ)) : ℚ) := by
  rw [fsub_fin]
  have := of_int_exact hF (a - b) h
  unfold of_int at this
  rw [← this]
  push_cast
  rfl

/-- A quotient `n / d` of integers with `0 <= n <= d` rounds into `[0, 1]`. -/
theorem fdiv_unit {F : Fmt} (hF : lawful F) (n d : ℤ) (h0 : 0 ≤ n) (h1 : n ≤ d) (hd : 0 < d) :
    ∃ r : ℚ, fdiv F (FVal.fin (n : ℚ)) (FVal.fin (d : ℚ)) = FVal.fin r ∧ 0 ≤ r ∧ r ≤ 1 := by
  have hdq : (0 : ℚ) < (d : ℚ) := by exact_mod_cast hd
  have h0q : (0 : ℚ) ≤ (n : ℚ) := by exact_mod_cast h0
  have h1q : (n : ℚ) ≤ (d : ℚ) := by exact_mod_cast h1
  obtain ⟨hp, a1, a2⟩ := pack_between hF 0 1 ((n : ℚ) / (d : ℚ)) (lawful_zero hF) (lawful_one hF)
    (div_nonneg h0q hdq.le) ((div_le_one hdq).2 h1q) (by norm_num) (by norm_num)
  refine ⟨F.rnd ((n : ℚ) / (d : ℚ)), ?_, a1, a2⟩
  simp only [fdiv]
  rw [if_neg hdq.ne', hp]

/-- The expression `a + (b - a) * t` for integers `a`, `b` between `lo` and `hi`, at most
`2 ^ 23` in absolute value, and `t` in `[0, 1]`: the rounded value is finite and
between `lo` and `hi`. -/
theorem lerp_f_between {F : Fmt} (hF : lawful F) (a b lo hi : ℤ) (r : ℚ) (h0 : 0 ≤ r)
    (h1 : r ≤ 1) (hlo : -2 ^ 23 ≤ lo) (hhi : hi ≤ 2 ^ 23) (ha1 : lo ≤ a) (ha2 : a ≤ hi)
    (hb1 : lo ≤ b) (hb2 : b ≤ hi) :
    ∃ v : ℚ, lerp_f F (FVal.fin (a : ℚ)) (FVal.fin (b : ℚ)) (FVal.fin r) = FVal.fin v ∧
      (lo : ℚ) ≤ v ∧ v ≤ (hi : ℚ) := by
  have hsub := fsub_int hF b a (by rw [abs_le]; constructor <;> omega)
  have hd0 : F.rnd (((min 0 (b - a) : ℤ)) : ℚ) = (((min 0 (b - a) : ℤ)) : ℚ) :=
    lawful_int hF _ (by rw [abs_le]; constructor <;> omega)
  have hd1 : F.rnd (((max 0 (b - a) : ℤ)) : ℚ) = (((max 0 (b - a) : ℤ)) : ℚ) :=
    lawful_int hF _ (by rw [abs_le]; constructor <;> omega)
  have hlq : (-(2 : ℚ) ^ 23) ≤ (lo : ℚ) := by exact_mod_cast hlo
  have hhq : (hi : ℚ) ≤ (2 : ℚ) ^ 23 := by exact_mod_cast hhi
  have ha1q : (lo : ℚ) ≤ (a : ℚ) := by exact_mod_cast ha1
  have ha2q : (a : ℚ) ≤ (hi : ℚ) := by exact_mod_cast ha2
  have hb1q : (lo : ℚ) ≤ (b : ℚ) := by exact_mod_cast hb1
  have hb2q : (b : ℚ) ≤ (hi : ℚ) := by exact_mod_cast hb2
  have hmul : (((min 0 (b - a) : ℤ)) : ℚ) ≤ (((b - a : ℤ)) : ℚ) * r ∧
      (((b - a : ℤ)) : ℚ) * r ≤ (((max 0 (b - a) : ℤ)) : ℚ) := by
    push_cast
    rcases le_total 0 ((b : ℚ) - (a : ℚ)) with c | c
    · rw [min_eq_left c, max_eq_right c]
      constructor
      · exact mul_nonneg c h0
      · nlinarith
    · rw [min_eq_right c, max_eq_left c]
      constructor <;> nlinarith
  obtain ⟨hp, m1, m2⟩ := pack_between hF _ _ ((((b - a : ℤ)) : ℚ) * r) hd0 hd1 hmul.1 hmul.2
    (by
      have : (-(2 : ℤ) ^ 24) ≤ min 0 (b - a) := by
        apply le_min <;> omega
      have : ((-(2 : ℤ) ^ 24 : ℤ) : ℚ) ≤ ((min 0 (b - a) : ℤ) : ℚ) := by exact_mod_cast this
      push_cast at this ⊢
      linarith)
    (by
      have : max 0 (b - a) ≤ (2 : ℤ) ^ 24 := by
        apply max_le <;> omega
      have : ((max 0 (b - a) : ℤ) : ℚ) ≤ (((2 : ℤ) ^ 24 : ℤ) : ℚ) := by exact_mod_cast this
      push_cast at this ⊢
      linarith)
  have m1q : (lo : ℚ) ≤ (a : ℚ) + F.rnd ((((b - a : ℤ)) : ℚ) * r) := by
    push_cast at m1
    rcases le_total 0 ((b : ℚ) - (a : ℚ)) with c | c
    · rw [min_eq_left c] at m1
      push_cast
      linarith
    · rw [min_eq_right c] at m1
      push_cast
      linarith
  have m2q : (a : ℚ) + F.rnd ((((b - a : ℤ)) : ℚ) * r) ≤ (hi : ℚ) := by
    push_cast at m2
    rcases le_total 0 ((b : ℚ) - (a : ℚ)) with c | c
    · rw [max_eq_right c] at m2
      push_cast
      linarith
    · rw [max_eq_left c] at m2
      push_cast
      linarith
  have hlo2 : F.rnd (lo : ℚ) = (lo : ℚ) := lawful_int hF lo (by rw [abs_le]; constructor <;> omega)
  have hhi2 : F.rnd (hi : ℚ) = (hi : ℚ) := lawful_int hF hi (by rw [abs_le]; constructor <;> omega)
  obtain ⟨hp2, v1, v2⟩ := pack_between hF (lo : ℚ) (hi : ℚ) _ hlo2 hhi2 m1q m2q
    (by linarith) (by linarith)
  refine ⟨_, ?_, v1, v2⟩
  unfold lerp_f
  rw [hsub]
  simp only [fmul, fadd]
  rw [hp]
  simp only [fadd]
  rw [hp2]

/-- The conversion to `int` of a finite value between two integers within `2 ^ 23`. -/
theorem to_int_between (q : ℚ) (lo hi : ℤ) (hlo : -2 ^ 23 ≤ lo) (hhi : hi ≤ 2 ^ 23)
    (h1 : (lo : ℚ) ≤ q) (h2 : q ≤ (hi : ℚ)) :
    to_int (FVal.fin q) = some (toInt q) ∧ lo ≤ toInt q ∧ toInt q ≤ hi := by
  have a1 : lo ≤ toInt q := le_toInt lo q h1
  have a2 : toInt q ≤ hi := by
    unfold toInt
    split_ifs with h0
    · exact Int.cast_le.1 (le_trans (Int.floor_le q) h2)
    · exact Int.ceil_le.2 h2
  refine ⟨?_, a1, a2⟩
  simp only [to_int]
  rw [if_pos]
  simp only [INT_MIN, INT_MAX]
  constructor <;> omega

theorem fle_fin (a b : ℚ) : fle (FVal.fin a) (FVal.fin b) = true ↔ a ≤ b := by
  simp only [fle, flt, feq, Bool.or_eq_true, decide_eq_true_eq]
  exact le_iff_lt_or_eq.symm

/-- The `x` loop of a span that ends at or before the integer `xhi`, started at or after
`xlo`: it terminates without overflow and changes only cells of the row `y` in the
columns `xlo .. xhi`. -/
theorem xloop_f_frame {F : Fmt} (hF : lawful F) (sp : FSpan) (b : ℚ)
    (hB : sp.B.x = FVal.fin b) (xlo xhi : ℤ) (hlo : -2 ^ 23 ≤ xlo) (hhi : xhi ≤ 2 ^ 23)
    (hb : b ≤ (xhi : ℚ)) (y : ℤ) (shade : wchar_t) (n : ℕ) (x : ℤ) (hx1 : xlo ≤ x)
    (hx2 : x ≤ xhi + 1) (hn : xhi + 2 - x ≤ (n : ℤ)) (s : FBuffers) :
    ∃ s1 : FBuffers, xloop_f F sp y shade n x s = some s1 ∧
      ∀ (cy : Fin HEIGHT) (cx : Fin WIDTH),
        ¬ (y = (cy : ℤ) ∧ xlo ≤ (cx : ℤ) ∧ (cx : ℤ) ≤ xhi) →
        s1.zbuffer cy cx = s.zbuffer cy cx ∧ s1.buffer cy cx = s.buffer cy cx := by
  induction n generalizing x s with
  | zero =>
    exfalso
    have : (((0 : ℕ) : ℤ)) = 0 := rfl
    omega
  | succ n ih =>
    have hofx : of_int F x = FVal.fin (x : ℚ) :=
      of_int_exact hF x (by rw [abs_le]; constructor <;> omega)
    simp only [xloop_f]
    rw [hB, hofx]
    by_cases hc : fle (FVal.fin (x : ℚ)) (FVal.fin b) = true
    · rw [if_pos hc]
      have hxb : (x : ℚ) ≤ (xhi : ℚ) := le_trans ((fle_fin _ _).1 hc) hb
      have hxhi : x ≤ xhi := by exact_mod_cast hxb
      have hmax : x ≠ INT_MAX := by
        simp only [INT_MAX]
        omega
      rw [if_neg hmax]
      obtain ⟨s1, hs1, hfr⟩ := ih (x + 1) (by omega) (by omega) (by push_cast at hn; omega)
        (plot_f s x y (pixel_depth_f F sp x) shade)
      refine ⟨s1, hs1, ?_⟩
      intro cy cx hout
      obtain ⟨f1, f2⟩ := hfr cy cx hout
      rw [f1, f2, plot_f_zbuffer, plot_f_buffer]
      have hne : ¬ ((x = (cx : ℤ) ∧ y = (cy : ℤ)) ∧
          flt (pixel_depth_f F sp x) (s.zbuffer cy cx) = true) := by
        rintro ⟨⟨e1, e2⟩, -⟩
        apply hout
        refine ⟨e2, ?_, ?_⟩ <;> omega
      rw [if_neg hne, if_neg hne]
      exact ⟨rfl, rfl⟩
    · rw [if_neg hc]
      exact ⟨s, rfl, fun _ _ _ => ⟨rfl, rfl⟩⟩

theorem to_int_intCast (n : ℤ) (h1 : -2 ^ 31 ≤ n) (h2 : n < 2 ^ 31) :
    to_int (FVal.fin (n : ℚ)) = some n := by
  simp only [to_int, toInt_intCast, INT_MIN, INT_MAX]
  rw [if_pos]
  constructor <;> omega

/-- Both ends of the oriented span of a scanline lie between the least and the greatest
`x` coordinate, when `alpha` and `beta` are in `[0, 1]`. -/
theorem edges_f_x {F : Fmt} (hF : lawful F) (t : FTri) (X1 X2 X3 : ℤ)
    (hx1 : t.p1.x = FVal.fin (X1 : ℚ)) (hx2 : t.p2.x = FVal.fin (X2 : ℚ))
    (hx3 : t.p3.x = FVal.fin (X3 : ℚ)) (xlo xhi : ℤ) (hlo : -2 ^ 23 ≤ xlo) (hhi : xhi ≤ 2 ^ 23)
    (b1 : xlo ≤ X1 ∧ X1 ≤ xhi) (b2 : xlo ≤ X2 ∧ X2 ≤ xhi) (b3 : xlo ≤ X3 ∧ X3 ≤ xhi)
    (y : ℤ) (ra rb : ℚ) (ha : 0 ≤ ra ∧ ra ≤ 1) (hb : 0 ≤ rb ∧ rb ≤ 1) :
    ∃ a b : ℚ,
      (orient_f (edges_f F t y (FVal.fin ra) (FVal.fin rb))).A.x = FVal.fin a ∧
      (orient_f (edges_f F t y (FVal.fin ra) (FVal.fin rb))).B.x = FVal.fin b ∧
      ((xlo : ℚ) ≤ a ∧ a ≤ (xhi : ℚ)) ∧ ((xlo : ℚ) ≤ b ∧ b ≤ (xhi : ℚ)) := by
  obtain ⟨v13, e13, l13, u13⟩ := lerp_f_between hF X1 X3 xlo xhi ra ha.1 ha.2 hlo hhi
    b1.1 b1.2 b3.1 b3.2
  obtain ⟨v23, e23, l23, u23⟩ := lerp_f_between hF X2 X3 xlo xhi rb hb.1 hb.2 hlo hhi
    b2.1 b2.2 b3.1 b3.2
  obtain ⟨v12, e12, l12, u12⟩ := lerp_f_between hF X1 X2 xlo xhi rb hb.1 hb.2 hlo hhi
    b1.1 b1.2 b2.1 b2.2
  unfold orient_f edges_f
  simp only [hx1, hx2, hx3, e13, e23, e12]
  cases second_half_f F t y <;> simp only [Bool.false_eq_true, if_false, if_true] <;>
    split_ifs <;> exact ⟨_, _, rfl, rfl, ⟨by assumption, by assumption⟩,
      ⟨by assumption, by assumption⟩⟩

/-- With integer `y` coordinates, `alpha` is in `[0, 1]` on every scanline of the loop. -/
theorem alpha_f_unit {F : Fmt} (hF : lawful F) (t : FTri) (Y1 Y3 : ℤ)
    (hy1 : t.p1.y = FVal.fin (Y1 : ℚ)) (hlo : -2 ^ 23 ≤ Y1) (hhi : Y3 ≤ 2 ^ 23)
    (hth : Y1 < Y3) (y : ℤ) (h1 : Y1 ≤ y) (h3 : y ≤ Y3) :
    ∃ r : ℚ, alpha_f F t (Y3 - Y1) y = FVal.fin r ∧ 0 ≤ r ∧ r ≤ 1 := by
  unfold alpha_f
  rw [hy1, of_int_exact hF y (by rw [abs_le]; constructor <;> omega),
    of_int_exact hF (Y3 - Y1) (by rw [abs_le]; constructor <;> omega),
    fsub_int hF y Y1 (by rw [abs_le]; constructor <;> omega)]
  exact fdiv_unit hF (y - Y1) (Y3 - Y1) (by omega) (by omega) (by omega)

/-- With integer `y` coordinates in ascending order, `segment_height` is the height of
the half the scanline is in, and `beta` is in `[0, 1]` unless that height is `0`. -/
theorem beta_f_unit {F : Fmt} (hF : lawful F) (t : FTri) (Y1 Y2 Y3 : ℤ)
    (hy1 : t.p1.y = FVal.fin (Y1 : ℚ)) (hy2 : t.p2.y = FVal.fin (Y2 : ℚ))
    (hy3 : t.p3.y = FVal.fin (Y3 : ℚ)) (hlo : -2 ^ 23 ≤ Y1) (hhi : Y3 ≤ 2 ^ 23)
    (h12 : Y1 ≤ Y2) (h23 : Y2 ≤ Y3) (y : ℤ) (h1 : Y1 ≤ y) (h3 : y ≤ Y3) :
    ∃ seg : ℤ, segment_height_f F t y = some seg ∧
      (seg = 0 ∨ ∃ r : ℚ, beta_f F t seg y = FVal.fin r ∧ 0 ≤ r ∧ r ≤ 1) := by
  have hofy : of_int F y = FVal.fin (y : ℚ) :=
    of_int_exact hF y (by rw [abs_le]; constructor <;> omega)
  have hsh : second_half_f F t y = true ↔ (Y2 < y ∨ Y2 = Y1) := by
    unfold second_half_f
    rw [hy1, hy2, hofy]
    simp only [flt, feq, Bool.or_eq_true, decide_eq_true_eq]
    constructor
    · rintro (h | h)
      · exact Or.inl (by exact_mod_cast h)
      · exact Or.inr (by exact_mod_cast h)
    · rintro (h | h)
      · exact Or.inl (by exact_mod_cast h)
      · exact Or.inr (by exact_mod_cast h)
  unfold segment_height_f beta_f
  by_cases hs : second_half_f F t y = true
  · have hs2 := hsh.1 hs
    rw [if_pos hs, hy2, hy3, fsub_int hF Y3 Y2 (by rw [abs_le]; constructor <;> omega),
      to_int_intCast _ (by omega) (by omega)]
    refine ⟨Y3 - Y2, rfl, ?_⟩
    by_cases hz : Y3 - Y2 = 0
    · exact Or.inl hz
    · right
      rw [if_pos hs, hofy, of_int_exact hF (Y3 - Y2) (by rw [abs_le]; constructor <;> omega),
        fsub_int hF y Y2 (by rw [abs_le]; constructor <;> omega)]
      exact fdiv_unit hF (y - Y2) (Y3 - Y2) (by omega) (by omega) (by omega)
  · have hs2 : ¬ (Y2 < y ∨ Y2 = Y1) := fun h => hs (hsh.2 h)
    push_neg at hs2
    rw [if_neg hs, hy1, hy2, fsub_int hF Y2 Y1 (by rw [abs_le]; constructor <;> omega),
      to_int_intCast _ (by omega) (by omega)]
    refine ⟨Y2 - Y1, rfl, ?_⟩
    right
    rw [if_neg hs, hofy, of_int_exact hF (Y2 - Y1) (by rw [abs_le]; constructor <;> omega),
      fsub_int hF y Y1 (by rw [abs_le]; constructor <;> omega)]
    exact fdiv_unit hF (y - Y1) (Y2 - Y1) (by omega) (by omega) (by omega)

/-- One scanline of a triangle with integer coordinates within `2 ^ 23`, sorted by `y`:
it runs without undefined behaviour and changes only cells of the row `y` in the
columns `xlo .. xhi`. -/
theorem scanline_f_frame {F : Fmt} (hF : lawful F) (t : FTri) (X1 X2 X3 Y1 Y2 Y3 : ℤ)
    (hx1 : t.p1.x = FVal.fin (X1 : ℚ)) (hx2 : t.p2.x = FVal.fin (X2 : ℚ))
    (hx3 : t.p3.x = FVal.fin (X3 : ℚ)) (hy1 : t.p1.y = FVal.fin (Y1 : ℚ))
    (hy2 : t.p2.y = FVal.fin (Y2 : ℚ)) (hy3 : t.p3.y = FVal.fin (Y3 : ℚ))
    (xlo xhi : ℤ) (hlo : -2 ^ 23 ≤ xlo) (hhi : xhi ≤ 2 ^ 23)
    (b1 : xlo ≤ X1 ∧ X1 ≤ xhi) (b2 : xlo ≤ X2 ∧ X2 ≤ xhi) (b3 : xlo ≤ X3 ∧ X3 ≤ xhi)
    (hylo : -2 ^ 23 ≤ Y1) (hyhi : Y3 ≤ 2 ^ 23) (h12 : Y1 ≤ Y2) (h23 : Y2 ≤ Y3)
    (hth : Y1 < Y3) (shade : wchar_t) (y : ℤ) (h1 : Y1 ≤ y) (h3 : y ≤ Y3) (s : FBuffers) :
    ∃ s1 : FBuffers, scanline_f F t (Y3 - Y1) shade y s = some s1 ∧
      ∀ (cy : Fin HEIGHT) (cx : Fin WIDTH),
        ¬ (y = (cy : ℤ) ∧ xlo ≤ (cx : ℤ) ∧ (cx : ℤ) ≤ xhi) →
        s1.zbuffer cy cx = s.zbuffer cy cx ∧ s1.buffer cy cx = s.buffer cy cx := by
  obtain ⟨seg, hseg, hbeta⟩ := beta_f_unit hF t Y1 Y2 Y3 hy1 hy2 hy3 hylo hyhi h12 h23 y h1 h3
  obtain ⟨ra, hra, ra0, ra1⟩ := alpha_f_unit hF t Y1 Y3 hy1 hylo hyhi hth y h1 h3
  unfold scanline_f
  rw [hseg]
  simp only []
  by_cases hz : seg = 0
  · rw [if_pos hz]
    exact ⟨s, rfl, fun _ _ _ => ⟨rfl, rfl⟩⟩
  · rw [if_neg hz]
    rcases hbeta with hb | ⟨rb, hrb, rb0, rb1⟩
    · exact absurd hb hz
    · obtain ⟨a, b, hA, hB, ⟨a1, a2⟩, ⟨c1, c2⟩⟩ := edges_f_x hF t X1 X2 X3 hx1 hx2 hx3 xlo xhi
        hlo hhi b1 b2 b3 y ra rb ⟨ra0, ra1⟩ ⟨rb0, rb1⟩
      obtain ⟨hti, t1, t2⟩ := to_int_between a xlo xhi hlo hhi a1 a2
      rw [hra, hrb, hA, hti]
      simp only []
      have hbud : xhi + 2 - toInt a ≤ ((int_budget (toInt a) : ℕ) : ℤ) := by
        have := int_budget_spec (toInt a) (by simp only [INT_MAX]; omega)
        simp only [INT_MAX] at this
        omega
      exact xloop_f_frame hF _ b hB xlo xhi hlo hhi c2 y shade _ (toInt a) t1 (by omega) hbud s

/-- The `y` loop of a triangle with integer coordinates within `2 ^ 23`, sorted by `y`:
it terminates without undefined behaviour and changes only cells in the rows
`Y1 .. Y3` and the columns `xlo .. xhi`. -/
theorem yloop_f_frame {F : Fmt} (hF : lawful F) (t : FTri) (X1 X2 X3 Y1 Y2 Y3 : ℤ)
    (hx1 : t.p1.x = FVal.fin (X1 : ℚ)) (hx2 : t.p2.x = FVal.fin (X2 : ℚ))
    (hx3 : t.p3.x = FVal.fin (X3 : ℚ)) (hy1 : t.p1.y = FVal.fin (Y1 : ℚ))
    (hy2 : t.p2.y = FVal.fin (Y2 : ℚ)) (hy3 : t.p3.y = FVal.fin (Y3 : ℚ))
    (xlo xhi : ℤ) (hlo : -2 ^ 23 ≤ xlo) (hhi : xhi ≤ 2 ^ 23)
    (b1 : xlo ≤ X1 ∧ X1 ≤ xhi) (b2 : xlo ≤ X2 ∧ X2 ≤ xhi) (b3 : xlo ≤ X3 ∧ X3 ≤ xhi)
    (hylo : -2 ^ 23 ≤ Y1) (hyhi : Y3 ≤ 2 ^ 23) (h12 : Y1 ≤ Y2) (h23 : Y2 ≤ Y3)
    (hth : Y1 < Y3) (shade : wchar_t) (n : ℕ) (y : ℤ) (h1 : Y1 ≤ y) (h3 : y ≤ Y3 + 1)
    (hn : Y3 + 2 - y ≤ (n : ℤ)) (s : FBuffers) :
    ∃ s1 : FBuffers, yloop_f F t (Y3 - Y1) shade n y s = some s1 ∧
      ∀ (cy : Fin HEIGHT) (cx : Fin WIDTH),
        ¬ ((Y1 ≤ (cy : ℤ) ∧ (cy : ℤ) ≤ Y3) ∧ xlo ≤ (cx : ℤ) ∧ (cx : ℤ) ≤ xhi) →
        s1.zbuffer cy cx = s.zbuffer cy cx ∧ s1.buffer cy cx = s.buffer cy cx := by
  induction n generalizing y s with
  | zero =>
    exfalso
    have : (((0 : ℕ) : ℤ)) = 0 := rfl
    omega
  | succ n ih =>
    have hofy : of_int F y = FVal.fin (y : ℚ) :=
      of_int_exact hF y (by rw [abs_le]; constructor <;> omega)
    simp only [yloop_f]
    rw [hy3, hofy]
    by_cases hc : fle (FVal.fin (y : ℚ)) (FVal.fin (Y3 : ℚ)) = true
    · rw [if_pos hc]
      have hy3q : (y : ℚ) ≤ (Y3 : ℚ) := (fle_fin _ _).1 hc
      have hyY3 : y ≤ Y3 := by exact_mod_cast hy3q
      obtain ⟨s2, hs2, hfr2⟩ := scanline_f_frame hF t X1 X2 X3 Y1 Y2 Y3 hx1 hx2 hx3 hy1 hy2 hy3
        xlo xhi hlo hhi b1 b2 b3 hylo hyhi h12 h23 hth shade y h1 hyY3 s
      rw [hs2]
      simp only []
      have hmax : y ≠ INT_MAX := by
        simp only [INT_MAX]
        omega
      rw [if_neg hmax]
      obtain ⟨s1, hs1, hfr⟩ := ih (y + 1) (by omega) (by omega) (by push_cast at hn; omega) s2
      refine ⟨s1, hs1, ?_⟩
      intro cy cx hout
      obtain ⟨f1, f2⟩ := hfr cy cx hout
      obtain ⟨g1, g2⟩ := hfr2 cy cx (by
        rintro ⟨e, c1, c2⟩
        apply hout
        exact ⟨⟨by omega, by omega⟩, c1, c2⟩)
      rw [f1, f2, g1, g2]
      exact ⟨rfl, rfl⟩
    · rw [if_neg hc]
      exact ⟨s, rfl, fun _ _ _ => ⟨rfl, rfl⟩⟩

/-- Lines 89-128 on sorted locals with integer coordinates within `2 ^ 23`. -/
theorem fill_sorted_f_frame {F : Fmt} (hF : lawful F) (t : FTri) (X1 X2 X3 Y1 Y2 Y3 : ℤ)
    (hx1 : t.p1.x = FVal.fin (X1 : ℚ)) (hx2 : t.p2.x = FVal.fin (X2 : ℚ))
    (hx3 : t.p3.x = FVal.fin (X3 : ℚ)) (hy1 : t.p1.y = FVal.fin (Y1 : ℚ))
    (hy2 : t.p2.y = FVal.fin (Y2 : ℚ)) (hy3 : t.p3.y = FVal.fin (Y3 : ℚ))
    (xlo xhi : ℤ) (hlo : -2 ^ 23 ≤ xlo) (hhi : xhi ≤ 2 ^ 23)
    (b1 : xlo ≤ X1 ∧ X1 ≤ xhi) (b2 : xlo ≤ X2 ∧ X2 ≤ xhi) (b3 : xlo ≤ X3 ∧ X3 ≤ xhi)
    (hylo : -2 ^ 23 ≤ Y1) (hyhi : Y3 ≤ 2 ^ 23) (h12 : Y1 ≤ Y2) (h23 : Y2 ≤ Y3)
    (shade : wchar_t) (s : FBuffers) :
    ∃ s1 : FBuffers, fill_sorted_f F s t shade = some s1 ∧
      ∀ (cy : Fin HEIGHT) (cx : Fin WIDTH),
        ¬ ((Y1 ≤ (cy : ℤ) ∧ (cy : ℤ) ≤ Y3) ∧ xlo ≤ (cx : ℤ) ∧ (cx : ℤ) ≤ xhi) →
        s1.zbuffer cy cx = s.zbuffer cy cx ∧ s1.buffer cy cx = s.buffer cy cx := by
  unfold fill_sorted_f total_height_f
  rw [hy1, hy3, fsub_int hF Y3 Y1 (by rw [abs_le]; constructor <;> omega),
    to_int_intCast _ (by omega) (by omega)]
  simp only []
  by_cases hz : Y3 - Y1 = 0
  · rw [if_pos hz]
    exact ⟨s, rfl, fun _ _ _ => ⟨rfl, rfl⟩⟩
  · rw [if_neg hz, to_int_intCast _ (by omega) (by omega)]
    simp only []
    have hbud : Y3 + 2 - Y1 ≤ ((int_budget Y1 : ℕ) : ℤ) := by
      have := int_budget_spec Y1 (by simp only [INT_MAX]; omega)
      simp only [INT_MAX] at this
      omega
    exact yloop_f_frame hF t X1 X2 X3 Y1 Y2 Y3 hx1 hx2 hx3 hy1 hy2 hy3 xlo xhi hlo hhi b1 b2 b3
      hylo hyhi h12 h23 (by omega) shade _ Y1 le_rfl (by omega) hbud s

/-! ## C18: changed cells and the bounding box -/

/-- C18 fails as stated: in `float` arithmetic the triangle with the integer vertices
`(-16777216, 0)`, `(-16777216, 0)`, `(3, 1)` has the bounding box `x <= 3`, but on the
scanline `y = 1` the difference `3 - (-16777216)` rounds to `16777220`, both span ends
are `x = 4`, and the cell `(4, 1)` of cleared buffers is written. -/
theorem changed_cell_outside_bounding_box :
    cell_of (draw_filled_triangle_f binary32 ⟨fun _ _ => FVal.pinf, fun _ _ => BLANK⟩
        ⟨FVal.fin (-16777216), FVal.fin 0⟩ ⟨FVal.fin (-16777216), FVal.fin 0⟩
        ⟨FVal.fin 3, FVal.fin 1⟩ (FVal.fin 0) (FVal.fin 0) (FVal.fin 0) 9608) 1 4 =
      some (FVal.fin 0, 9608) ∧
    ((⟨fun _ _ => FVal.pinf, fun _ _ => BLANK⟩ : FBuffers).buffer 1 4 = BLANK) ∧
    max (-16777216 : ℤ) (max (-16777216) 3) < 4 := by
  refine ⟨by decide!, rfl, by decide⟩

/-- C18, amended. For every buffer state and every triangle whose three vertices have
integer coordinates of absolute value at most `2^23` (any depths), the call of
`draw_filled_triangle` runs without undefined behaviour, and every cell `(x, y)` that
it changes lies inside the bounding box of the triangle (`min x <= x <= max x` and
`min y <= y <= max y` over the three vertices) and inside the grid; all other cells of
zbuffer and buffer are unchanged. Arithmetic is rounded in any lawful format `F`. -/
theorem draw_changes_in_bounding_box (F : Fmt) (hF : lawful F) (s : FBuffers)
    (shade : wchar_t) (x1 y1 x2 y2 x3 y3 : ℤ) (z1 z2 z3 : FVal)
    (hb : ∀ c ∈ [x1, y1, x2, y2, x3, y3], |c| ≤ 2 ^ 23) :
    ∃ s1 : FBuffers,
      draw_filled_triangle_f F s ⟨FVal.fin (x1 : ℚ), FVal.fin (y1 : ℚ)⟩
        ⟨FVal.fin (x2 : ℚ), FVal.fin (y2 : ℚ)⟩ ⟨FVal.fin (x3 : ℚ), FVal.fin (y3 : ℚ)⟩
        z1 z2 z3 shade = some s1 ∧
      ∀ (cy : Fin HEIGHT) (cx : Fin WIDTH),
        (s1.zbuffer cy cx ≠ s.zbuffer cy cx ∨ s1.buffer cy cx ≠ s.buffer cy cx) →
        (min x1 (min x2 x3) ≤ (cx : ℤ) ∧ (cx : ℤ) ≤ max x1 (max x2 x3)) ∧
        (min y1 (min y2 y3) ≤ (cy : ℤ) ∧ (cy : ℤ) ≤ max y1 (max y2 y3)) ∧
        (0 ≤ (cx : ℤ) ∧ (cx : ℤ) < WIDTH) ∧ (0 ≤ (cy : ℤ) ∧ (cy : ℤ) < HEIGHT) := by
  have hx1 := abs_le.1 (hb x1 (by simp))
  have hy1 := abs_le.1 (hb y1 (by simp))
  have hx2 := abs_le.1 (hb x2 (by simp))
  have hy2 := abs_le.1 (hb y2 (by simp))
  have hx3 := abs_le.1 (hb x3 (by simp))
  have hy3 := abs_le.1 (hb y3 (by simp))
  obtain ⟨⟨X1, Y1, e1, bx1, by1⟩, ⟨X2, Y2, e2, bx2, by2⟩, ⟨X3, Y3, e3, bx3, by3⟩⟩ :=
    sort_by_y_f_points
      ⟨⟨FVal.fin (x1 : ℚ), FVal.fin (y1 : ℚ)⟩, ⟨FVal.fin (x2 : ℚ), FVal.fin (y2 : ℚ)⟩,
        ⟨FVal.fin (x3 : ℚ), FVal.fin (y3 : ℚ)⟩, z1, z2, z3⟩
      (fun p => ∃ X Y : ℤ, p = ⟨FVal.fin (X : ℚ), FVal.fin (Y : ℚ)⟩ ∧
        (min x1 (min x2 x3) ≤ X ∧ X ≤ max x1 (max x2 x3)) ∧
        (min y1 (min y2 y3) ≤ Y ∧ Y ≤ max y1 (max y2 y3)))
      ⟨x1, y1, rfl, ⟨by omega, by omega⟩, ⟨by omega, by omega⟩⟩
      ⟨x2, y2, rfl, ⟨by omega, by omega⟩, ⟨by omega, by omega⟩⟩
      ⟨x3, y3, rfl, ⟨by omega, by omega⟩, ⟨by omega, by omega⟩⟩
  obtain ⟨a, b, c, ha, hb2, hc, hab, hbc⟩ :=
    sort_by_y_f_sorted
      ⟨⟨FVal.fin (x1 : ℚ), FVal.fin (y1 : ℚ)⟩, ⟨FVal.fin (x2 : ℚ), FVal.fin (y2 : ℚ)⟩,
        ⟨FVal.fin (x3 : ℚ), FVal.fin (y3 : ℚ)⟩, z1, z2, z3⟩ (y1 : ℚ) (y2 : ℚ) (y3 : ℚ) rfl rfl rfl
  rw [e1] at ha
  rw [e2] at hb2
  rw [e3] at hc
  simp only [FVal.fin.injEq] at ha hb2 hc
  rw [← ha, ← hb2] at hab
  rw [← hb2, ← hc] at hbc
  have h12 : Y1 ≤ Y2 := by exact_mod_cast hab
  have h23 : Y2 ≤ Y3 := by exact_mod_cast hbc
  obtain ⟨s1, hs1, hfr⟩ := fill_sorted_f_frame hF _ X1 X2 X3 Y1 Y2 Y3
    (by rw [e1]) (by rw [e2]) (by rw [e3]) (by rw [e1]) (by rw [e2]) (by rw [e3])
    (min x1 (min x2 x3)) (max x1 (max x2 x3)) (by omega) (by omega) bx1 bx2 bx3
    (by omega) (by omega) h12 h23 shade s
  refine ⟨s1, hs1, ?_⟩
  intro cy cx hch
  have hcx := cx.isLt
  have hcy := cy.isLt
  by_contra hout
  obtain ⟨f1, f2⟩ := hfr cy cx (by
    rintro ⟨⟨c1, c2⟩, c3, c4⟩
    apply hout
    refine ⟨⟨c3, c4⟩, ⟨by omega, by omega⟩, ⟨by omega, by exact_mod_cast hcx⟩,
      ⟨by omega, by exact_mod_cast hcy⟩⟩)
  rcases hch with h | h
  · exact h f1
  · exact h f2

/-- C18 amended, at a concrete input: `float` arithmetic, the triangle `(2,1), (9,3),
(4,6)` with depths `1, 2, 3` on cleared buffers. -/
theorem draw_changes_in_bounding_box_witness :
    (∀ c ∈ [(2 : ℤ), 1, 9, 3, 4, 6], |c| ≤ 2 ^ 23) ∧
      ∃ s1 : FBuffers,
        draw_filled_triangle_f binary32 ⟨fun _ _ => FVal.pinf, fun _ _ => BLANK⟩
          ⟨FVal.fin ((2 : ℤ) : ℚ), FVal.fin ((1 : ℤ) : ℚ)⟩
          ⟨FVal.fin ((9 : ℤ) : ℚ), FVal.fin ((3 : ℤ) : ℚ)⟩
          ⟨FVal.fin ((4 : ℤ) : ℚ), FVal.fin ((6 : ℤ) : ℚ)⟩
          (FVal.fin 1) (FVal.fin 2) (FVal.fin 3) 9608 = some s1 ∧
        ∀ (cy : Fin HEIGHT) (cx : Fin WIDTH),
          (s1.zbuffer cy cx ≠ FVal.pinf ∨ s1.buffer cy cx ≠ BLANK) →
          (min 2 (min 9 4) ≤ (cx : ℤ) ∧ (cx : ℤ) ≤ max 2 (max 9 4)) ∧
          (min 1 (min 3 6) ≤ (cy : ℤ) ∧ (cy : ℤ) ≤ max 1 (max 3 6)) ∧
          (0 ≤ (cx : ℤ) ∧ (cx : ℤ) < WIDTH) ∧ (0 ≤ (cy : ℤ) ∧ (cy : ℤ) < HEIGHT) :=
  ⟨by norm_num [abs_le],
    draw_changes_in_bounding_box binary32 binary32_lawful
      ⟨fun _ _ => FVal.pinf, fun _ _ => BLANK⟩ 9608 2 1 9 3 4 6 (FVal.fin 1) (FVal.fin 2)
      (FVal.fin 3) (by norm_num [abs_le])⟩

/-! ## Monotonicity of the rounded operations -/

theorem pack_ne_nan (F : Fmt) (q : ℚ) : pack F q ≠ FVal.nan := by
  unfold pack
  split_ifs <;> simp

theorem fle_ne_nan {a b : FVal} (h : fle a b = true) : a ≠ FVal.nan ∧ b ≠ FVal.nan := by
  cases a <;> cases b <;> simp_all [fle, flt, feq]

theorem fle_pinf {a : FVal} (h : a ≠ FVal.nan) : fle a FVal.pinf = true := by
  cases a <;> simp_all [fle, flt, feq]

theorem ninf_fle {a : FVal} (h : a ≠ FVal.nan) : fle FVal.ninf a = true := by
  cases a <;> simp_all [fle, flt, feq]

theorem pack_cases (F : Fmt) (q : ℚ) :
    (pack F q = FVal.pinf ∧ F.fmax < F.rnd q) ∨
      (pack F q = FVal.ninf ∧ F.rnd q < -F.fmax) ∨
      (pack F q = FVal.fin (F.rnd q) ∧ -F.fmax ≤ F.rnd q ∧ F.rnd q ≤ F.fmax) := by
  unfold pack
  by_cases h1 : F.fmax < F.rnd q
  · rw [if_pos h1]
    exact Or.inl ⟨rfl, h1⟩
  · rw [if_neg h1]
    by_cases h2 : F.rnd q < -F.fmax
    · rw [if_pos h2]
      exact Or.inr (Or.inl ⟨rfl, h2⟩)
    · rw [if_neg h2]
      exact Or.inr (Or.inr ⟨rfl, not_lt.1 h2, not_lt.1 h1⟩)

/-- Rounding with overflow is monotone. -/
theorem pack_mono {F : Fmt} (hF : lawful F) {a b : ℚ} (h : a ≤ b) :
    fle (pack F a) (pack F b) = true := by
  have hm := hF.1 a b h
  have hmax : (0 : ℚ) < F.fmax := lt_of_lt_of_le (by norm_num) hF.2.2
  rcases pack_cases F a with ⟨e1, c1⟩ | ⟨e1, c1⟩ | ⟨e1, c1, c1b⟩ <;>
    rcases pack_cases F b with ⟨e2, c2⟩ | ⟨e2, c2⟩ | ⟨e2, c2, c2b⟩ <;> rw [e1, e2] <;>
    first
    | exact (fle_fin _ _).2 hm
    | rfl
    | (exfalso; linarith)

theorem pack_zero {F : Fmt} (hF : lawful F) : pack F 0 = FVal.fin 0 := by
  have := pack_fin hF 0 (by rw [lawful_zero hF]; norm_num) (by rw [lawful_zero hF]; norm_num)
  rw [this, lawful_zero hF]

theorem fmul_fin (F : Fmt) (a c : ℚ) : fmul F (FVal.fin a) (FVal.fin c) = pack F (a * c) := rfl

theorem fmul_pinf_pos (F : Fmt) (c : ℚ) (hc : 0 < c) :
    fmul F FVal.pinf (FVal.fin c) = FVal.pinf := by
  simp [fmul, signed_inf, hc, hc.ne']

theorem fmul_ninf_pos (F : Fmt) (c : ℚ) (hc : 0 < c) :
    fmul F FVal.ninf (FVal.fin c) = FVal.ninf := by
  simp [fmul, signed_inf, not_lt.2 hc.le, hc.ne']

/-- Multiplication by a positive constant is monotone. -/
theorem fmul_const_mono {F : Fmt} (hF : lawful F) (c : ℚ) (hc : 0 < c) {v w : FVal}
    (h : fle v w = true) : fle (fmul F v (FVal.fin c)) (fmul F w (FVal.fin c)) = true := by
  cases v <;> cases w <;>
    (try simp only [fmul_fin, fmul_pinf_pos F c hc, fmul_ninf_pos F c hc]) <;>
    first
    | exact pack_mono hF (mul_le_mul_of_nonneg_right ((fle_fin _ _).1 h) hc.le)
    | exact fle_pinf (pack_ne_nan _ _)
    | exact ninf_fle (pack_ne_nan _ _)
    | rfl
    | (exfalso; simp [fle, flt, feq] at h)

/-- Addition of a constant is monotone. -/
theorem fadd_const_mono {F : Fmt} (hF : lawful F) (c : ℚ) {v w : FVal}
    (h : fle v w = true) : fle (fadd F v (FVal.fin c)) (fadd F w (FVal.fin c)) = true := by
  cases v <;> cases w <;>
    simp_all [fadd, fle_fin, fle_pinf, ninf_fle, pack_ne_nan] <;>
    first
    | exact pack_mono hF (by linarith)
    | simp_all [fle, flt, feq]

/-- Conversion to a lawful format is monotone. -/
theorem convert_mono {F : Fmt} (hF : lawful F) {v w : FVal} (h : fle v w = true) :
    fle (convert F v) (convert F w) = true := by
  cases v <;> cases w <;>
    simp_all [convert, fle_fin, fle_pinf, ninf_fle, pack_ne_nan] <;>
    first
    | exact pack_mono hF (by assumption)
    | simp_all [fle, flt, feq]

/-! ## The projection in rounded arithmetic -/

/-- The quotient `DEPTH / (p.z + DEPTH)` in `double`, for `p.z + DEPTH >= 2^-17`: it is
finite, between `0` and `100 * 2^17`, and `0` when the sum overflows. -/
theorem quot_f_eq {F : Fmt} (hF : lawful F) (z : ℚ) (hpos : 1 / 2 ^ 17 ≤ z + 100) :
    fdiv F (FVal.fin 100) (fadd F (FVal.fin z) (FVal.fin 100)) =
        FVal.fin (if F.fmax < F.rnd (z + 100) then 0 else F.rnd (100 / F.rnd (z + 100))) ∧
      (1 / 2 ^ 17 ≤ F.rnd (z + 100)) ∧
      0 ≤ F.rnd (100 / F.rnd (z + 100)) ∧ F.rnd (100 / F.rnd (z + 100)) ≤ 13107200 := by
  have hexact : F.rnd (1 / 2 ^ 17) = 1 / 2 ^ 17 := by
    have := hF.2.1 1 (-17) (by norm_num) (by norm_num)
    have e : ((1 : ℤ) : ℚ) * pow2 (-17) = 1 / 2 ^ 17 := by
      rw [pow2_eq]
      norm_num
    rwa [e] at this
  have hr : 1 / 2 ^ 17 ≤ F.rnd (z + 100) := by
    rw [← hexact]
    exact hF.1 _ _ hpos
  have hrpos : (0 : ℚ) < F.rnd (z + 100) := lt_of_lt_of_le (by norm_num) hr
  have hbig : F.rnd ((13107200 : ℤ) : ℚ) = ((13107200 : ℤ) : ℚ) :=
    lawful_int hF 13107200 (by norm_num)
  have hq1 : (0 : ℚ) ≤ 100 / F.rnd (z + 100) := div_nonneg (by norm_num) hrpos.le
  have hq2 : 100 / F.rnd (z + 100) ≤ ((13107200 : ℤ) : ℚ) := by
    rw [div_le_iff₀ hrpos]
    push_cast
    nlinarith
  obtain ⟨hp, p1, p2⟩ := pack_between hF 0 ((13107200 : ℤ) : ℚ) _ (lawful_zero hF) hbig hq1 hq2
    (by norm_num) (by norm_num)
  have hmax : (0 : ℚ) < F.fmax := lt_of_lt_of_le (by norm_num) hF.2.2
  refine ⟨?_, hr, p1, by push_cast at p2; exact p2⟩
  simp only [fadd]
  rcases pack_cases F (z + 100) with ⟨e, c⟩ | ⟨e, c⟩ | ⟨e, c1, c2⟩
  · rw [e, if_pos c]
    rfl
  · exfalso
    linarith
  · rw [e, if_neg (not_lt.2 c2)]
    simp only [fdiv]
    rw [if_neg hrpos.ne', hp]

/-- The local `scale` of `project` for two depths `z1 <= z2` with `z1 + DEPTH >= 2^-17`:
both values are finite and the second one is between `0` and the first one. -/
theorem scale_f_antitone {F32 F64 : Fmt} (h32 : lawful F32) (h64 : lawful F64) (z1 z2 : ℚ)
    (hz : z1 ≤ z2) (hpos : 1 / 2 ^ 17 ≤ z1 + 100) :
    ∃ s1 s2 : ℚ,
      convert F32 (fdiv F64 (FVal.fin 100) (fadd F64 (FVal.fin z1) (FVal.fin 100))) =
        FVal.fin s1 ∧
      convert F32 (fdiv F64 (FVal.fin 100) (fadd F64 (FVal.fin z2) (FVal.fin 100))) =
        FVal.fin s2 ∧ 0 ≤ s2 ∧ s2 ≤ s1 := by
  obtain ⟨e1, r1, a1, b1⟩ := quot_f_eq h64 z1 hpos
  obtain ⟨e2, r2, a2, b2⟩ := quot_f_eq h64 z2 (by linarith)
  have hr : F64.rnd (z1 + 100) ≤ F64.rnd (z2 + 100) := h64.1 _ _ (by linarith)
  have hr1 : (0 : ℚ) < F64.rnd (z1 + 100) := lt_of_lt_of_le (by norm_num) r1
  have hr2 : (0 : ℚ) < F64.rnd (z2 + 100) := lt_of_lt_of_le (by norm_num) r2
  have hbig : F32.rnd ((13107200 : ℤ) : ℚ) = ((13107200 : ℤ) : ℚ) :=
    lawful_int h32 13107200 (by norm_num)
  have hq : ∀ z : ℚ, 0 ≤ F64.rnd (100 / F64.rnd (z + 100)) →
      F64.rnd (100 / F64.rnd (z + 100)) ≤ 13107200 →
      (0 : ℚ) ≤ (if F64.fmax < F64.rnd (z + 100) then 0 else F64.rnd (100 / F64.rnd (z + 100))) ∧
      (if F64.fmax < F64.rnd (z + 100) then 0 else F64.rnd (100 / F64.rnd (z + 100))) ≤
        ((13107200 : ℤ) : ℚ) := by
    intro z c1 c2
    split_ifs
    · constructor <;> norm_num
    · exact ⟨c1, by push_cast; exact c2⟩
  obtain ⟨k1, k1b⟩ := hq z1 a1 b1
  obtain ⟨k2, k2b⟩ := hq z2 a2 b2
  obtain ⟨hp1, -, -⟩ := pack_between h32 0 ((13107200 : ℤ) : ℚ) _ (lawful_zero h32) hbig k1 k1b
    (by norm_num) (by norm_num)
  obtain ⟨hp2, l2, -⟩ := pack_between h32 0 ((13107200 : ℤ) : ℚ) _ (lawful_zero h32) hbig k2 k2b
    (by norm_num) (by norm_num)
  refine ⟨F32.rnd (if F64.fmax < F64.rnd (z1 + 100) then 0
      else F64.rnd (100 / F64.rnd (z1 + 100))),
    F32.rnd (if F64.fmax < F64.rnd (z2 + 100) then 0
      else F64.rnd (100 / F64.rnd (z2 + 100))), ?_, ?_, l2, ?_⟩
  · rw [e1]
    simp only [convert]
    exact hp1
  · rw [e2]
    simp only [convert]
    exact hp2
  · apply h32.1
    by_cases c1 : F64.fmax < F64.rnd (z1 + 100)
    · have c2 : F64.fmax < F64.rnd (z2 + 100) := lt_of_lt_of_le c1 hr
      rw [if_pos c1, if_pos c2]
    · rw [if_neg c1]
      split_ifs
      · exact a1
      · apply h64.1
        exact div_le_div_of_nonneg_left (by norm_num) hr1 hr

theorem offset_le_above (c : ℚ) {v1 v2 : FVal} (h1 : fle (FVal.fin c) v2 = true)
    (h2 : fle v2 v1 = true) : offset_from v2 c ≤ offset_from v1 c := by
  cases v1 <;> cases v2 <;> simp_all [offset_from, fle, flt, feq, ← le_iff_lt_or_eq]
  rw [abs_of_nonneg (by linarith), abs_of_nonneg (by linarith)]
  linarith

theorem offset_le_below (c : ℚ) {v1 v2 : FVal} (h1 : fle v2 (FVal.fin c) = true)
    (h2 : fle v1 v2 = true) : offset_from v2 c ≤ offset_from v1 c := by
  cases v1 <;> cases v2 <;> simp_all [offset_from, fle, flt, feq, ← le_iff_lt_or_eq]
  rw [abs_of_nonpos (by linarith), abs_of_nonpos (by linarith)]
  linarith

/-- One coordinate of `project`: `(p.x * scale * CUBE_SIZE) + c` for two values of
`scale` with `0 <= s2 <= s1` and an integer constant `c`. The smaller scale gives a
value at most as far from `c`, and neither value is NaN. -/
theorem coordinate_f_offset {F32 F64 : Fmt} (h32 : lawful F32) (h64 : lawful F64)
    (x s1 s2 : ℚ) (c : ℤ) (hc : |c| ≤ 2 ^ 24) (h0 : 0 ≤ s2) (h12 : s2 ≤ s1) :
    convert F32 (fadd F64 (fmul F64 (fmul F32 (FVal.fin x) (FVal.fin s1)) (FVal.fin 15))
        (of_int F64 c)) ≠ FVal.nan ∧
      convert F32 (fadd F64 (fmul F64 (fmul F32 (FVal.fin x) (FVal.fin s2)) (FVal.fin 15))
        (of_int F64 c)) ≠ FVal.nan ∧
      offset_from (convert F32 (fadd F64 (fmul F64 (fmul F32 (FVal.fin x) (FVal.fin s2))
        (FVal.fin 15)) (of_int F64 c))) (c : ℚ) ≤
      offset_from (convert F32 (fadd F64 (fmul F64 (fmul F32 (FVal.fin x) (FVal.fin s1))
        (FVal.fin 15)) (of_int F64 c))) (c : ℚ) := by
  rw [of_int_exact h64 c hc]
  have hmono : ∀ v w : FVal, fle v w = true →
      fle (convert F32 (fadd F64 (fmul F64 v (FVal.fin 15)) (FVal.fin (c : ℚ))))
        (convert F32 (fadd F64 (fmul F64 w (FVal.fin 15)) (FVal.fin (c : ℚ)))) = true :=
    fun v w h => convert_mono h32 (fadd_const_mono h64 _ (fmul_const_mono h64 15 (by norm_num) h))
  have hzero : convert F32 (fadd F64 (fmul F64 (FVal.fin 0) (FVal.fin 15)) (FVal.fin (c : ℚ))) =
      FVal.fin (c : ℚ) := by
    have e64 := of_int_exact h64 c hc
    have e32 := of_int_exact h32 c hc
    unfold of_int at e64 e32
    rw [fmul_fin, zero_mul, pack_zero h64]
    simp only [fadd, zero_add]
    rw [e64]
    simp only [convert]
    exact e32
  simp only [fmul_fin]
  rcases le_total 0 x with hx | hx
  · have a1 : fle (FVal.fin 0) (pack F32 (x * s2)) = true := by
      rw [← pack_zero h32]
      exact pack_mono h32 (mul_nonneg hx h0)
    have a2 : fle (pack F32 (x * s2)) (pack F32 (x * s1)) = true :=
      pack_mono h32 (mul_le_mul_of_nonneg_left h12 hx)
    have b1 := hmono _ _ a1
    have b2 := hmono _ _ a2
    rw [hzero] at b1
    exact ⟨(fle_ne_nan b2).2, (fle_ne_nan b2).1, offset_le_above _ b1 b2⟩
  · have a1 : fle (pack F32 (x * s2)) (FVal.fin 0) = true := by
      rw [← pack_zero h32]
      exact pack_mono h32 (mul_nonpos_of_nonpos_of_nonneg hx h0)
    have a2 : fle (pack F32 (x * s1)) (pack F32 (x * s2)) = true :=
      pack_mono h32 (mul_le_mul_of_nonpos_left h12 hx)
    have b1 := hmono _ _ a1
    have b2 := hmono _ _ a2
    rw [hzero] at b1
    exact ⟨(fle_ne_nan b2).1, (fle_ne_nan b2).2, offset_le_below _ b1 b2⟩

/-- The projection in any two lawful formats (`F32` for `float`, `F64` for `double`):
for `z1 <= z2` with `z1 + DEPTH >= 2^-17` the projected coordinates are not NaN and
their distances from `60` and `20` do not grow from `z1` to `z2`. -/
theorem project_f_monotone {F32 F64 : Fmt} (h32 : lawful F32) (h64 : lawful F64)
    (x y z1 z2 : ℚ) (hz : z1 ≤ z2) (hpos : 1 / 2 ^ 17 ≤ z1 + 100) :
    ((project_f F32 F64 ⟨FVal.fin x, FVal.fin y, FVal.fin z1⟩).x ≠ FVal.nan ∧
      (project_f F32 F64 ⟨FVal.fin x, FVal.fin y, FVal.fin z2⟩).x ≠ FVal.nan ∧
      offset_from (project_f F32 F64 ⟨FVal.fin x, FVal.fin y, FVal.fin z2⟩).x 60 ≤
        offset_from (project_f F32 F64 ⟨FVal.fin x, FVal.fin y, FVal.fin z1⟩).x 60) ∧
    ((project_f F32 F64 ⟨FVal.fin x, FVal.fin y, FVal.fin z1⟩).y ≠ FVal.nan ∧
      (project_f F32 F64 ⟨FVal.fin x, FVal.fin y, FVal.fin z2⟩).y ≠ FVal.nan ∧
      offset_from (project_f F32 F64 ⟨FVal.fin x, FVal.fin y, FVal.fin z2⟩).y 20 ≤
        offset_from (project_f F32 F64 ⟨FVal.fin x, FVal.fin y, FVal.fin z1⟩).y 20) := by
  obtain ⟨s1, s2, e1, e2, h0, h12⟩ := scale_f_antitone h32 h64 z1 z2 hz hpos
  have hx := coordinate_f_offset h32 h64 x s1 s2 60 (by norm_num) h0 h12
  have hy := coordinate_f_offset h32 h64 y s1 s2 20 (by norm_num) h0 h12
  unfold project_f
  simp only [e1, e2]
  have c60 : (((WIDTH / 2 : ℕ) : ℤ)) = 60 := by decide
  have c20 : (((HEIGHT / 2 : ℕ) : ℤ)) = 20 := by decide
  rw [c60, c20]
  push_cast at hx hy
  exact ⟨hx, hy⟩

/-- A `float` above `-100` is above it by at least `2^-17`, the spacing of the `float`
values between `64` and `128` in absolute value. -/
theorem float_above_minus_depth (q : ℚ) (hq : binary32.rnd q = q) (h : 0 < q + 100) :
    1 / 2 ^ 17 ≤ q + 100 := by
  by_contra hlt
  push_neg at hlt
  have hneg : q < 0 := by
    norm_num at hlt
    linarith
  have habs : |q| = -q := abs_of_neg hneg
  have hlog : ilog2 q = 6 := by
    apply ilog2_unique
    · rw [habs, pow2_eq]
      norm_num at hlt ⊢
      linarith
    · rw [habs, pow2_eq]
      norm_num
      linarith
  have hulp : ulp 24 (-126) q = 1 / 2 ^ 17 := by
    unfold ulp
    rw [hlog, pow2_eq]
    norm_num
  have hrne : rne 24 (-126) q = q := hq
  unfold rne at hrne
  rw [if_neg hneg.ne, hulp] at hrne
  have hpos : (0 : ℚ) < ((round_even (q / (1 / 2 ^ 17)) + 13107200 : ℤ) : ℚ) := by
    push_cast
    rw [← hrne] at h
    norm_num at h ⊢
    linarith
  have hsm : ((round_even (q / (1 / 2 ^ 17)) + 13107200 : ℤ) : ℚ) < 1 := by
    push_cast
    rw [← hrne] at hlt
    norm_num at hlt ⊢
    linarith
  have i1 : 0 < round_even (q / (1 / 2 ^ 17)) + 13107200 := by exact_mod_cast hpos
  have i2 : round_even (q / (1 / 2 ^ 17)) + 13107200 < 1 := by exact_mod_cast hsm
  omega

/-! ## C13: the projection is monotone in z, not strictly -/

/-- C13 fails as stated: in `float` arithmetic, for `x = y = 1` and the depths
`z1 = 0 < z2 = 2^-20` (both `float` values, `z1 + 100 > 0`, `x != 0`), the quotient
`100 / (100 + 2^-20)` rounds to the `float` `1.0`, the value of `scale` at `z1`, and both
calls of `project` return `(75, 35)`: the distance from `60` does not decrease strictly. -/
theorem project_not_strictly_monotone :
    ((0 : ℚ) < 1 / 2 ^ 20 ∧ (0 : ℚ) < 0 + 100 ∧ (1 : ℚ) ≠ 0 ∧
        binary32.rnd (1 / 2 ^ 20) = 1 / 2 ^ 20) ∧
      (project_f binary32 binary64 ⟨FVal.fin 1, FVal.fin 1, FVal.fin 0⟩).x = FVal.fin 75 ∧
      (project_f binary32 binary64 ⟨FVal.fin 1, FVal.fin 1, FVal.fin (1 / 2 ^ 20)⟩).x =
        FVal.fin 75 ∧
      (project_f binary32 binary64 ⟨FVal.fin 1, FVal.fin 1, FVal.fin 0⟩).y = FVal.fin 35 ∧
      (project_f binary32 binary64 ⟨FVal.fin 1, FVal.fin 1, FVal.fin (1 / 2 ^ 20)⟩).y =
        FVal.fin 35 := by
  refine ⟨⟨by norm_num, by norm_num, by norm_num, by decide!⟩, by decide!, by decide!,
    by decide!, by decide!⟩

/-- C13, amended. Projection is monotonic in `z`, not strictly: for every finite `x`, `y`,
every `float` value `z1` and every `z2` with `z1 < z2` and `z1 + 100 > 0`, the
coordinates of `project((x,y,z1))` and `project((x,y,z2))` are not NaN and
`|project((x,y,z2)).x - 60| <= |project((x,y,z1)).x - 60|`, and likewise for the `y`
coordinate about `20`; a coordinate that overflowed to an infinity counts as farther
than every finite one. Arithmetic is rounded as in the code: `float` operations in
`binary32`, operations with a `double` operand in `binary64`. -/
theorem project_monotone_in_z (x y z1 z2 : ℚ) (hz1 : binary32.rnd z1 = z1) (hz : z1 < z2)
    (hpos : 0 < z1 + 100) :
    ((project_f binary32 binary64 ⟨FVal.fin x, FVal.fin y, FVal.fin z1⟩).x ≠ FVal.nan ∧
      (project_f binary32 binary64 ⟨FVal.fin x, FVal.fin y, FVal.fin z2⟩).x ≠ FVal.nan ∧
      offset_from (project_f binary32 binary64 ⟨FVal.fin x, FVal.fin y, FVal.fin z2⟩).x 60 ≤
        offset_from (project_f binary32 binary64 ⟨FVal.fin x, FVal.fin y, FVal.fin z1⟩).x 60) ∧
    ((project_f binary32 binary64 ⟨FVal.fin x, FVal.fin y, FVal.fin z1⟩).y ≠ FVal.nan ∧
      (project_f binary32 binary64 ⟨FVal.fin x, FVal.fin y, FVal.fin z2⟩).y ≠ FVal.nan ∧
      offset_from (project_f binary32 binary64 ⟨FVal.fin x, FVal.fin y, FVal.fin z2⟩).y 20 ≤
        offset_from (project_f binary32 binary64 ⟨FVal.fin x, FVal.fin y, FVal.fin z1⟩).y 20) :=
  project_f_monotone binary32_lawful binary64_lawful x y z1 z2 hz.le
    (float_above_minus_depth z1 hz1 hpos)

/-- C13 amended, at a concrete input: `x = 3`, `y = -2`, `z1 = -1`, `z2 = 1`. -/
theorem project_monotone_in_z_witness :
    (binary32.rnd (-1) = -1 ∧ (-1 : ℚ) < 1 ∧ (0 : ℚ) < -1 + 100) ∧
      offset_from (project_f binary32 binary64 ⟨FVal.fin 3, FVal.fin (-2), FVal.fin 1⟩).x 60 ≤
        offset_from (project_f binary32 binary64 ⟨FVal.fin 3, FVal.fin (-2), FVal.fin (-1)⟩).x 60 :=
  ⟨⟨by decide!, by norm_num, by norm_num⟩,
    (project_monotone_in_z 3 (-2) (-1) 1 (by decide!) (by norm_num) (by norm_num)).1.2.2⟩

/-! ## Counterexamples in float arithmetic for zero-height tests and argument orders -/

/-- C4 fails as stated: the triangle `(0,0), (0,0), (0,1)` has two identical points
(and is collinear), yet on cleared buffers the call, in `float` arithmetic, writes the
shade at the cells `(0,0)` and `(0,1)`: `total_height` is `1`, and each scanline has a
zero-width span that line 119 fills as one pixel with `phi = 1.0`. -/
theorem degenerate_triangle_is_drawn :
    cell_of (draw_filled_triangle_f binary32 ⟨fun _ _ => FVal.pinf, fun _ _ => BLANK⟩
        ⟨FVal.fin 0, FVal.fin 0⟩ ⟨FVal.fin 0, FVal.fin 0⟩ ⟨FVal.fin 0, FVal.fin 1⟩
        (FVal.fin 0) (FVal.fin 0) (FVal.fin 0) 9608) 0 0 = some (FVal.fin 0, 9608) ∧
      cell_of (draw_filled_triangle_f binary32 ⟨fun _ _ => FVal.pinf, fun _ _ => BLANK⟩
        ⟨FVal.fin 0, FVal.fin 0⟩ ⟨FVal.fin 0, FVal.fin 0⟩ ⟨FVal.fin 0, FVal.fin 1⟩
        (FVal.fin 0) (FVal.fin 0) (FVal.fin 0) 9608) 1 0 = some (FVal.fin 0, 9608) ∧
      (9608 : wchar_t) ≠ BLANK ∧ degenerate (⟨0, 0⟩ : Point2D ℚ) ⟨0, 0⟩ ⟨0, 1⟩ := by
  refine ⟨by decide!, by decide!, by decide, Or.inr (Or.inl rfl)⟩

/-- C17 fails as stated: with the pairs `a = ((0,0), 1.1f)`, `b = ((4,0), 2.3f)`,
`c = ((2,2), 0.7f)` (three distinct points; `a` and `b` have the same `y`), the argument
orders `(a, b, c)` and `(b, a, c)` leave the different depths `0.70000005` and `0.69999999`
in the cell `(2, 2)` of cleared buffers, in `float` arithmetic: the apex span has zero width and takes the
depth `zB`, which is interpolated from the pair sorted second, with a different
rounding error. -/
theorem argument_order_changes_depth :
    cell_of (draw_filled_triangle_f binary32 ⟨fun _ _ => FVal.pinf, fun _ _ => BLANK⟩
        ⟨FVal.fin 0, FVal.fin 0⟩ ⟨FVal.fin 4, FVal.fin 0⟩ ⟨FVal.fin 2, FVal.fin 2⟩
        (FVal.fin (9227469 / 8388608)) (FVal.fin (9646899 / 4194304))
        (FVal.fin (11744051 / 16777216)) 9608) 2 2 =
      some (FVal.fin (11744052 / 16777216), 9608) ∧
    cell_of (draw_filled_triangle_f binary32 ⟨fun _ _ => FVal.pinf, fun _ _ => BLANK⟩
        ⟨FVal.fin 4, FVal.fin 0⟩ ⟨FVal.fin 0, FVal.fin 0⟩ ⟨FVal.fin 2, FVal.fin 2⟩
        (FVal.fin (9646899 / 4194304)) (FVal.fin (9227469 / 8388608))
        (FVal.fin (11744051 / 16777216)) 9608) 2 2 =
      some (FVal.fin (11744051 / 16777216), 9608) ∧
    (11744052 / 16777216 : ℚ) ≠ 11744051 / 16777216 := by
  refine ⟨by decide!, by decide!, by norm_num⟩

end Cube
